import Mathlib

/-! # gutils: connection server, worker pool and deque

A verification development for the Go packages `server`, `workerpool` and
`containers`.

* `Gutils.Server` embeds `server/conncetion.go`: the life of one `Connection`
  (`Do`, `handleRead`, `Close`) as state-passing functions that record every call
  made to the handler, the protocol and the socket in a trace.
  The read loop runs in one goroutine; `sync.Once` makes `Close` atomic for every
  other caller, so a `Close` from elsewhere shows as the `closed` flag of the state a
  pass of the loop starts from, and the statements about one pass hold for every such
  state.
* `Gutils.Pool` embeds `workerpool/pool.go` and `workerpool/worker.go` as a labelled
  transition system whose labels are the goroutines that can take a step. A send and
  a receive on an unbuffered channel are one step; a step that is not enabled is a
  blocked goroutine; a panic stops the program.
* `Gutils.Containers` embeds `containers/deque.go`: the block table as a function,
  every operation as a function that answers `none` where the Go code panics on an
  index or a slice bound.
-/

namespace Gutils
namespace Server

/-- The error returned by `c.reader.Peek(1)`. `handleRead` only asks whether the error
implements `net.Error` and, if so, what its `Timeout()` method answers. -/
inductive PeekErr
  | netError (timeout : Bool)
  | other
  deriving DecidableEq, Repr

deriving instance DecidableEq for Except

/-- Calls made on behalf of one connection, in the order they happen. The arguments
record what was passed and what came back. -/
inductive Event (P E : Type)
  | wgAdd
  | wgDone
  | onAccept (r : Bool)
  | peek (r : Option PeekErr)
  | readPacket (r : Except E P)
  | onMessage (p : P) (r : Bool)
  | onTimeout (r : Bool)
  | closeChan
  | onClose
  | connClose
  deriving DecidableEq, Repr

/-- Everything a `Connection` talks to: the `ConnectionHandler` and the `Protocol` of
its server and the socket under its buffered reader. `W` is the state all of them
share (socket contents, handler variables, deadlines); each call may change it. -/
structure Env (W P E : Type) where
  OnAccept : W → Bool × W
  OnMessage : P → W → Bool × W
  OnTimeout : W → Bool × W
  OnClose : W → W
  ReadPacket : W → Except E P × W
  Peek : W → Option PeekErr × W
  connClose : W → W

/-- A `Connection`. `closed` stands for the pair `closeOnce`/`closeChan`: the channel
is closed by the function run under `closeOnce` and nowhere else, so the once has
fired exactly when the channel is closed. -/
structure Connection (W P E : Type) where
  closed : Bool
  world : W
  trace : List (Event P E)

variable {W P E : Type}

/-- The constructor `NewConnection`: nothing is called yet and `closeChan` is open. -/
def NewConnection (w : W) : Connection W P E :=
  { closed := false, world := w, trace := [] }

/-- The method `Connection.Close`: under `closeOnce`, close `closeChan`, call `OnClose`, close the
socket. -/
def Connection.Close (env : Env W P E) (c : Connection W P E) : Connection W P E :=
  if c.closed then c
  else
    { closed := true
      world := env.connClose (env.OnClose c.world)
      trace := c.trace ++ [Event.closeChan, Event.onClose, Event.connClose] }

/-- One pass through the body of the `for` loop of `handleRead`. The boolean is `true`
when the pass ends in the next pass (`continue`, or falling off the end of the body)
and `false` when it ends in `return`. -/
def Connection.iteration (env : Env W P E) (c : Connection W P E) :
    Connection W P E × Bool :=
  if c.closed then (c, false)
  else
    let pk := env.Peek c.world
    match pk.1 with
    | some err =>
      let c1 : Connection W P E :=
        { c with world := pk.2, trace := c.trace ++ [Event.peek (some err)] }
      match err with
      | PeekErr.netError true =>
        let t := env.OnTimeout pk.2
        ({ c1 with world := t.2, trace := c1.trace ++ [Event.onTimeout t.1] }, t.1)
      | _ => (c1, false)
    | none =>
      let rd := env.ReadPacket pk.2
      match rd.1 with
      | Except.error e =>
        ({ c with world := rd.2
                  trace := c.trace ++ [Event.peek none, Event.readPacket (Except.error e)] },
          false)
      | Except.ok p =>
        let m := env.OnMessage p rd.2
        ({ c with world := m.2
                  trace := c.trace ++
                    [Event.peek none, Event.readPacket (Except.ok p), Event.onMessage p m.1] },
          m.1)

/-- The `for` loop of `handleRead`, run for at most `n` passes. The boolean tells
whether the loop is still running after them. -/
def Connection.loopSteps (env : Env W P E) : Nat → Connection W P E → Connection W P E × Bool
  | 0, c => (c, true)
  | n + 1, c =>
    let r := Connection.iteration env c
    if r.2 then Connection.loopSteps env n r.1 else (r.1, false)

/-- The method `Connection.handleRead`: the loop, then the deferred `c.Close()`. `none` when the
loop has not returned within `fuel` passes. -/
def Connection.handleRead (env : Env W P E) (fuel : Nat) (c : Connection W P E) :
    Option (Connection W P E) :=
  let r := Connection.loopSteps env fuel c
  if r.2 then none else some (Connection.Close env r.1)

/-- Append one event to the trace. -/
def Connection.log (c : Connection W P E) (e : Event P E) : Connection W P E :=
  { c with trace := c.trace ++ [e] }

/-- The method `Connection.Do`: the job run by a worker. `waitGroup.Add(1)`, the deferred
`waitGroup.Done()`, `OnAccept`, then either `Close` or `handleRead`. -/
def Connection.Do (env : Env W P E) (fuel : Nat) (c : Connection W P E) :
    Option (Connection W P E) :=
  let c1 := c.log Event.wgAdd
  let a := env.OnAccept c1.world
  let c2 : Connection W P E := { c1 with world := a.2, trace := c1.trace ++ [Event.onAccept a.1] }
  if !a.1 then
    some ((Connection.Close env c2).log Event.wgDone)
  else
    (Connection.handleRead env fuel c2).map (fun c3 => c3.log Event.wgDone)

/-- The packets handed to `OnMessage`, in order. -/
def delivered : List (Event P E) → List P
  | [] => []
  | Event.onMessage p _ :: t => p :: delivered t
  | _ :: t => delivered t

/-- The packets `ReadPacket` returned without error, in order. -/
def packetsRead : List (Event P E) → List P
  | [] => []
  | Event.readPacket (Except.ok p) :: t => p :: packetsRead t
  | _ :: t => packetsRead t

/-- How many times `OnClose` was called. -/
def onCloseCount : List (Event P E) → Nat
  | [] => 0
  | Event.onClose :: t => onCloseCount t + 1
  | _ :: t => onCloseCount t

/-- How many times the socket was closed. -/
def connCloseCount : List (Event P E) → Nat
  | [] => 0
  | Event.connClose :: t => connCloseCount t + 1
  | _ :: t => connCloseCount t

/-! ### The accept loop and the wait-group -/

/-- What one call of `s.listener.Accept()` gives `serve`: a socket, or an error together
with the value of `s.stop` that `serve` reads next. -/
inductive Accepted (W : Type)
  | conn (sock : W)
  | err (stop : Bool)
  deriving DecidableEq, Repr

/-- Whether the accept result makes `serve` return: an error with the stop flag set. -/
def Accepted.isStop : Accepted W → Bool
  | Accepted.err true => true
  | _ => false

/-- The sockets among the accept results, in order. -/
def sockets : List (Accepted W) → List W
  | [] => []
  | Accepted.conn sock :: rest => sock :: sockets rest
  | Accepted.err _ :: rest => sockets rest

/-- The method `Server.serve`, run over the results of its calls of `Accept`: the
connections passed to `s.pool.Handle`, in order, and whether the loop has returned. -/
def serve : List (Accepted W) → List (Connection W P E) × Bool
  | [] => ([], false)
  | Accepted.err true :: _ => ([], true)
  | Accepted.err false :: rest => serve rest
  | Accepted.conn sock :: rest => (NewConnection sock :: (serve rest).1, (serve rest).2)

/-- The contribution of one connection to the counter of `s.waitGroup`: the calls of
`Add(1)` minus the calls of `Done()` made on its behalf so far. -/
def wgCount : List (Event P E) → Int
  | [] => 0
  | Event.wgAdd :: t => wgCount t + 1
  | Event.wgDone :: t => wgCount t - 1
  | _ :: t => wgCount t

/-- The counter of `s.waitGroup`, given the connections of the server. -/
def waitGroup (cs : List (Connection W P E)) : Int :=
  (cs.map (fun c => wgCount c.trace)).sum

/-- The number of connections that have not been closed. -/
def openConnections (cs : List (Connection W P E)) : Nat :=
  cs.countP (fun c => !c.closed)

/-- Whether the event is a call on the wait-group. -/
def Event.isWg : Event P E → Bool
  | Event.wgAdd => true
  | Event.wgDone => true
  | _ => false

/-! ### The handler and protocol of `server_test.go`

`Handler.OnAccept` and `Handler.OnMessage` answer `true` and `OnMessage` writes the
packet back, `Handler.OnTimeout` answers `false`; `TelnetProtocol.ReadPacket` returns
the next line or the `EOF` error. The world is the list of lines still to come from
the peer and the list of lines written back; a peer with nothing more to send lets
the read deadline pass. -/

/-- State of the test peer: lines still to be received, lines echoed so far. -/
structure TestWorld where
  incoming : List Nat
  echoed : List Nat
  deriving DecidableEq, Repr

/-- The environment made of `Handler`, `TelnetProtocol` and a scripted peer. -/
def testEnv : Env TestWorld Nat Unit where
  OnAccept := fun w => (true, w)
  OnMessage := fun p w => (true, { w with echoed := w.echoed ++ [p] })
  OnTimeout := fun w => (false, w)
  OnClose := fun w => w
  ReadPacket := fun w =>
    match w.incoming with
    | [] => (Except.error (), w)
    | p :: rest => (Except.ok p, { w with incoming := rest })
  Peek := fun w =>
    match w.incoming with
    | [] => (some (PeekErr.netError true), w)
    | _ :: _ => (none, w)
  connClose := fun w => w

/-- A handler that refuses every connection and stops at the first message;
otherwise as `testEnv`. -/
def refusingEnv : Env TestWorld Nat Unit :=
  { testEnv with
    OnAccept := fun w => (false, w)
    OnMessage := fun p w => (false, { w with echoed := w.echoed ++ [p] }) }

/-- A protocol that fails on every frame (as `TelnetProtocol` does at the end of the
stream) behind a socket whose peek always succeeds; otherwise as `testEnv`. -/
def framingEnv : Env TestWorld Nat Unit :=
  { testEnv with
    Peek := fun w => (none, w)
    ReadPacket := fun w => (Except.error (), w) }

end Server

namespace Pool

/-- A non-nil `Job` is identified by a number. -/
abbrev JobId := Nat

/-- A value of the interface type `Job`; `none` is the nil interface. -/
abbrev Job := Option JobId

/-- Where the goroutine started by `Worker.Start` stands. -/
inductive WorkerPC
  /-- at `w.pool <- w.jobsChan` -/
  | register
  /-- at `job, ok := <-w.jobsChan` -/
  | receive
  /-- inside `job.Do()` -/
  | doing (j : JobId)
  /-- at `w.stopChan <- true` -/
  | sendStop
  /-- after `return` -/
  | exited
  deriving DecidableEq, Repr

/-- A `Worker`: its job slot `jobsChan` (unbuffered; only its being closed is state)
and its goroutine. Its `stopChan` is unbuffered and never closed, so its only state is
whether the goroutine stands at the send. -/
structure Worker where
  jobsChanClosed : Bool
  pc : WorkerPC
  deriving DecidableEq, Repr

/-- The constructor `NewWorker` followed by `Start`: the goroutine is about to
register. -/
def NewWorker : Worker :=
  { jobsChanClosed := false, pc := WorkerPC.register }

/-- Where a goroutine `go func (job Job) { jobChan := <-p.pool; jobChan <- job }(job)`
started by the dispatcher stands. -/
inductive Handoff
  /-- at `jobChan := <-p.pool` -/
  | recvPool (j : JobId)
  /-- at `jobChan <- job`, where `jobChan` is the job slot of worker `w` -/
  | send (w : Nat) (j : JobId)
  /-- returned -/
  | finished
  deriving DecidableEq, Repr

/-- Where the goroutine started by `dispatch` stands. -/
inductive DispatcherPC
  /-- before `Run` is called -/
  | notStarted
  /-- at `job, ok := <-p.jobQueue` -/
  | receive
  /-- at `p.stopChan <- true` -/
  | sendStop
  /-- after `return` -/
  | exited
  deriving DecidableEq, Repr

/-- Where one call of `WorkerPool.Stop` stands. `workerCheck i`, `workerClose i` and
`workerWait i` are the three statements of `Worker.Stop` for the `i`-th worker of
`range p.workers`. -/
inductive StopPC
  /-- at `if p.Stopped()` -/
  | check
  /-- at `if w.Stopped()` -/
  | workerCheck (i : Nat)
  /-- at `close(w.jobsChan)` -/
  | workerClose (i : Nat)
  /-- at `<-w.stopChan` -/
  | workerWait (i : Nat)
  /-- at `close(p.jobQueue)` -/
  | closeQueue
  /-- at `<-p.stopChan` -/
  | waitStop
  /-- after `return` -/
  | returned
  deriving DecidableEq, Repr

/-- A `WorkerPool` with everything that runs on it. `jobQueue` is the content of the
buffered channel (capacity `queueLength`), `pool` the content of the channel of
registered job slots (capacity `maxWorkers`; a slot is named by the index of its
worker). `handoffs` and `stops` list the hand-off goroutines and the calls of `Stop`
in the order they were started. `started` and `done` record the jobs whose `Do` was
entered and left. `panicked` is set when a goroutine panics, which ends the program. -/
structure WorkerPool where
  maxWorkers : Nat
  queueLength : Nat
  workers : List Worker
  jobQueue : List Job
  jobQueueClosed : Bool
  pool : List Nat
  dispatcher : DispatcherPC
  handoffs : List Handoff
  stops : List StopPC
  started : List JobId
  done : List JobId
  panicked : Bool
  deriving DecidableEq, Repr

/-- The constructor `NewWorkerPool(workers, queueLength)`. -/
def NewWorkerPool (workers queueLength : Nat) : WorkerPool :=
  { maxWorkers := workers
    queueLength := queueLength
    workers := []
    jobQueue := []
    jobQueueClosed := false
    pool := []
    dispatcher := DispatcherPC.notStarted
    handoffs := []
    stops := []
    started := []
    done := []
    panicked := false }

/-- The `for` loop of `Run`, with `n` passes left: make a worker, start it, append it. -/
def WorkerPool.runLoop : Nat → WorkerPool → WorkerPool
  | 0, p => p
  | n + 1, p => WorkerPool.runLoop n { p with workers := p.workers ++ [NewWorker] }

/-- The method `WorkerPool.Run`: the loop, then `dispatch()`, which starts the dispatcher. -/
def WorkerPool.Run (p : WorkerPool) : WorkerPool :=
  { WorkerPool.runLoop p.maxWorkers p with dispatcher := DispatcherPC.receive }

/-- The method `WorkerPool.Stopped`: the `select` receives from `stopChan` when the dispatcher
stands at its send (which lets the dispatcher return) and takes `default` otherwise. -/
def WorkerPool.Stopped (p : WorkerPool) : Bool × WorkerPool :=
  if p.dispatcher = DispatcherPC.sendStop then
    (true, { p with dispatcher := DispatcherPC.exited })
  else (false, p)

/-- The method `Worker.Stopped`, read as `func (w * Worker) Stopped() (bool)` like its twin on the
pool: the `select` receives from `w.stopChan` when the worker stands at its send. -/
def Worker.Stopped (w : Worker) : Bool × Worker :=
  if w.pc = WorkerPC.sendStop then (true, { w with pc := WorkerPC.exited })
  else (false, w)

/-- What the dispatcher does with a job it received: a nil job is dropped, any other
job gets a hand-off goroutine of its own. -/
def WorkerPool.dispatchJob (p : WorkerPool) : Job → WorkerPool
  | none => p
  | some j => { p with handoffs := p.handoffs ++ [Handoff.recvPool j] }

/-- The program point of `Stop` that follows the `i - 1`-th pass of the loop over the
workers. -/
def WorkerPool.nextWorker (p : WorkerPool) (i : Nat) : StopPC :=
  if i < p.workers.length then StopPC.workerCheck i else StopPC.closeQueue

/-- The method `WorkerPool.Handle(job)`: `p.jobQueue <- job`. Panics on a closed queue,
buffers the job when there is room, hands it to the dispatcher directly when the queue
has no buffer and the dispatcher is receiving, and blocks (`none`) otherwise. -/
def WorkerPool.Handle (p : WorkerPool) (job : Job) : Option WorkerPool :=
  if p.jobQueueClosed then some { p with panicked := true }
  else if p.jobQueue.length < p.queueLength then
    some { p with jobQueue := p.jobQueue ++ [job] }
  else if p.queueLength = 0 ∧ p.dispatcher = DispatcherPC.receive then
    some (p.dispatchJob job)
  else none

/-- The method `WorkerPool.Stop`, with the body of `Worker.Stop` in place of each
`w.Stop()`: one step of the `t`-th call; `none` when it is blocked. A receive from a
`stopChan` goes through when the goroutine on the other side stands at its send. -/
def WorkerPool.Stop (p : WorkerPool) (t : Nat) : Option WorkerPool :=
  match p.stops[t]? with
  | none => none
  | some StopPC.check =>
    if (p.Stopped).1 then some { (p.Stopped).2 with stops := p.stops.set t StopPC.returned }
    else some { p with stops := p.stops.set t (p.nextWorker 0) }
  | some (StopPC.workerCheck i) =>
    match p.workers[i]? with
    | none => none
    | some w =>
      if (w.Stopped).1 then
        some { p with workers := p.workers.set i (w.Stopped).2
                      stops := p.stops.set t (p.nextWorker (i + 1)) }
      else some { p with stops := p.stops.set t (StopPC.workerClose i) }
  | some (StopPC.workerClose i) =>
    match p.workers[i]? with
    | none => none
    | some w =>
      if w.jobsChanClosed then some { p with panicked := true }
      else some { p with workers := p.workers.set i { w with jobsChanClosed := true }
                         stops := p.stops.set t (StopPC.workerWait i) }
  | some (StopPC.workerWait i) =>
    match p.workers[i]? with
    | none => none
    | some w =>
      if w.pc = WorkerPC.sendStop then
        some { p with workers := p.workers.set i { w with pc := WorkerPC.exited }
                      stops := p.stops.set t (p.nextWorker (i + 1)) }
      else none
  | some StopPC.closeQueue =>
    if p.jobQueueClosed then some { p with panicked := true }
    else some { p with jobQueueClosed := true, stops := p.stops.set t StopPC.waitStop }
  | some StopPC.waitStop =>
    if p.dispatcher = DispatcherPC.sendStop then
      some { p with dispatcher := DispatcherPC.exited, stops := p.stops.set t StopPC.returned }
    else none
  | some StopPC.returned => none

/-- The goroutine started by `WorkerPool.dispatch`, one step: receive from `jobQueue`
(buffered jobs first, then the closed state). At `p.stopChan <- true` it waits for a
receiver, whose step carries the exchange. -/
def WorkerPool.dispatch (p : WorkerPool) : Option WorkerPool :=
  match p.dispatcher with
  | DispatcherPC.receive =>
    match p.jobQueue with
    | job :: rest => some (WorkerPool.dispatchJob { p with jobQueue := rest } job)
    | [] =>
      if p.jobQueueClosed then some { p with dispatcher := DispatcherPC.sendStop }
      else none
  | _ => none

/-- The goroutine `go func (job Job) { ... }(job)` inside `dispatch`, one step of the
`h`-th of them: receive a registered job slot from `p.pool`, or send the job. The send
on the unbuffered job slot panics when the slot is closed and otherwise needs the
worker at its receive; the worker then has the job (which is not nil, the dispatcher
drops nil jobs) and enters `job.Do()`. -/
def WorkerPool.handOff (p : WorkerPool) (h : Nat) : Option WorkerPool :=
  match p.handoffs[h]? with
  | some (Handoff.recvPool j) =>
    match p.pool with
    | w :: rest => some { p with pool := rest, handoffs := p.handoffs.set h (Handoff.send w j) }
    | [] => none
  | some (Handoff.send i j) =>
    match p.workers[i]? with
    | none => none
    | some w =>
      if w.jobsChanClosed then some { p with panicked := true }
      else if w.pc = WorkerPC.receive then
        some { p with workers := p.workers.set i { w with pc := WorkerPC.doing j }
                      handoffs := p.handoffs.set h Handoff.finished
                      started := p.started ++ [j] }
      else none
  | _ => none

/-- The goroutine started by `Worker.Start`, one step for the `i`-th worker: register
the job slot, see the slot closed, or come back from `job.Do()`. A receive from an open
slot waits for a hand-off, whose step carries the exchange. -/
def WorkerPool.workerStart (p : WorkerPool) (i : Nat) : Option WorkerPool :=
  match p.workers[i]? with
  | none => none
  | some w =>
    match w.pc with
    | WorkerPC.register =>
      if p.pool.length < p.maxWorkers then
        some { p with pool := p.pool ++ [i]
                      workers := p.workers.set i { w with pc := WorkerPC.receive } }
      else none
    | WorkerPC.receive =>
      if w.jobsChanClosed then
        some { p with workers := p.workers.set i { w with pc := WorkerPC.sendStop } }
      else none
    | WorkerPC.doing j =>
      some { p with workers := p.workers.set i { w with pc := WorkerPC.register }
                    done := p.done ++ [j] }
    | WorkerPC.sendStop => none
    | WorkerPC.exited => none

/-- Who takes the next step. -/
inductive Action
  /-- a caller runs `Handle(job)` -/
  | handle (job : Job)
  /-- a caller enters `Stop()` -/
  | callStop
  /-- a caller runs `Stopped()` -/
  | callStopped
  /-- the `t`-th call of `Stop` goes on -/
  | stop (t : Nat)
  /-- the dispatcher goes on -/
  | dispatch
  /-- the `h`-th hand-off goroutine goes on -/
  | handoff (h : Nat)
  /-- the goroutine of the `i`-th worker goes on -/
  | worker (i : Nat)
  deriving DecidableEq, Repr

/-- One step of the program. `none`: the action cannot be taken (its goroutine is
blocked or does not exist, or the program has panicked). -/
def WorkerPool.step (p : WorkerPool) (a : Action) : Option WorkerPool :=
  if p.panicked then none
  else
    match a with
    | Action.handle job => p.Handle job
    | Action.callStop => some { p with stops := p.stops ++ [StopPC.check] }
    | Action.callStopped => some (p.Stopped).2
    | Action.stop t => p.Stop t
    | Action.dispatch => p.dispatch
    | Action.handoff h => p.handOff h
    | Action.worker i => p.workerStart i

/-- Run a schedule: the actions one after the other. -/
def WorkerPool.exec (p : WorkerPool) : List Action → Option WorkerPool
  | [] => some p
  | a :: rest => (p.step a).bind (fun q => WorkerPool.exec q rest)

/-- Whether the worker is inside `job.Do()`. -/
def Worker.isDoing (w : Worker) : Bool :=
  match w.pc with
  | WorkerPC.doing _ => true
  | _ => false

/-- The number of workers inside `job.Do()`. -/
def WorkerPool.busy (p : WorkerPool) : Nat :=
  p.workers.countP Worker.isDoing

/-- The number of jobs whose `Do` has been entered and not left. -/
def WorkerPool.executing (p : WorkerPool) : Nat :=
  p.started.length - p.done.length

/-! ### Schedules

Runs of a pool made by `NewWorkerPool(1, 1)` (one worker, room for one job in the
queue) after `Run()`. Job 7 is any job. -/

/-- The pool of the runs below: `NewWorkerPool(1, 1)` after `Run()`. -/
def pool11 : WorkerPool := (NewWorkerPool 1 1).Run

/-- The worker registers, `Handle(job 7)` is called, the dispatcher takes the job and
its hand-off gives it to the worker, which enters `Do`. -/
def scheduleBusy : List Action :=
  [Action.worker 0, Action.handle (some 7), Action.dispatch, Action.handoff 0,
   Action.handoff 0]

/-- The state of `pool11` after `scheduleBusy`. -/
def stateBusy : WorkerPool :=
  { maxWorkers := 1
    queueLength := 1
    workers := [{ jobsChanClosed := false, pc := WorkerPC.doing 7 }]
    jobQueue := []
    jobQueueClosed := false
    pool := []
    dispatcher := DispatcherPC.receive
    handoffs := [Handoff.finished]
    stops := []
    started := [7]
    done := []
    panicked := false }

/-- The worker registers, `Handle(job 7)` is called and returns, then `Stop()` is
called and runs up to and including `close(w.jobsChan)` for the only worker, before
the dispatcher has come to receive the job. -/
def scheduleStopBegins : List Action :=
  [Action.worker 0, Action.handle (some 7), Action.callStop,
   Action.stop 0, Action.stop 0, Action.stop 0]

/-- The run `scheduleStopBegins` continued until `Stop()` returns: the worker sees its
slot closed and signals, `Stop` receives the signal and closes the queue, the
dispatcher takes job 7 (starting its hand-off), sees the queue closed and signals,
`Stop` receives the signal. -/
def scheduleStopReturns : List Action :=
  scheduleStopBegins ++
  [Action.worker 0, Action.stop 0, Action.stop 0, Action.dispatch, Action.dispatch,
   Action.stop 0]

/-- A pool with two workers, `NewWorkerPool(2, 1)` after `Run()`: job 7 is running on
worker 0 when `Stop()` is called; `Stop` closes the slot of worker 0 and waits for it.
Then `Handle(job 8)` is called; job 8 goes to worker 1, which runs it to the end. -/
def scheduleLateJob : List Action :=
  [Action.worker 0, Action.worker 1, Action.handle (some 7), Action.dispatch,
   Action.handoff 0, Action.handoff 0,
   Action.callStop, Action.stop 0, Action.stop 0, Action.stop 0,
   Action.handle (some 8), Action.dispatch, Action.handoff 1, Action.handoff 1,
   Action.worker 1]

/-- A first `Stop()` on an idle pool, from the call to the return. -/
def scheduleStop : List Action :=
  [Action.worker 0, Action.callStop, Action.stop 0, Action.stop 0, Action.stop 0,
   Action.worker 0, Action.stop 0, Action.stop 0, Action.dispatch, Action.stop 0]

/-- The state of `pool11` after `scheduleStop`: everything has halted. -/
def stateStopped : WorkerPool :=
  { maxWorkers := 1
    queueLength := 1
    workers := [{ jobsChanClosed := true, pc := WorkerPC.exited }]
    jobQueue := []
    jobQueueClosed := true
    pool := [0]
    dispatcher := DispatcherPC.exited
    handoffs := []
    stops := [StopPC.returned]
    started := []
    done := []
    panicked := false }

/-- The run `scheduleStop` without its last step: the dispatcher stands at
`p.stopChan <- true` and `Stop()` at `<-p.stopChan`. -/
def scheduleStopWaits : List Action :=
  [Action.worker 0, Action.callStop, Action.stop 0, Action.stop 0, Action.stop 0,
   Action.worker 0, Action.stop 0, Action.stop 0, Action.dispatch]


/-- Whether the hand-off goroutine has not returned yet. -/
def Handoff.isOutstanding : Handoff → Bool
  | Handoff.finished => false
  | _ => true

/-- The number of outstanding hand-offs: hand-off goroutines that hold a job taken from
the job queue and have not yet delivered it to a worker. -/
def WorkerPool.outstanding (p : WorkerPool) : Nat :=
  p.handoffs.countP Handoff.isOutstanding

/-- A backlog of `n` jobs on a pool whose worker never gets to run: `Handle(job k)` and
the dispatcher taking the job, for `k` from 0 to `n - 1`. -/
def scheduleBacklog : Nat → List Action
  | 0 => []
  | n + 1 => scheduleBacklog n ++ [Action.handle (some n), Action.dispatch]

/-- The state of `pool11` after `scheduleBacklog n`: `n` hand-off goroutines wait for a
job slot. -/
def stateBacklog (n : Nat) : WorkerPool :=
  { pool11 with handoffs := (List.range n).map Handoff.recvPool }

/-- The invariant behind the admission bound: the pool keeps its workers, and the jobs
that have entered `Do` and not left it are the jobs of the workers inside `Do`. -/
def Inv (n : Nat) (p : WorkerPool) : Prop :=
  p.maxWorkers = n ∧ p.workers.length = n ∧ p.started.length = p.done.length + p.busy

/-- How many workers a call of `Stop` standing at the given point has been through
(`n` is the number of workers). -/
def StopPC.passed (n : Nat) : StopPC → Nat
  | StopPC.check => 0
  | StopPC.workerCheck i => i
  | StopPC.workerClose i => i
  | StopPC.workerWait i => i
  | StopPC.closeQueue => n
  | StopPC.waitStop => n
  | StopPC.returned => 0

/-- Every worker that signals or has returned has its job slot closed. -/
def SlotsClosed (workers : List Worker) : Prop :=
  ∀ (k : Nat) (w : Worker), workers[k]? = some w →
    w.pc = WorkerPC.sendStop ∨ w.pc = WorkerPC.exited → w.jobsChanClosed = true

/-- The first `m` workers have returned. -/
def ExitedBelow (workers : List Worker) (m : Nat) : Prop :=
  ∀ (k : Nat) (w : Worker), k < m → workers[k]? = some w → w.pc = WorkerPC.exited

/-- The workers each call of `Stop` has been through have returned. -/
def Passed (workers : List Worker) (stops : List StopPC) : Prop :=
  ∀ (t : Nat) (pc : StopPC), stops[t]? = some pc →
    ExitedBelow workers (pc.passed workers.length)

/-- The invariant behind the halted state: a worker that signals or has returned has
its job slot closed; the workers a call of `Stop` has been through have returned; a
closed job queue means all workers have returned; a dispatcher that signals or has
returned means a closed job queue. -/
def Halting (p : WorkerPool) : Prop :=
  SlotsClosed p.workers ∧ Passed p.workers p.stops ∧
  (p.jobQueueClosed = true → ExitedBelow p.workers p.workers.length) ∧
  (p.dispatcher = DispatcherPC.sendStop ∨ p.dispatcher = DispatcherPC.exited →
    p.jobQueueClosed = true)

end Pool

/-! ## The deque of `containers/deque.go` -/

namespace Containers

/-- The two errors of `errors.go`. -/
inductive Error
  | ErrEmpty
  | ErrOutOfRange
  deriving DecidableEq, Repr

/-- The field `chunkSize`, set to 256 by `NewDeque` and never written again. -/
abbrev chunkSize : Nat := 256

/-- The field `nbBlocks`, set to 64 by `NewDeque` and never written again. -/
abbrev nbBlocks : Nat := 64

/-- A `Deque[T]`. The block table `blocks [][]T` is its length `blockCount` and the
function `blocks i j` giving `blocks[i][j]`; every block has length `chunkSize`.
The ints `first` and `last` are natural numbers here: they start at 8192, `first` is
lowered by one only after an access at the position below it has succeeded and by
whole blocks only as far as block 0, and `last` is lowered only while it is above
`first`. What the code computes from them with a sign (`Len`, the indices of an
access) is an integer here. -/
structure Deque (T : Type) where
  blocks : Nat → Nat → T
  blockCount : Nat
  first : Nat
  last : Nat

variable {T : Type} [Inhabited T]

/-- The constructor `NewDeque`: 64 zeroed blocks, `first` and `last` in the middle. -/
def NewDeque : Deque T :=
  { blocks := fun _ _ => default
    blockCount := nbBlocks
    first := (nbBlocks * chunkSize) / 2
    last := (nbBlocks * chunkSize) / 2 }

/-- The method `Len`: `int(d.last - d.first)`, a signed difference. -/
def Deque.Len (d : Deque T) : Int := (d.last : Int) - (d.first : Int)

/-- The method `Cap`. -/
def Deque.Cap (d : Deque T) : Nat := d.blockCount * chunkSize

/-- The read `d.blocks[b][e]`; `none` is the index-out-of-range panic. -/
def Deque.read (d : Deque T) (b e : Int) : Option T :=
  if 0 ≤ b ∧ b < d.blockCount ∧ 0 ≤ e ∧ e < chunkSize then some (d.blocks b.toNat e.toNat)
  else none

/-- The assignment `d.blocks[b][e] = v`; `none` is the index-out-of-range panic. -/
def Deque.write (d : Deque T) (b e : Int) (v : T) : Option (Deque T) :=
  if 0 ≤ b ∧ b < d.blockCount ∧ 0 ≤ e ∧ e < chunkSize then
    some { d with blocks := fun i j => if i = b.toNat ∧ j = e.toNat then v else d.blocks i j }
  else none

/-- The call `copy(d.blocks[b][dlo:dhi], d.blocks[b][slo:shi])`; `none` is the panic
of an index or a slice bound out of range. As many elements as the shorter of the two
slices holds are copied, as if through a buffer. Every upper bound written in `deque.go`
is at most `chunkSize`, the length of a block, and an omitted one is that length. -/
def Deque.copy (d : Deque T) (b dlo dhi slo shi : Int) : Option (Deque T) :=
  if 0 ≤ b ∧ b < d.blockCount ∧ 0 ≤ dlo ∧ dlo ≤ dhi ∧ dhi ≤ chunkSize ∧
      0 ≤ slo ∧ slo ≤ shi ∧ shi ≤ chunkSize then
    some { d with blocks := fun i j =>
      if i = b.toNat ∧ dlo.toNat ≤ j ∧ j < dlo.toNat + min (dhi - dlo).toNat (shi - slo).toNat
      then d.blocks i (slo.toNat + (j - dlo.toNat)) else d.blocks i j }
  else none

/-- The function `ShiftLeft(s, shift)` of `helper.go` on a slice of length `n`. -/
def ShiftLeft {α : Type} (s : Nat → α) (n shift : Nat) : Nat → α :=
  if n = 0 ∨ shift % n = 0 then s
  else fun i => if i < n - shift % n then s (i + shift % n) else s (i - (n - shift % n))

/-- The function `ShiftRight(s, shift)` of `helper.go` on a slice of length `n`. -/
def ShiftRight {α : Type} (s : Nat → α) (n shift : Nat) : Nat → α :=
  if n = 0 ∨ shift % n = 0 then s
  else fun i => if i < shift % n then s (n - shift % n + i) else s (i - shift % n)

/-- The method `balance`. -/
def Deque.balance (d : Deque T) : Deque T :=
  let firstBlockIdx := d.first / chunkSize
  let lastBlockIdx := d.last / chunkSize
  let nbEndEmptyBlocks := d.blockCount - 1 - lastBlockIdx
  let nbStartEmptyBlocks := firstBlockIdx
  if nbStartEmptyBlocks > nbEndEmptyBlocks then
    { d with blocks := ShiftLeft d.blocks d.blockCount (nbStartEmptyBlocks / 2)
             first := d.first - (nbStartEmptyBlocks / 2) * chunkSize
             last := d.last - (nbStartEmptyBlocks / 2) * chunkSize }
  else if nbStartEmptyBlocks < nbEndEmptyBlocks then
    { d with blocks := ShiftRight d.blocks d.blockCount (nbEndEmptyBlocks / 2)
             first := d.first + (nbEndEmptyBlocks / 2) * chunkSize
             last := d.last + (nbEndEmptyBlocks / 2) * chunkSize }
  else d

/-- The number of blocks `expandStart` and `expandEnd` add to a table of `blockCount`
blocks: `max(d.nbBlocks/2, int(float64(blockCount)*d.growFactor))` with `growFactor`
0.25, a product that is exact. -/
def growth (blockCount : Nat) : Nat := max (nbBlocks / 2) (blockCount / 4)

/-- The method `expandStart`; `none` is the panic of `alloc[i*chunkSize:(i+1)*chunkSize]`
when the new blocks are more than `alloc` (made for `blockCount` blocks) can hold. -/
def Deque.expandStart (d : Deque T) : Option (Deque T) :=
  let blockCount := d.blockCount
  let newBlockCount := blockCount + growth blockCount
  if newBlockCount - blockCount ≤ blockCount then
    some { blocks := fun i => if i < newBlockCount - blockCount then fun _ => default
                              else d.blocks (i - (newBlockCount - blockCount))
           blockCount := newBlockCount
           first := d.first + (newBlockCount - blockCount) * chunkSize
           last := d.last + (newBlockCount - blockCount) * chunkSize }
  else none

/-- The method `expandEnd`. -/
def Deque.expandEnd (d : Deque T) : Deque T :=
  let blockCount := d.blockCount
  let newBlockCount := blockCount + growth blockCount
  { d with blocks := fun i => if i < blockCount then d.blocks i else fun _ => default
           blockCount := newBlockCount }

/-- The method `resize`. -/
def Deque.resize (d : Deque T) : Option (Deque T) :=
  let firstBlockIdx := d.first / chunkSize
  let afterStart : Option (Option (Deque T)) :=
    if firstBlockIdx = 0 then
      if d.Len < d.Cap / 2 then some none
      else d.expandStart.map some
    else some (some d)
  match afterStart with
  | none => none
  | some none => some d.balance
  | some (some d1) =>
    let lastBlockIdx := d1.last / chunkSize
    if (lastBlockIdx : Int) = (d1.blockCount : Int) - 1 then
      if d1.Len < d1.Cap / 2 then some d1.balance
      else some d1.expandEnd
    else some d1

/-- The test `usedBlocksPct >= d.shrinkFactor` of `checkSize`, where `usedBlocksPct` is
`float64(usedBlocks) / float64(blockCount)` and `shrinkFactor` is 0.2. For a table of
fewer than 2^53 blocks both conversions are exact and the rounded quotient is at least
the double 0.2 exactly when `5 * usedBlocks >= blockCount`. -/
def usedEnough (usedBlocks blockCount : Nat) : Bool := decide (blockCount ≤ 5 * usedBlocks)

/-- The method `checkSize`. -/
def Deque.checkSize (d : Deque T) : Deque T :=
  let blockCount := d.blockCount
  let firstBlockIdx := d.first / chunkSize
  let lastBlockIdx := d.last / chunkSize
  let usedBlocks := lastBlockIdx - firstBlockIdx
  if usedEnough usedBlocks blockCount then d
  else
    let freeBlocks := blockCount - usedBlocks
    let blocksToRemove := freeBlocks / 2
    if blocksToRemove = 0 ∨ blockCount ≤ nbBlocks then d
    else
      let removeFront :=
        if firstBlockIdx < blockCount / 4 then blocksToRemove - min blocksToRemove freeBlocks
        else if lastBlockIdx > (3 * blockCount) / 4 then min blocksToRemove freeBlocks
        else blocksToRemove / 2
      let removeBack :=
        if firstBlockIdx < blockCount / 4 then min blocksToRemove freeBlocks
        else if lastBlockIdx > (3 * blockCount) / 4 then blocksToRemove - removeFront
        else blocksToRemove - blocksToRemove / 2
      { blocks := fun i => d.blocks (i + removeFront)
        blockCount := blockCount - removeBack - removeFront
        first := d.first - removeFront * chunkSize
        last := d.last - removeFront * chunkSize }

/-- The method `Clear`. -/
def Deque.Clear (d : Deque T) : Deque T :=
  Deque.checkSize
    { d with first := (nbBlocks * chunkSize) / 2, last := (nbBlocks * chunkSize) / 2 }

/-- The method `Get`: the value and the error; `none` is a panic. -/
def Deque.Get (d : Deque T) (index : Int) : Option (T × Option Error) :=
  if d.Len = 0 then some (default, some Error.ErrEmpty)
  else if index < 0 ∨ index ≥ d.Len then some (default, some Error.ErrOutOfRange)
  else
    let blockIdx : Int := (d.first + index) / chunkSize
    let elemIdx : Int := (d.first + index) % chunkSize
    (d.read blockIdx elemIdx).map (fun v => (v, none))

/-- The method `PushBack`; `none` is a panic. -/
def Deque.PushBack (d : Deque T) (val : T) : Option (Deque T) :=
  d.resize.bind fun d =>
    let blockIdx := d.last / chunkSize
    let elemIdx := d.last % chunkSize
    (d.write blockIdx elemIdx val).map fun d => { d with last := d.last + 1 }

/-- The method `PushFront`; `none` is a panic. -/
def Deque.PushFront (d : Deque T) (val : T) : Option (Deque T) :=
  d.resize.bind fun d =>
    let blockIdx : Int := (d.first / chunkSize : Nat)
    let elemIdx : Int := (d.first % chunkSize : Nat)
    let blockIdx1 := if elemIdx = 0 then blockIdx - 1 else blockIdx
    let elemIdx1 := if elemIdx = 0 then (chunkSize : Int) else elemIdx
    (d.write blockIdx1 (elemIdx1 - 1) val).map fun d => { d with first := d.first - 1 }

/-- The method `PopBack`: the deque afterwards, the value and the error; `none` is a
panic. -/
def Deque.PopBack (d : Deque T) : Option (Deque T × T × Option Error) :=
  if d.Len = 0 then some (d, default, some Error.ErrEmpty)
  else
    let blockIdx : Int := (d.last / chunkSize : Nat)
    let elemIdx : Int := (d.last % chunkSize : Nat)
    let blockIdx1 := if elemIdx = 0 then blockIdx - 1 else blockIdx
    let elemIdx1 := if elemIdx = 0 then (chunkSize : Int) else elemIdx
    (d.read blockIdx1 (elemIdx1 - 1)).map fun val =>
      (Deque.checkSize { d with last := d.last - 1 }, val, none)

/-- The method `PopFront`: the deque afterwards, the value and the error; `none` is a
panic. -/
def Deque.PopFront (d : Deque T) : Option (Deque T × T × Option Error) :=
  if d.Len = 0 then some (d, default, some Error.ErrEmpty)
  else
    let blockIdx := d.first / chunkSize
    let elemIdx := d.first % chunkSize
    (d.read blockIdx elemIdx).map fun val =>
      (Deque.checkSize { d with first := d.first + 1 }, val, none)

/-- The first loop of `Insert`, with `n` passes left:
`for i := firstBlockIdx; i < blockIdx; i++`. -/
def Deque.insertFrontLoop (firstBlockIdx : Int) : Nat → Int → Deque T → Option (Deque T)
  | 0, _, d => some d
  | n + 1, i, d =>
    (if i ≥ firstBlockIdx then
      (d.read i 0).bind fun x => d.write (i - 1) (chunkSize - 1) x
     else some d).bind fun d =>
    (d.copy i 0 chunkSize 1 chunkSize).bind fun d =>
    Deque.insertFrontLoop firstBlockIdx n (i + 1) d

/-- The second loop of `Insert`, with `n` passes left:
`for i := lastBlockIdx; i > blockIdx; i--`. -/
def Deque.insertBackLoop (lastBlockIdx : Int) : Nat → Int → Deque T → Option (Deque T)
  | 0, _, d => some d
  | n + 1, i, d =>
    (if i < lastBlockIdx then
      (d.read i (chunkSize - 1)).bind fun x => d.write (i + 1) 0 x
     else some d).bind fun d =>
    (d.copy i 1 chunkSize 0 (chunkSize - 1)).bind fun d =>
    Deque.insertBackLoop lastBlockIdx n (i - 1) d

/-- The method `Insert`: the deque afterwards and the error; `none` is a panic. Past the
range check `Len` is not negative, so `d.Len / 2` is the quotient Go computes. -/
def Deque.Insert (d : Deque T) (index : Int) (value : T) : Option (Deque T × Option Error) :=
  if index < 0 ∨ index > d.Len then some (d, some Error.ErrOutOfRange)
  else
    d.resize.bind fun d =>
    let absIndex : Int := d.first + index
    let blockIdx := absIndex / chunkSize
    let elemIdx := absIndex % chunkSize
    let firstBlockIdx : Int := (d.first / chunkSize : Nat)
    let lastBlockIdx : Int := (d.last / chunkSize : Nat)
    if index < d.Len / 2 then
      (Deque.insertFrontLoop firstBlockIdx (blockIdx - firstBlockIdx).toNat firstBlockIdx d).bind
      fun d =>
      (d.read blockIdx 0).bind fun x =>
      (d.write (blockIdx - 1) (chunkSize - 1) x).bind fun d =>
      (d.copy blockIdx 0 elemIdx 1 elemIdx).bind fun d =>
      (d.write blockIdx (elemIdx - 1) value).map fun d =>
      ({ d with first := d.first - 1 }, none)
    else
      (Deque.insertBackLoop lastBlockIdx (lastBlockIdx - blockIdx).toNat lastBlockIdx d).bind
      fun d =>
      (d.read blockIdx (chunkSize - 1)).bind fun x =>
      (d.write (blockIdx + 1) 0 x).bind fun d =>
      (d.copy blockIdx (elemIdx + 1) chunkSize elemIdx chunkSize).bind fun d =>
      (d.write blockIdx elemIdx value).map fun d =>
      ({ d with last := d.last + 1 }, none)

/-- The first loop of `Remove`, with `n` passes left:
`for i := blockIdx - 1; i >= firstBlockIdx; i--`. -/
def Deque.removeFrontLoop : Nat → Int → Deque T → Option (Deque T)
  | 0, _, d => some d
  | n + 1, i, d =>
    (d.copy i 1 chunkSize 0 (chunkSize - 1)).bind fun d =>
    (d.read (i - 1) (chunkSize - 1)).bind fun x =>
    (d.write i 0 x).bind fun d =>
    Deque.removeFrontLoop n (i - 1) d

/-- The second loop of `Remove`, with `n` passes left:
`for i := blockIdx + 1; i <= lastBlockIdx; i++`. -/
def Deque.removeBackLoop : Nat → Int → Deque T → Option (Deque T)
  | 0, _, d => some d
  | n + 1, i, d =>
    (d.copy i 0 (chunkSize - 1) 1 chunkSize).bind fun d =>
    (d.read (i + 1) 0).bind fun x =>
    (d.write i (chunkSize - 1) x).bind fun d =>
    Deque.removeBackLoop n (i + 1) d

/-- The method `Remove`: the deque afterwards and the error; `none` is a panic. Past the
range check `Len` is positive, so `d.Len / 2` is the quotient Go computes. -/
def Deque.Remove (d : Deque T) (index : Int) : Option (Deque T × Option Error) :=
  if index < 0 ∨ index ≥ d.Len then some (d, some Error.ErrOutOfRange)
  else
    let absIndex : Int := d.first + index
    let blockIdx := absIndex / chunkSize
    let elemIdx := absIndex % chunkSize
    let firstBlockIdx : Int := (d.first / chunkSize : Nat)
    let lastBlockIdx : Int := (d.last / chunkSize : Nat)
    if index < d.Len / 2 then
      (d.copy blockIdx elemIdx chunkSize (elemIdx + 1) chunkSize).bind fun d =>
      (Deque.removeFrontLoop (blockIdx - firstBlockIdx).toNat (blockIdx - 1) d).map fun d =>
      (Deque.checkSize { d with first := d.first + 1 }, none)
    else
      (d.copy blockIdx elemIdx chunkSize (elemIdx + 1) chunkSize).bind fun d =>
      (Deque.removeBackLoop (lastBlockIdx - blockIdx).toNat (blockIdx + 1) d).map fun d =>
      (Deque.checkSize { d with last := d.last - 1 }, none)

/-- What `Get` answers at the indices 0 to `Len() - 1`, in order. -/
def Deque.gets (d : Deque T) : List (Option (T × Option Error)) :=
  (List.range d.Len.toNat).map (fun i => d.Get i)

/-- A deque made by `PushBack` of the values of a list, in order. -/
def pushBacks : List T → Deque T → Option (Deque T)
  | [], d => some d
  | v :: rest, d => (d.PushBack v).bind (pushBacks rest)

/-- A deque made by `PushFront` of the values of a list, in order. -/
def pushFronts : List T → Deque T → Option (Deque T)
  | [], d => some d
  | v :: rest, d => (d.PushFront v).bind (pushFronts rest)

/-! ### Reachable deques and their invariant -/

/-- The `i`-th element of the deque: what is stored at position `first + i`. -/
def Deque.elem (d : Deque T) (i : Nat) : T :=
  d.blocks ((d.first + i) / chunkSize) ((d.first + i) % chunkSize)

/-- The table has fewer than 2^53 blocks, as every table that fits the memory of a
machine has (2^53 slice headers are more than 2^57 bytes). Below that size the
conversions `float64(usedBlocks)` and `float64(blockCount)` of `checkSize` are exact,
so that `usedEnough` is the test the code makes. -/
def Deque.Fits (d : Deque T) : Prop := d.blockCount < 2 ^ 53

/-- The deques the package can leave behind: those reachable from `NewDeque` by
`PushBack`, `PushFront`, `PopBack`, `PopFront`, `Clear`, `Insert` and `Remove`, through
tables that fit. `written` is any assignment to elements of the blocks: `Set`, a write
through the pointer of `GetPointer` or the slice of `ToSlice`, and the writes a
panicking `Insert` or `Remove` has made; `resized` is the `resize` a panicking `Insert`
has made. -/
inductive Reachable : Deque T → Prop
  | new : Reachable NewDeque
  | pushBack (d d1 : Deque T) (v : T) :
      Reachable d → d.PushBack v = some d1 → d1.Fits → Reachable d1
  | pushFront (d d1 : Deque T) (v : T) :
      Reachable d → d.PushFront v = some d1 → d1.Fits → Reachable d1
  | popBack (d d1 : Deque T) (x : T) (e : Option Error) :
      Reachable d → d.PopBack = some (d1, x, e) → Reachable d1
  | popFront (d d1 : Deque T) (x : T) (e : Option Error) :
      Reachable d → d.PopFront = some (d1, x, e) → Reachable d1
  | clear (d : Deque T) : Reachable d → Reachable d.Clear
  | insert (d d1 : Deque T) (index : Int) (v : T) (e : Option Error) :
      Reachable d → d.Insert index v = some (d1, e) → d1.Fits → Reachable d1
  | remove (d d1 : Deque T) (index : Int) (e : Option Error) :
      Reachable d → d.Remove index = some (d1, e) → Reachable d1
  | written (d : Deque T) (blocks : Nat → Nat → T) :
      Reachable d → Reachable { d with blocks := blocks }
  | resized (d d1 : Deque T) : Reachable d → d.resize = some d1 → d1.Fits → Reachable d1

/-- The table of `bc` blocks is small, or well used by the window from `f` to `l`, or
small with the window near its start: the three cases in which `checkSize` is far from
cutting into the window. -/
def Settled (bc f l : Nat) : Prop :=
  bc ≤ 64 ∨ bc ≤ 5 * (l / 256 - f / 256 + 1) ∨ (bc ≤ 80 ∧ f / 256 ≤ 40)

/-- The room of a table of `bc` blocks beyond its window, less two blocks and two. -/
def slack (bc f l : Nat) : Nat := 256 * bc - (l - f) - 514

/-- How far the window from `f` to `l` has moved away from the position 8192 at which
`NewDeque` and `Clear` put it, counted up to the number of elements a window of 31
blocks lacks. -/
def drift (f l : Nat) : Nat := min ((f - 8192) + (8192 - l)) (7937 - (l - f))

/-- The representation invariant: at least 33 blocks, the window lies inside the table,
and either the table is settled or its slack has been halved at least as often as the
window has drifted by one element. -/
def Deque.Inv (d : Deque T) : Prop :=
  33 ≤ d.blockCount ∧ d.first ≤ d.last ∧ d.last < 256 * d.blockCount ∧
  (Settled d.blockCount d.first d.last ∨
    slack d.blockCount d.first d.last * 2 ^ drift d.first d.last ≤ 2 ^ 63)

/-- What `checkSize` does to a table of `bc` blocks with the window from `f` to `l`:
it removes `rf` blocks at the front and `rb` at the back. -/
def Shrinks (bc f l rf rb : Nat) : Prop :=
  ∃ fb u free rem, f / 256 = fb ∧ l / 256 = fb + u ∧ bc = u + free ∧ free / 2 = rem ∧
  (((bc ≤ 5 * u ∨ rem = 0 ∨ bc ≤ 64) ∧ rf = 0 ∧ rb = 0) ∨
   (5 * u < bc ∧ 1 ≤ rem ∧ 65 ≤ bc ∧
    ((fb < bc / 4 ∧ rf = 0 ∧ rb = rem) ∨
     (bc / 4 ≤ fb ∧ 3 * bc / 4 < fb + u ∧ rf = rem ∧ rb = 0) ∨
     (bc / 4 ≤ fb ∧ fb + u ≤ 3 * bc / 4 ∧ rf = rem / 2 ∧ rf + rb = rem))))

/-- The deque 1: `NewDeque` after `PushBack(1)`. -/
def dequeOne : Deque Nat :=
  { blocks := fun i j => if i = 32 ∧ j = 0 then 1 else 0
    blockCount := 64
    first := 8192
    last := 8193 }

/-- The deque 1, 2: `dequeOne` after `PushBack(2)`. -/
def dequeOneTwo : Deque Nat :=
  { blocks := fun i j => if i = 32 ∧ j = 1 then 2 else if i = 32 ∧ j = 0 then 1 else 0
    blockCount := 64
    first := 8192
    last := 8194 }

end Containers

/-! ## Connections -/

namespace Server

variable {W P E : Type}

theorem Close_of_closed (env : Env W P E) (c : Connection W P E) (h : c.closed = true) :
    Connection.Close env c = c := by
  simp [Connection.Close, h]

theorem Close_closed (env : Env W P E) (c : Connection W P E) :
    (Connection.Close env c).closed = true := by
  unfold Connection.Close
  split
  · assumption
  · rfl

theorem Close_fresh (env : Env W P E) (c : Connection W P E) (h : c.closed = false) :
    Connection.Close env c =
      { closed := true
        world := env.connClose (env.OnClose c.world)
        trace := c.trace ++ [Event.closeChan, Event.onClose, Event.connClose] } := by
  simp [Connection.Close, h]

theorem Close_iterate (env : Env W P E) (c : Connection W P E) (n : Nat) :
    (Connection.Close env)^[n + 1] c = Connection.Close env c := by
  induction n with
  | zero => rfl
  | succ k ih =>
    rw [Function.iterate_succ_apply', ih]
    exact Close_of_closed env _ (Close_closed env c)

theorem delivered_append (a b : List (Event P E)) :
    delivered (a ++ b) = delivered a ++ delivered b := by
  induction a with
  | nil => rfl
  | cons e a ih => cases e <;> simp [delivered, ih]

theorem packetsRead_append (a b : List (Event P E)) :
    packetsRead (a ++ b) = packetsRead a ++ packetsRead b := by
  induction a with
  | nil => rfl
  | cons e a ih =>
    cases e with
    | readPacket r => cases r <;> simp [packetsRead, ih]
    | _ => simp [packetsRead, ih]

theorem onCloseCount_append (a b : List (Event P E)) :
    onCloseCount (a ++ b) = onCloseCount a + onCloseCount b := by
  induction a with
  | nil => simp [onCloseCount]
  | cons e a ih => cases e <;> simp [onCloseCount, ih]; omega

theorem connCloseCount_append (a b : List (Event P E)) :
    connCloseCount (a ++ b) = connCloseCount a + connCloseCount b := by
  induction a with
  | nil => simp [connCloseCount]
  | cons e a ih => cases e <;> simp [connCloseCount, ih]; omega

/-- Splitting `a ++ b` at an element that does not occur in `a` splits `b`. -/
theorem split_after (e : Event P E) (a b t1 t2 : List (Event P E)) (ha : e ∉ a)
    (h : a ++ b = t1 ++ e :: t2) : ∃ u, t1 = a ++ u ∧ b = u ++ e :: t2 := by
  induction a generalizing t1 with
  | nil => exact ⟨t1, by simp, by simpa using h⟩
  | cons x a ih =>
    cases t1 with
    | nil =>
      simp only [List.cons_append, List.nil_append, List.cons.injEq] at h
      exact absurd (h.1 ▸ List.mem_cons_self x a) ha
    | cons y t1 =>
      simp only [List.cons_append, List.cons.injEq] at h
      obtain ⟨u, hu1, hu2⟩ := ih t1 (fun hm => ha (List.mem_cons_of_mem _ hm)) h.2
      exact ⟨u, by simp [h.1, hu1], hu2⟩

/-- The pass that reads a packet: what it does to the connection. -/
theorem iteration_message (env : Env W P E) (c : Connection W P E) (w1 w2 : W) (p : P)
    (hc : c.closed = false) (hp : env.Peek c.world = (none, w1))
    (hr : env.ReadPacket w1 = (Except.ok p, w2)) :
    Connection.iteration env c =
      ({ closed := false
         world := (env.OnMessage p w2).2
         trace := c.trace ++ [Event.peek none, Event.readPacket (Except.ok p),
                    Event.onMessage p (env.OnMessage p w2).1] },
       (env.OnMessage p w2).1) := by
  simp [Connection.iteration, hc, hp, hr]

/-- The pass that finds the close signal set. -/
theorem iteration_closed (env : Env W P E) (c : Connection W P E) (hc : c.closed = true) :
    Connection.iteration env c = (c, false) := by
  simp [Connection.iteration, hc]

/-- The pass whose peek fails with a timeout. -/
theorem iteration_timeout (env : Env W P E) (c : Connection W P E) (w1 : W)
    (hc : c.closed = false)
    (hp : env.Peek c.world = (some (PeekErr.netError true), w1)) :
    Connection.iteration env c =
      ({ closed := false
         world := (env.OnTimeout w1).2
         trace := c.trace ++ [Event.peek (some (PeekErr.netError true)),
                    Event.onTimeout (env.OnTimeout w1).1] },
       (env.OnTimeout w1).1) := by
  simp [Connection.iteration, hc, hp]

/-- The pass whose peek fails with an error that is not a timeout. -/
theorem iteration_peekError (env : Env W P E) (c : Connection W P E) (w1 : W) (err : PeekErr)
    (hc : c.closed = false) (hp : env.Peek c.world = (some err, w1))
    (herr : err ≠ PeekErr.netError true) :
    Connection.iteration env c =
      ({ closed := false, world := w1, trace := c.trace ++ [Event.peek (some err)] }, false) := by
  cases err with
  | other => simp [Connection.iteration, hc, hp]
  | netError b =>
    cases b with
    | true => exact absurd rfl herr
    | false => simp [Connection.iteration, hc, hp]

/-- The pass in which `ReadPacket` fails. -/
theorem iteration_readError (env : Env W P E) (c : Connection W P E) (w1 w2 : W) (e : E)
    (hc : c.closed = false) (hp : env.Peek c.world = (none, w1))
    (hr : env.ReadPacket w1 = (Except.error e, w2)) :
    Connection.iteration env c =
      ({ closed := false
         world := w2
         trace := c.trace ++ [Event.peek none, Event.readPacket (Except.error e)] },
       false) := by
  simp [Connection.iteration, hc, hp, hr]

/-- What one pass appends to the trace. -/
theorem iteration_trace (env : Env W P E) (c : Connection W P E) :
    ∃ t, (Connection.iteration env c).1.trace = c.trace ++ t ∧
      delivered t = packetsRead t ∧
      ((Connection.iteration env c).2 = true → ∀ p, Event.onMessage p false ∉ t) ∧
      (∀ t1 p t2, t = t1 ++ Event.onMessage p false :: t2 → t2 = []) := by
  rcases hc : c.closed with _ | _
  swap
  · rw [iteration_closed env c hc]
    exact ⟨[], by simp, rfl, by simp, by simp⟩
  rcases hp : env.Peek c.world with ⟨_ | err, w1⟩
  · rcases hr : env.ReadPacket w1 with ⟨e | p, w2⟩
    · rw [iteration_readError env c w1 w2 e hc hp hr]
      refine ⟨_, rfl, rfl, by simp, ?_⟩
      intro t1 p t2 h
      match t1, h with
      | [], h => simp at h
      | [_], h => simp at h
      | _ :: _ :: _ :: _, h => simp at h
    · rw [iteration_message env c w1 w2 p hc hp hr]
      refine ⟨_, rfl, rfl, ?_, ?_⟩
      · intro h q
        simp only [] at h
        simp [h]
      · intro t1 q t2 h
        match t1, h with
        | [], h => simp at h
        | [_], h => simp at h
        | [_, _], h =>
          simp only [List.cons_append, List.nil_append, List.cons.injEq] at h
          exact h.2.2.2.symm
        | _ :: _ :: _ :: _ :: _, h => simp at h
  · by_cases herr : err = PeekErr.netError true
    · subst herr
      rw [iteration_timeout env c w1 hc hp]
      refine ⟨_, rfl, rfl, by simp, ?_⟩
      intro t1 p t2 h
      match t1, h with
      | [], h => simp at h
      | [_], h => simp at h
      | _ :: _ :: _ :: _, h => simp at h
    · rw [iteration_peekError env c w1 err hc hp herr]
      refine ⟨_, rfl, rfl, by simp, ?_⟩
      intro t1 p t2 h
      match t1, h with
      | [], h => simp at h
      | _ :: _ :: _, h => simp at h

/-- The loop invariant of `handleRead`, after any number of passes. -/
theorem loopSteps_trace (env : Env W P E) (n : Nat) (c : Connection W P E) :
    ∃ t, (Connection.loopSteps env n c).1.trace = c.trace ++ t ∧
      delivered t = packetsRead t ∧
      (∀ t1 p t2, t = t1 ++ Event.onMessage p false :: t2 →
        t2 = [] ∧ (Connection.loopSteps env n c).2 = false) := by
  induction n generalizing c with
  | zero => exact ⟨[], by simp [Connection.loopSteps], rfl, by simp⟩
  | succ n ih =>
    obtain ⟨t, ht, hd, hrun, hlast⟩ := iteration_trace env c
    unfold Connection.loopSteps
    by_cases hcont : (Connection.iteration env c).2 = true
    · obtain ⟨u, hu, hud, hul⟩ := ih (Connection.iteration env c).1
      refine ⟨t ++ u, ?_, ?_, ?_⟩
      · simp [hcont, hu, ht]
      · simp [delivered_append, packetsRead_append, hd, hud]
      · intro t1 p t2 h
        obtain ⟨v, _, hv⟩ := split_after _ t u t1 t2 (hrun hcont p) h
        simpa [hcont] using hul v p t2 hv
    · refine ⟨t, ?_, hd, ?_⟩
      · simp [hcont, ht]
      · intro t1 p t2 h
        exact ⟨hlast t1 p t2 h, by simp [hcont]⟩

/-- Unfolding `handleRead` by one pass. -/
theorem handleRead_succ (env : Env W P E) (fuel : Nat) (c : Connection W P E) :
    Connection.handleRead env (fuel + 1) c =
      if (Connection.iteration env c).2 then
        Connection.handleRead env fuel (Connection.iteration env c).1
      else some (Connection.Close env (Connection.iteration env c).1) := by
  unfold Connection.handleRead
  simp only [Connection.loopSteps]
  by_cases h : (Connection.iteration env c).2 = true <;> simp [h]

/-- A pass of the loop neither sets the close signal nor calls `OnClose` nor closes
the socket. -/
theorem iteration_no_close (env : Env W P E) (c : Connection W P E) :
    (Connection.iteration env c).1.closed = c.closed ∧
    onCloseCount (Connection.iteration env c).1.trace = onCloseCount c.trace ∧
    connCloseCount (Connection.iteration env c).1.trace = connCloseCount c.trace := by
  rcases hc : c.closed with _ | _
  swap
  · rw [iteration_closed env c hc]
    exact ⟨hc, rfl, rfl⟩
  rcases hp : env.Peek c.world with ⟨_ | err, w1⟩
  · rcases hr : env.ReadPacket w1 with ⟨e | p, w2⟩
    · rw [iteration_readError env c w1 w2 e hc hp hr]
      simp [onCloseCount_append, connCloseCount_append, onCloseCount, connCloseCount]
    · rw [iteration_message env c w1 w2 p hc hp hr]
      simp [onCloseCount_append, connCloseCount_append, onCloseCount, connCloseCount]
  · by_cases herr : err = PeekErr.netError true
    · subst herr
      rw [iteration_timeout env c w1 hc hp]
      simp [onCloseCount_append, connCloseCount_append, onCloseCount, connCloseCount]
    · rw [iteration_peekError env c w1 err hc hp herr]
      simp [onCloseCount_append, connCloseCount_append, onCloseCount, connCloseCount]

theorem loopSteps_no_close (env : Env W P E) (n : Nat) (c : Connection W P E) :
    (Connection.loopSteps env n c).1.closed = c.closed ∧
    onCloseCount (Connection.loopSteps env n c).1.trace = onCloseCount c.trace ∧
    connCloseCount (Connection.loopSteps env n c).1.trace = connCloseCount c.trace := by
  induction n generalizing c with
  | zero => exact ⟨rfl, rfl, rfl⟩
  | succ n ih =>
    obtain ⟨h1, h2, h3⟩ := iteration_no_close env c
    unfold Connection.loopSteps
    by_cases hcont : (Connection.iteration env c).2 = true
    · obtain ⟨k1, k2, k3⟩ := ih (Connection.iteration env c).1
      simp only [hcont, if_true]
      exact ⟨k1.trans h1, k2.trans h2, k3.trans h3⟩
    · simp only [hcont, Bool.false_eq_true, if_false]
      exact ⟨h1, h2, h3⟩

/-- A `handleRead` that returns on a connection that was not closed has closed it,
with one call of `OnClose` and one close of the socket. -/
theorem handleRead_closes (env : Env W P E) (fuel : Nat) (c d : Connection W P E)
    (hc : c.closed = false) (h : Connection.handleRead env fuel c = some d) :
    d.closed = true ∧ onCloseCount d.trace = onCloseCount c.trace + 1 ∧
    connCloseCount d.trace = connCloseCount c.trace + 1 := by
  obtain ⟨h1, h2, h3⟩ := loopSteps_no_close env fuel c
  unfold Connection.handleRead at h
  by_cases hrun : (Connection.loopSteps env fuel c).2 = true
  · simp [hrun] at h
  · simp only [hrun, Bool.false_eq_true, if_false, Option.some.injEq] at h
    subst h
    rw [Close_fresh env _ (h1.trans hc)]
    simp [onCloseCount_append, connCloseCount_append, onCloseCount, connCloseCount, h2, h3]

/-- A `Do` that returns on a connection that was not closed has closed it, with one
call of `OnClose` and one close of the socket. -/
theorem Do_closes (env : Env W P E) (fuel : Nat) (c d : Connection W P E)
    (hc : c.closed = false) (h : Connection.Do env fuel c = some d) :
    d.closed = true ∧ onCloseCount d.trace = onCloseCount c.trace + 1 ∧
    connCloseCount d.trace = connCloseCount c.trace + 1 := by
  unfold Connection.Do at h
  by_cases ha : (env.OnAccept (c.log Event.wgAdd).world).1 = true
  · simp only [ha, Bool.not_true, Bool.false_eq_true, if_false, Option.map_eq_some'] at h
    obtain ⟨x, hx, rfl⟩ := h
    obtain ⟨k1, k2, k3⟩ := handleRead_closes env fuel
      { closed := (c.log Event.wgAdd).closed
        world := (env.OnAccept (c.log Event.wgAdd).world).2
        trace := (c.log Event.wgAdd).trace ++ [Event.onAccept true] } x hc hx
    refine ⟨k1, ?_, ?_⟩
    · simp only [Connection.log, onCloseCount_append, k2]
      simp [onCloseCount, onCloseCount_append]
    · simp only [Connection.log, connCloseCount_append, k3]
      simp [connCloseCount, connCloseCount_append]
  · simp only [ha, Bool.not_false, if_true, Option.some.injEq] at h
    subst h
    simp [Connection.log, Connection.Close, hc, onCloseCount_append, connCloseCount_append,
      onCloseCount, connCloseCount]

/-- C1. Read-loop delivery. In a pass of the loop of `handleRead` that finds the close
signal unset, whose peek succeeds and in which `ReadPacket` returns a packet `p`
without error, `OnMessage` is called once, with `p`, and nothing else is called after
it; the loop goes on to the next pass when `OnMessage` answers `true` and returns
(running the deferred `Close`) when it answers `false`. Hence, after any number of
passes and from any connection, the packets handed to `OnMessage` are the packets
read, in the same order, and an `OnMessage` that answered `false` is the last call of
the loop, which has then stopped; the same holds of the trace of a `handleRead` that
returns. -/
theorem read_loop_delivery (env : Env W P E) (c : Connection W P E) :
    (∀ w1 w2 p, c.closed = false → env.Peek c.world = (none, w1) →
      env.ReadPacket w1 = (Except.ok p, w2) →
      Connection.iteration env c =
        ({ closed := false
           world := (env.OnMessage p w2).2
           trace := c.trace ++ [Event.peek none, Event.readPacket (Except.ok p),
                      Event.onMessage p (env.OnMessage p w2).1] },
         (env.OnMessage p w2).1) ∧
      ∀ fuel, Connection.handleRead env (fuel + 1) c =
        if (env.OnMessage p w2).1 then
          Connection.handleRead env fuel (Connection.iteration env c).1
        else some (Connection.Close env (Connection.iteration env c).1)) ∧
    (∀ n, ∃ t, (Connection.loopSteps env n c).1.trace = c.trace ++ t ∧
      delivered t = packetsRead t ∧
      ∀ t1 p t2, t = t1 ++ Event.onMessage p false :: t2 →
        t2 = [] ∧ (Connection.loopSteps env n c).2 = false) ∧
    (∀ fuel d, Connection.handleRead env fuel c = some d →
      ∃ t u, d.trace = c.trace ++ t ++ u ∧
        (u = [] ∨ u = [Event.closeChan, Event.onClose, Event.connClose]) ∧
        delivered t = packetsRead t ∧
        ∀ t1 p t2, t = t1 ++ Event.onMessage p false :: t2 → t2 = []) := by
  refine ⟨?_, fun n => loopSteps_trace env n c, ?_⟩
  · intro w1 w2 p hc hp hr
    have hi := iteration_message env c w1 w2 p hc hp hr
    refine ⟨hi, fun fuel => ?_⟩
    rw [handleRead_succ, hi]
  · intro fuel d hd
    obtain ⟨t, ht, hdel, hlast⟩ := loopSteps_trace env fuel c
    unfold Connection.handleRead at hd
    by_cases hrun : (Connection.loopSteps env fuel c).2 = true
    · simp [hrun] at hd
    · simp only [hrun, Bool.false_eq_true, if_false, Option.some.injEq] at hd
      subst hd
      rcases hcl : (Connection.loopSteps env fuel c).1.closed with _ | _
      · refine ⟨t, [Event.closeChan, Event.onClose, Event.connClose], ?_, Or.inr rfl, hdel,
          fun t1 p t2 h => (hlast t1 p t2 h).1⟩
        rw [Close_fresh env _ hcl]
        simp [ht]
      · refine ⟨t, [], ?_, Or.inl rfl, hdel, fun t1 p t2 h => (hlast t1 p t2 h).1⟩
        rw [Close_of_closed env _ hcl]
        simp [ht]

/-- The handler of `server_test.go` with the peer sending lines 5 and 6: the first pass
hands 5 to `OnMessage` and goes on; after three passes (the third times out) both lines
were delivered in order and the loop has stopped. -/
theorem read_loop_delivery_witness :
    Connection.iteration testEnv (NewConnection ⟨[5, 6], []⟩) =
      ({ closed := false
         world := ⟨[6], [5]⟩
         trace := [Event.peek none, Event.readPacket (Except.ok 5), Event.onMessage 5 true] },
       true) ∧
    Connection.handleRead testEnv (2 + 1) (NewConnection ⟨[5, 6], []⟩) =
      Connection.handleRead testEnv 2
        { closed := false
          world := ⟨[6], [5]⟩
          trace := [Event.peek none, Event.readPacket (Except.ok 5),
            Event.onMessage 5 true] } ∧
    delivered (Connection.loopSteps testEnv 3 (NewConnection ⟨[5, 6], []⟩)).1.trace = [5, 6] :=
  ⟨((read_loop_delivery testEnv (NewConnection ⟨[5, 6], []⟩)).1 ⟨[5, 6], []⟩ ⟨[6], []⟩ 5
      rfl rfl rfl).1,
   ((read_loop_delivery testEnv (NewConnection ⟨[5, 6], []⟩)).1 ⟨[5, 6], []⟩ ⟨[6], []⟩ 5
      rfl rfl rfl).2 2,
   by decide⟩

/-- C5. Close-once. On a connection that is not closed, `n >= 1` calls of `Close` do
what one call does: set the close signal, then call `OnClose`, then close the socket,
each once and in this order (the trace grows by exactly these three events and the
world goes through `OnClose` and then the socket close). A call of `Close` on a closed
connection, whenever it comes, leaves the connection as it is: no event, no change.
So when `Do` has run on the connection (ending in the `Close` of a refused accept or
in the deferred `Close` of the read loop), `OnClose` was called once and the socket
closed once, and `n` further calls of `Close` change nothing. -/
theorem close_once (env : Env W P E) (c : Connection W P E) (n : Nat)
    (hc : c.closed = false) (hn : 1 ≤ n) :
    (Connection.Close env)^[n] c = Connection.Close env c ∧
    Connection.Close env c =
      { closed := true
        world := env.connClose (env.OnClose c.world)
        trace := c.trace ++ [Event.closeChan, Event.onClose, Event.connClose] } ∧
    onCloseCount ((Connection.Close env)^[n] c).trace = onCloseCount c.trace + 1 ∧
    connCloseCount ((Connection.Close env)^[n] c).trace = connCloseCount c.trace + 1 ∧
    (∀ d : Connection W P E, d.closed = true → Connection.Close env d = d) ∧
    (∀ fuel d, Connection.Do env fuel c = some d →
      (Connection.Close env)^[n] d = d ∧
      onCloseCount d.trace = onCloseCount c.trace + 1 ∧
      connCloseCount d.trace = connCloseCount c.trace + 1) := by
  obtain ⟨k, rfl⟩ : ∃ k, n = k + 1 := ⟨n - 1, by omega⟩
  rw [Close_iterate, Close_fresh env c hc]
  refine ⟨rfl, rfl, ?_, ?_, fun d hd => Close_of_closed env d hd, ?_⟩
  · simp [onCloseCount_append, onCloseCount]
  · simp [connCloseCount_append, connCloseCount]
  · intro fuel d hd
    obtain ⟨h1, h2, h3⟩ := Do_closes env fuel c d hc hd
    exact ⟨by rw [Close_iterate, Close_of_closed env d h1], h2, h3⟩

/-- Three calls of `Close` on a new connection. -/
theorem close_once_witness :
    (NewConnection ⟨[], []⟩ : Connection TestWorld Nat Unit).closed = false ∧ 1 ≤ 3 ∧
    (Connection.Close testEnv)^[3] (NewConnection ⟨[], []⟩) =
      Connection.Close testEnv (NewConnection ⟨[], []⟩) ∧
    onCloseCount ((Connection.Close testEnv)^[3] (NewConnection ⟨[], []⟩)).trace = 0 + 1 :=
  ⟨rfl, by decide,
   (close_once testEnv (NewConnection ⟨[], []⟩) 3 rfl (by decide)).1,
   (close_once testEnv (NewConnection ⟨[], []⟩) 3 rfl (by decide)).2.2.1⟩

/-- C6. Rejected accept. When `OnAccept` answers `false` on a connection that is not
closed, `Do` returns (with any fuel) and all it has done is: add to the wait group,
call `OnAccept` once, run `Close` (close signal, `OnClose` once, socket close) and
release the wait group. No peek, no `ReadPacket`, no `OnMessage`, no `OnTimeout`. -/
theorem do_rejected (env : Env W P E) (c : Connection W P E) (fuel : Nat)
    (hc : c.closed = false) (ha : (env.OnAccept c.world).1 = false) :
    Connection.Do env fuel c = some
      { closed := true
        world := env.connClose (env.OnClose (env.OnAccept c.world).2)
        trace := c.trace ++ [Event.wgAdd, Event.onAccept false, Event.closeChan,
          Event.onClose, Event.connClose, Event.wgDone] } := by
  simp [Connection.Do, Connection.log, Connection.Close, hc, ha]

/-- A connection refused by its handler. -/
theorem do_rejected_witness :
    (refusingEnv.OnAccept (NewConnection (P := Nat) (E := Unit) ⟨[1], []⟩).world).1 = false ∧
    Connection.Do refusingEnv 0 (NewConnection ⟨[1], []⟩) = some
      { closed := true
        world := ⟨[1], []⟩
        trace := [Event.wgAdd, Event.onAccept false, Event.closeChan,
          Event.onClose, Event.connClose, Event.wgDone] } :=
  ⟨rfl, do_rejected refusingEnv (NewConnection ⟨[1], []⟩) 0 rfl rfl⟩

/-- C7. Peek-failure policy. In a pass of the loop that finds the close signal unset
and whose peek fails with `err`: when `err` is a timeout (a `net.Error` whose
`Timeout()` is true) the pass calls `OnTimeout` once and nothing else, and
`handleRead` goes on with the next pass when the answer is `true` and closes the
connection when it is `false`; when `err` is anything else the pass calls nothing
more and `handleRead` closes the connection. Neither `ReadPacket` nor `OnMessage`
is called in such a pass. -/
theorem peek_failure_policy (env : Env W P E) (c : Connection W P E) (err : PeekErr) (w1 : W)
    (hc : c.closed = false) (hp : env.Peek c.world = (some err, w1)) :
    (err = PeekErr.netError true →
      Connection.iteration env c =
        ({ closed := false
           world := (env.OnTimeout w1).2
           trace := c.trace ++ [Event.peek (some err), Event.onTimeout (env.OnTimeout w1).1] },
         (env.OnTimeout w1).1)) ∧
    (err = PeekErr.netError true → (env.OnTimeout w1).1 = true →
      ∀ fuel, Connection.handleRead env (fuel + 1) c =
        Connection.handleRead env fuel
          { closed := false
            world := (env.OnTimeout w1).2
            trace := c.trace ++ [Event.peek (some err), Event.onTimeout true] }) ∧
    (err = PeekErr.netError true → (env.OnTimeout w1).1 = false →
      ∀ fuel, Connection.handleRead env (fuel + 1) c = some
        { closed := true
          world := env.connClose (env.OnClose (env.OnTimeout w1).2)
          trace := c.trace ++ [Event.peek (some err), Event.onTimeout false,
            Event.closeChan, Event.onClose, Event.connClose] }) ∧
    (err ≠ PeekErr.netError true →
      Connection.iteration env c =
        ({ closed := false, world := w1, trace := c.trace ++ [Event.peek (some err)] },
         false)) ∧
    (err ≠ PeekErr.netError true →
      ∀ fuel, Connection.handleRead env (fuel + 1) c = some
        { closed := true
          world := env.connClose (env.OnClose w1)
          trace := c.trace ++ [Event.peek (some err),
            Event.closeChan, Event.onClose, Event.connClose] }) := by
  refine ⟨?_, ?_, ?_, ?_, ?_⟩
  · intro he
    subst he
    exact iteration_timeout env c w1 hc hp
  · intro he ht fuel
    subst he
    rw [handleRead_succ, iteration_timeout env c w1 hc hp]
    simp [ht]
  · intro he ht fuel
    subst he
    rw [handleRead_succ, iteration_timeout env c w1 hc hp]
    simp [ht, Connection.Close]
  · intro he
    exact iteration_peekError env c w1 err hc hp he
  · intro he fuel
    rw [handleRead_succ, iteration_peekError env c w1 err hc hp he]
    simp [Connection.Close]

/-- The timeout test of `server_test.go`: the peer is silent, the read deadline
passes, `OnTimeout` answers `false` and the connection is closed. -/
theorem peek_failure_policy_witness :
    (NewConnection ⟨[], []⟩ : Connection TestWorld Nat Unit).closed = false ∧
    testEnv.Peek (NewConnection (P := Nat) (E := Unit) ⟨[], []⟩).world =
      (some (PeekErr.netError true), ⟨[], []⟩) ∧
    Connection.handleRead testEnv (0 + 1) (NewConnection ⟨[], []⟩) = some
      { closed := true
        world := ⟨[], []⟩
        trace := [Event.peek (some (PeekErr.netError true)), Event.onTimeout false,
          Event.closeChan, Event.onClose, Event.connClose] } :=
  ⟨rfl, rfl,
   (peek_failure_policy testEnv (NewConnection ⟨[], []⟩) (PeekErr.netError true) ⟨[], []⟩
      rfl rfl).2.2.1 rfl rfl 0⟩

/-- C8. Framing errors terminate. In a pass of the loop that finds the close signal
unset, whose peek succeeds and in which `ReadPacket` returns an error `e` (whichever),
the pass ends there: `OnMessage` is not called and `ReadPacket` is not called again.
`handleRead` runs no further pass; it closes the connection and returns, with
`OnClose` called once and the socket closed once (exactly once over the life of a
connection whose trace had no `OnClose` so far). -/
theorem framing_error_terminates (env : Env W P E) (c : Connection W P E) (w1 w2 : W) (e : E)
    (hc : c.closed = false) (hp : env.Peek c.world = (none, w1))
    (hr : env.ReadPacket w1 = (Except.error e, w2)) :
    Connection.iteration env c =
      ({ closed := false
         world := w2
         trace := c.trace ++ [Event.peek none, Event.readPacket (Except.error e)] },
       false) ∧
    (∀ fuel, Connection.handleRead env (fuel + 1) c = some
      { closed := true
        world := env.connClose (env.OnClose w2)
        trace := c.trace ++ [Event.peek none, Event.readPacket (Except.error e),
          Event.closeChan, Event.onClose, Event.connClose] }) ∧
    (∀ fuel d, Connection.handleRead env (fuel + 1) c = some d →
      onCloseCount d.trace = onCloseCount c.trace + 1 ∧
      connCloseCount d.trace = connCloseCount c.trace + 1) := by
  have hi := iteration_readError env c w1 w2 e hc hp hr
  have hh : ∀ fuel, Connection.handleRead env (fuel + 1) c = some
      { closed := true
        world := env.connClose (env.OnClose w2)
        trace := c.trace ++ [Event.peek none, Event.readPacket (Except.error e),
          Event.closeChan, Event.onClose, Event.connClose] } := by
    intro fuel
    rw [handleRead_succ, hi]
    simp [Connection.Close]
  refine ⟨hi, hh, ?_⟩
  intro fuel d hd
  rw [hh fuel] at hd
  cases hd
  simp [onCloseCount_append, connCloseCount_append, onCloseCount, connCloseCount]

/-- A protocol that fails on the first frame: one peek, one `ReadPacket`, then the
close. -/
theorem framing_error_terminates_witness :
    (NewConnection ⟨[1], []⟩ : Connection TestWorld Nat Unit).closed = false ∧
    framingEnv.Peek (NewConnection (P := Nat) (E := Unit) ⟨[1], []⟩).world =
      (none, ⟨[1], []⟩) ∧
    framingEnv.ReadPacket ⟨[1], []⟩ = (Except.error (), ⟨[1], []⟩) ∧
    Connection.handleRead framingEnv (4 + 1) (NewConnection ⟨[1], []⟩) = some
      { closed := true
        world := ⟨[1], []⟩
        trace := [Event.peek none, Event.readPacket (Except.error ()),
          Event.closeChan, Event.onClose, Event.connClose] } :=
  ⟨rfl, rfl, rfl,
   (framing_error_terminates framingEnv (NewConnection ⟨[1], []⟩) ⟨[1], []⟩ ⟨[1], []⟩ ()
      rfl rfl rfl).2.1 4⟩

/-! ### The accept loop and the wait-group -/

/-- The events a pass of the loop of `handleRead` appends are no calls on the
wait-group. -/
theorem iteration_wg (env : Env W P E) (c : Connection W P E) :
    ∃ t, (Connection.iteration env c).1.trace = c.trace ++ t ∧ ∀ e ∈ t, Event.isWg e = false := by
  rcases hc : c.closed with _ | _
  swap
  · rw [iteration_closed env c hc]
    exact ⟨[], by simp, by simp⟩
  rcases hp : env.Peek c.world with ⟨_ | err, w1⟩
  · rcases hr : env.ReadPacket w1 with ⟨e | p, w2⟩
    · rw [iteration_readError env c w1 w2 e hc hp hr]
      exact ⟨_, rfl, by simp [Event.isWg]⟩
    · rw [iteration_message env c w1 w2 p hc hp hr]
      exact ⟨_, rfl, by simp [Event.isWg]⟩
  · by_cases herr : err = PeekErr.netError true
    · subst herr
      rw [iteration_timeout env c w1 hc hp]
      exact ⟨[Event.peek (some (PeekErr.netError true)), Event.onTimeout (env.OnTimeout w1).1],
        by simp, by simp [Event.isWg]⟩
    · rw [iteration_peekError env c w1 err hc hp herr]
      exact ⟨_, rfl, by simp [Event.isWg]⟩

/-- The events the loop of `handleRead` appends are no calls on the wait-group. -/
theorem loopSteps_wg (env : Env W P E) (n : Nat) (c : Connection W P E) :
    ∃ t, (Connection.loopSteps env n c).1.trace = c.trace ++ t ∧
      ∀ e ∈ t, Event.isWg e = false := by
  induction n generalizing c with
  | zero => exact ⟨[], by simp [Connection.loopSteps], by simp⟩
  | succ n ih =>
    obtain ⟨t, ht, hw⟩ := iteration_wg env c
    unfold Connection.loopSteps
    by_cases hcont : (Connection.iteration env c).2 = true
    · obtain ⟨u, hu, huw⟩ := ih (Connection.iteration env c).1
      refine ⟨t ++ u, by simp [hcont, hu, ht], ?_⟩
      intro e he
      rcases List.mem_append.1 he with h | h
      · exact hw e h
      · exact huw e h
    · exact ⟨t, by simp [hcont, ht], hw⟩

/-- The connections `serve` hands to the pool are open and have no call on the
wait-group behind them. -/
theorem serve_fresh (l : List (Accepted W)) (c : Connection W P E)
    (h : c ∈ (serve l : List (Connection W P E) × Bool).1) :
    c.closed = false ∧ c.trace = [] := by
  induction l with
  | nil => simp [serve] at h
  | cons a rest ih =>
    rcases a with sock | stop
    · simp only [serve, List.mem_cons] at h
      rcases h with h | h
      · subst h
        exact ⟨rfl, rfl⟩
      · exact ih h
    · cases stop
      · simp only [serve] at h
        exact ih h
      · simp [serve] at h

/-- C11. Accept loop. Over any sequence of results of `Accept`, `serve` hands to
`Handle` one `NewConnection` per socket accepted before the first error that finds the
stop flag set, in accept order, and nothing else: an error that finds the flag clear
adds nothing and the loop goes on. The loop has returned exactly when the sequence
holds an error that found the flag set; what comes after that error is not looked at. -/
theorem accept_loop (l : List (Accepted W)) :
    (serve l : List (Connection W P E) × Bool) =
      ((sockets (l.takeWhile (fun a => !a.isStop))).map NewConnection,
        l.any Accepted.isStop) := by
  induction l with
  | nil => rfl
  | cons a rest ih =>
    rcases a with sock | stop
    · simp [serve, sockets, List.takeWhile, Accepted.isStop, ih]
    · cases stop
      · simp [serve, sockets, List.takeWhile, Accepted.isStop, ih]
      · simp [serve, sockets, List.takeWhile, Accepted.isStop]

/-- C20, as claimed, fails. After `serve` has accepted one socket and handed its
connection to the pool, the connection is open and the wait-group counter is 0, not 1:
`serve` never calls `Add`. -/
theorem wait_group_at_accept_fails :
    openConnections
      (serve [Accepted.conn (⟨[1], []⟩ : TestWorld)] :
        List (Connection TestWorld Nat Unit) × Bool).1 = 1 ∧
    waitGroup
      (serve [Accepted.conn (⟨[1], []⟩ : TestWorld)] :
        List (Connection TestWorld Nat Unit) × Bool).1 = 0 := by
  decide

/-- C20, amended. The connections `serve` has handed to the pool are open and have
made no call on the wait-group: a connection waiting in the job queue is not counted.
The counter is incremented by the first statement of `Do`, when a worker starts the
job, and decremented by the last, after the terminal close: the trace of a `Do` that
returns is `Add(1)`, then calls that leave the wait-group alone, then the close of
`closeChan`, `OnClose`, the close of the socket, and `Done()`. -/
theorem wait_group_in_do (env : Env W P E) (fuel : Nat) (l : List (Accepted W))
    (c d : Connection W P E)
    (hc : c ∈ (serve l : List (Connection W P E) × Bool).1)
    (h : Connection.Do env fuel c = some d) :
    wgCount c.trace = 0 ∧ c.closed = false ∧
    ∃ mid, d.trace = Event.wgAdd :: mid ++
        [Event.closeChan, Event.onClose, Event.connClose, Event.wgDone] ∧
      ∀ e ∈ mid, Event.isWg e = false := by
  obtain ⟨hcl, htr⟩ := serve_fresh l c hc
  refine ⟨by rw [htr]; rfl, hcl, ?_⟩
  unfold Connection.Do at h
  by_cases ha : (env.OnAccept (c.log Event.wgAdd).world).1 = true
  · simp only [ha, Bool.not_true, Bool.false_eq_true, if_false, Option.map_eq_some'] at h
    obtain ⟨x, hx, rfl⟩ := h
    unfold Connection.handleRead at hx
    by_cases hrun : (Connection.loopSteps env fuel
        { closed := (c.log Event.wgAdd).closed
          world := (env.OnAccept (c.log Event.wgAdd).world).2
          trace := (c.log Event.wgAdd).trace ++ [Event.onAccept true] }).2 = true
    · simp [hrun] at hx
    · simp only [hrun, Bool.false_eq_true, if_false, Option.some.injEq] at hx
      subst hx
      obtain ⟨t, ht, hw⟩ := loopSteps_wg env fuel
        { closed := (c.log Event.wgAdd).closed
          world := (env.OnAccept (c.log Event.wgAdd).world).2
          trace := (c.log Event.wgAdd).trace ++ [Event.onAccept true] }
      obtain ⟨k1, _, _⟩ := loopSteps_no_close env fuel
        { closed := (c.log Event.wgAdd).closed
          world := (env.OnAccept (c.log Event.wgAdd).world).2
          trace := (c.log Event.wgAdd).trace ++ [Event.onAccept true] }
      rw [Close_fresh env _ (k1.trans hcl)]
      refine ⟨Event.onAccept true :: t, ?_, ?_⟩
      · simp only [Connection.log] at ht ⊢
        rw [ht]
        simp [htr]
      · intro e he
        rcases List.mem_cons.1 he with h1 | h1
        · subst h1
          rfl
        · exact hw e h1
  · simp only [ha, Bool.not_false, if_true, Option.some.injEq] at h
    subst h
    refine ⟨[Event.onAccept false], ?_, ?_⟩
    · simp at ha
      simp [Connection.log, Connection.Close, hcl, htr, ha]
    · simp [Event.isWg]

theorem wait_group_in_do_witness :
    wgCount (NewConnection (⟨[1], []⟩ : TestWorld) : Connection TestWorld Nat Unit).trace = 0 ∧
    (NewConnection (⟨[1], []⟩ : TestWorld) : Connection TestWorld Nat Unit).closed = false ∧
    ∃ mid, (⟨true, ⟨[], [1]⟩,
        [Event.wgAdd, Event.onAccept true, Event.peek none, Event.readPacket (Except.ok 1),
          Event.onMessage 1 true, Event.peek (some (PeekErr.netError true)),
          Event.onTimeout false, Event.closeChan, Event.onClose, Event.connClose,
          Event.wgDone]⟩ : Connection TestWorld Nat Unit).trace =
        Event.wgAdd :: mid ++
          [Event.closeChan, Event.onClose, Event.connClose, Event.wgDone] ∧
      ∀ e ∈ mid, Event.isWg e = false :=
  wait_group_in_do testEnv 5 [Accepted.err false, Accepted.conn ⟨[1], []⟩]
    (NewConnection ⟨[1], []⟩) _ (by simp [serve]) rfl

end Server

/-! ## The worker pool -/

namespace Pool

theorem countP_set_of {α : Type} (f : α → Bool) (l : List α) (i : Nat) (w v : α)
    (h : l[i]? = some w) :
    (l.set i v).countP f + (if f w then 1 else 0) = l.countP f + (if f v then 1 else 0) := by
  induction l generalizing i with
  | nil => simp at h
  | cons x l ih =>
    cases i with
    | zero =>
      simp only [List.getElem?_cons_zero, Option.some.injEq] at h
      subst h
      simp only [List.set_cons_zero, List.countP_cons]
      omega
    | succ i =>
      simp only [List.getElem?_cons_succ] at h
      have := ih i h
      simp only [List.set_cons_succ, List.countP_cons]
      omega

theorem runLoop_workers (n : Nat) (p : WorkerPool) :
    (WorkerPool.runLoop n p).workers = p.workers ++ List.replicate n NewWorker ∧
    (WorkerPool.runLoop n p).maxWorkers = p.maxWorkers ∧
    (WorkerPool.runLoop n p).started = p.started ∧
    (WorkerPool.runLoop n p).done = p.done := by
  induction n generalizing p with
  | zero => simp [WorkerPool.runLoop]
  | succ n ih =>
    obtain ⟨h1, h2, h3, h4⟩ := ih { p with workers := p.workers ++ [NewWorker] }
    simp only [WorkerPool.runLoop]
    refine ⟨?_, h2, h3, h4⟩
    rw [h1]
    simp [List.replicate_succ]

theorem inv_Run (n cap : Nat) : Inv n (NewWorkerPool n cap).Run := by
  obtain ⟨h1, h2, h3, h4⟩ := runLoop_workers n (NewWorkerPool n cap)
  have e1 : (NewWorkerPool n cap).Run.workers = List.replicate n NewWorker := by
    show (WorkerPool.runLoop (NewWorkerPool n cap).maxWorkers (NewWorkerPool n cap)).workers = _
    rw [show (NewWorkerPool n cap).maxWorkers = n from rfl, h1]
    rfl
  have e2 : (NewWorkerPool n cap).Run.maxWorkers = n := h2
  have e3 : (NewWorkerPool n cap).Run.started = [] := h3
  have e4 : (NewWorkerPool n cap).Run.done = [] := h4
  refine ⟨e2, ?_, ?_⟩
  · rw [e1, List.length_replicate]
  · rw [WorkerPool.busy, e1, e3, e4]
    simp [List.countP_replicate, Worker.isDoing, NewWorker]

theorem countP_set_same (l : List Worker) (i : Nat) (w v : Worker)
    (h : l[i]? = some w) (hv : v.isDoing = w.isDoing) :
    (l.set i v).countP Worker.isDoing = l.countP Worker.isDoing := by
  have := countP_set_of Worker.isDoing l i w v h
  rw [hv] at this
  omega

theorem isDoing_of_pc (w v : Worker) (pc : WorkerPC) (hw : w.pc = pc) (hv : v.pc = pc) :
    v.isDoing = w.isDoing := by
  simp [Worker.isDoing, hw, hv]

theorem inv_stepStop (n t : Nat) (p q : WorkerPool) (h : p.Stop t = some q)
    (hi : Inv n p) : Inv n q := by
  obtain ⟨h1, h2, h3⟩ := hi
  unfold WorkerPool.Stop at h
  split at h
  · simp at h
  · unfold WorkerPool.Stopped at h
    split at h <;> split at h <;> simp at h <;> subst h <;> exact ⟨h1, h2, h3⟩
  · split at h
    · simp at h
    · rename_i i _ _ w hw
      unfold Worker.Stopped at h
      split at h
      · rename_i hpc
        simp only [if_true, Option.some.injEq] at h
        subst h
        refine ⟨h1, by simpa using h2, ?_⟩
        simp only [WorkerPool.busy]
        rw [countP_set_same _ i w _ hw (by simp [Worker.isDoing, hpc])]
        exact h3
      · simp at h
        subst h
        exact ⟨h1, h2, h3⟩
  · split at h
    · simp at h
    · rename_i i _ _ w hw
      split at h
      · simp at h
        subst h
        exact ⟨h1, h2, h3⟩
      · simp only [Option.some.injEq] at h
        subst h
        refine ⟨h1, by simpa using h2, ?_⟩
        simp only [WorkerPool.busy]
        rw [countP_set_same _ i w { w with jobsChanClosed := true } hw rfl]
        exact h3
  · split at h
    · simp at h
    · rename_i i _ _ w hw
      split at h
      · rename_i hpc
        simp only [Option.some.injEq] at h
        subst h
        refine ⟨h1, by simpa using h2, ?_⟩
        simp only [WorkerPool.busy]
        rw [countP_set_same _ i w _ hw (by simp [Worker.isDoing, hpc])]
        exact h3
      · simp at h
  · split at h <;> simp at h <;> subst h <;> exact ⟨h1, h2, h3⟩
  · split at h <;> simp at h
    subst h
    exact ⟨h1, h2, h3⟩
  · simp at h

theorem inv_dispatchJob (n : Nat) (p : WorkerPool) (job : Job) (hi : Inv n p) :
    Inv n (p.dispatchJob job) := by
  cases job with
  | none => exact hi
  | some j => exact hi

theorem inv_Handle (n : Nat) (job : Job) (p q : WorkerPool) (h : p.Handle job = some q)
    (hi : Inv n p) : Inv n q := by
  unfold WorkerPool.Handle at h
  split at h
  · simp at h
    subst h
    exact hi
  · split at h
    · simp at h
      subst h
      exact hi
    · split at h
      · simp at h
        subst h
        exact inv_dispatchJob n p job hi
      · simp at h

theorem inv_stepDispatch (n : Nat) (p q : WorkerPool) (h : p.dispatch = some q)
    (hi : Inv n p) : Inv n q := by
  unfold WorkerPool.dispatch at h
  split at h
  · split at h
    · simp at h
      subst h
      exact inv_dispatchJob n _ _ hi
    · split at h <;> simp at h
      subst h
      exact hi
  · simp at h

theorem inv_stepHandoff (n k : Nat) (p q : WorkerPool) (h : p.handOff k = some q)
    (hi : Inv n p) : Inv n q := by
  obtain ⟨h1, h2, h3⟩ := hi
  unfold WorkerPool.handOff at h
  split at h
  · split at h <;> simp at h
    subst h
    exact ⟨h1, h2, h3⟩
  · split at h
    · simp at h
    · rename_i i j _ _ w hw
      split at h
      · simp at h
        subst h
        exact ⟨h1, h2, h3⟩
      · split at h
        · rename_i hpc
          simp only [Option.some.injEq] at h
          subst h
          refine ⟨h1, by simpa using h2, ?_⟩
          have hc := countP_set_of Worker.isDoing p.workers i w
            { w with pc := WorkerPC.doing j } hw
          simp only [Worker.isDoing, hpc] at hc
          simp only [WorkerPool.busy, List.length_append, List.length_singleton]
          simp only [WorkerPool.busy] at h3
          simp at hc
          omega
        · simp at h
  · simp at h

theorem inv_stepWorker (n i : Nat) (p q : WorkerPool) (h : p.workerStart i = some q)
    (hi : Inv n p) : Inv n q := by
  obtain ⟨h1, h2, h3⟩ := hi
  unfold WorkerPool.workerStart at h
  split at h
  · simp at h
  · rename_i w hw
    split at h
    · rename_i hpc
      split at h
      · simp only [Option.some.injEq] at h
        subst h
        refine ⟨h1, by simpa using h2, ?_⟩
        simp only [WorkerPool.busy]
        rw [countP_set_same _ i w _ hw (by simp [Worker.isDoing, hpc])]
        exact h3
      · simp at h
    · rename_i hpc
      split at h
      · simp only [Option.some.injEq] at h
        subst h
        refine ⟨h1, by simpa using h2, ?_⟩
        simp only [WorkerPool.busy]
        rw [countP_set_same _ i w _ hw (by simp [Worker.isDoing, hpc])]
        exact h3
      · simp at h
    · rename_i j hpc
      simp only [Option.some.injEq] at h
      subst h
      refine ⟨h1, by simpa using h2, ?_⟩
      have hc := countP_set_of Worker.isDoing p.workers i w
        { w with pc := WorkerPC.register } hw
      simp only [Worker.isDoing, hpc] at hc
      simp only [WorkerPool.busy, List.length_append, List.length_singleton]
      simp only [WorkerPool.busy] at h3
      simp at hc
      omega
    · simp at h
    · simp at h

theorem inv_step (n : Nat) (a : Action) (p q : WorkerPool) (h : p.step a = some q)
    (hi : Inv n p) : Inv n q := by
  unfold WorkerPool.step at h
  split at h
  · simp at h
  · cases a with
    | handle job => exact inv_Handle n job p q h hi
    | callStop =>
      simp at h
      subst h
      exact hi
    | callStopped =>
      simp only [WorkerPool.Stopped, Option.some.injEq] at h
      split at h <;> subst h <;> exact hi
    | stop t => exact inv_stepStop n t p q h hi
    | dispatch => exact inv_stepDispatch n p q h hi
    | handoff k => exact inv_stepHandoff n k p q h hi
    | worker i => exact inv_stepWorker n i p q h hi

theorem inv_exec (n : Nat) (acts : List Action) (p q : WorkerPool)
    (h : p.exec acts = some q) (hi : Inv n p) : Inv n q := by
  induction acts generalizing p with
  | nil =>
    simp [WorkerPool.exec] at h
    subst h
    exact hi
  | cons a rest ih =>
    simp only [WorkerPool.exec] at h
    cases hs : p.step a with
    | none => simp [hs] at h
    | some r =>
      rw [hs] at h
      exact ih r h (inv_step n a p r hs hi)

/-! ### After `Stop` has returned

Every way for `Stop` to return goes through a receive from `stopChan`, which lets the
dispatcher go from its send to its end; nothing sends on `stopChan` again. -/

theorem nextWorker_ne_returned (p : WorkerPool) (i : Nat) :
    StopPC.returned ≠ p.nextWorker i := by
  unfold WorkerPool.nextWorker
  split <;> simp

theorem returned_of_mem_set (l : List StopPC) (t : Nat) (pc : StopPC)
    (hpc : StopPC.returned ≠ pc) (h : StopPC.returned ∈ l.set t pc) :
    StopPC.returned ∈ l := by
  rcases List.mem_or_eq_of_mem_set h with h | h
  · exact h
  · exact absurd h hpc

theorem halted_stepStop (t : Nat) (p q : WorkerPool) (h : p.Stop t = some q)
    (hi : StopPC.returned ∈ p.stops → p.dispatcher = DispatcherPC.exited) :
    StopPC.returned ∈ q.stops → q.dispatcher = DispatcherPC.exited := by
  unfold WorkerPool.Stop at h
  split at h
  · simp at h
  · unfold WorkerPool.Stopped at h
    split at h
    · simp at h
      subst h
      intro _
      rfl
    · simp at h
      subst h
      intro hm
      exact hi (returned_of_mem_set _ _ _ (nextWorker_ne_returned p 0) hm)
  · split at h
    · simp at h
    · split at h <;> simp only [Option.some.injEq] at h <;> subst h <;> intro hm
      · exact hi (returned_of_mem_set _ _ _ (nextWorker_ne_returned p _) hm)
      · exact hi (returned_of_mem_set _ _ _ (by simp) hm)
  · split at h
    · simp at h
    · split at h <;> simp only [Option.some.injEq] at h <;> subst h <;> intro hm
      · exact hi hm
      · exact hi (returned_of_mem_set _ _ _ (by simp) hm)
  · split at h
    · simp at h
    · split at h
      · simp only [Option.some.injEq] at h
        subst h
        intro hm
        exact hi (returned_of_mem_set _ _ _ (nextWorker_ne_returned p _) hm)
      · simp at h
  · split at h <;> simp only [Option.some.injEq] at h <;> subst h <;> intro hm
    · exact hi hm
    · exact hi (returned_of_mem_set _ _ _ (by simp) hm)
  · split at h
    · simp only [Option.some.injEq] at h
      subst h
      intro _
      rfl
    · simp at h
  · simp at h

theorem halted_step (a : Action) (p q : WorkerPool) (h : p.step a = some q)
    (hi : StopPC.returned ∈ p.stops → p.dispatcher = DispatcherPC.exited) :
    StopPC.returned ∈ q.stops → q.dispatcher = DispatcherPC.exited := by
  unfold WorkerPool.step at h
  split at h
  · simp at h
  · cases a with
    | handle job =>
      simp only [WorkerPool.Handle] at h
      split at h
      · simp at h
        subst h
        exact hi
      · split at h
        · simp at h
          subst h
          exact hi
        · split at h
          · simp at h
            subst h
            cases job <;> exact hi
          · simp at h
    | callStop =>
      simp at h
      subst h
      intro hm
      simp only [List.mem_append, List.mem_singleton] at hm
      rcases hm with hm | hm
      · exact hi hm
      · cases hm
    | callStopped =>
      simp only [WorkerPool.Stopped, Option.some.injEq] at h
      split at h <;> subst h
      · intro _
        rfl
      · exact hi
    | stop t => exact halted_stepStop t p q h hi
    | dispatch =>
      simp only [WorkerPool.dispatch] at h
      split at h
      · rename_i hd
        split at h
        · simp at h
          subst h
          rename_i job rest _
          cases job <;> exact hi
        · split at h <;> simp at h
          subst h
          intro hm
          have := hi hm
          rw [hd] at this
          cases this
      · simp at h
    | handoff k =>
      simp only [WorkerPool.handOff] at h
      split at h
      · split at h <;> simp at h
        subst h
        exact hi
      · split at h
        · simp at h
        · split at h
          · simp at h
            subst h
            exact hi
          · split at h <;> simp at h
            subst h
            exact hi
      · simp at h
    | worker i =>
      simp only [WorkerPool.workerStart] at h
      split at h
      · simp at h
      · split at h
        · split at h <;> simp at h
          subst h
          exact hi
        · split at h <;> simp at h
          subst h
          exact hi
        · simp at h
          subst h
          exact hi
        · simp at h
        · simp at h

/-- In every state a pool reaches after `Run()`: once some call of `Stop()` has
returned, the dispatcher has returned, and `Stopped()` answers `false` and changes
nothing. -/
theorem stopped_false_after_stop (n cap : Nat) (acts : List Action) (p : WorkerPool)
    (h : (NewWorkerPool n cap).Run.exec acts = some p) (hr : StopPC.returned ∈ p.stops) :
    p.dispatcher = DispatcherPC.exited ∧ p.Stopped = (false, p) := by
  have key : ∀ (l : List Action) (a b : WorkerPool), a.exec l = some b →
      (StopPC.returned ∈ a.stops → a.dispatcher = DispatcherPC.exited) →
      (StopPC.returned ∈ b.stops → b.dispatcher = DispatcherPC.exited) := by
    intro l
    induction l with
    | nil =>
      intro a b hab hi
      simp [WorkerPool.exec] at hab
      subst hab
      exact hi
    | cons x rest ih =>
      intro a b hab hi
      simp only [WorkerPool.exec] at hab
      cases hs : a.step x with
      | none => simp [hs] at hab
      | some r =>
        rw [hs] at hab
        exact ih r b hab (halted_step x a r hs hi)
  have hd : p.dispatcher = DispatcherPC.exited := by
    refine key acts _ p h ?_ hr
    intro hm
    have : (NewWorkerPool n cap).Run.stops = [] := by
      have hs : ∀ (k : Nat) (q : WorkerPool), (WorkerPool.runLoop k q).stops = q.stops := by
        intro k
        induction k with
        | zero => intro q; rfl
        | succ k ih => intro q; simp only [WorkerPool.runLoop]; rw [ih]
      exact hs _ _
    rw [this] at hm
    cases hm
  exact ⟨hd, by simp [WorkerPool.Stopped, hd]⟩

/-- The first `Stop()` of `scheduleStop` has returned. -/
theorem stopped_false_after_stop_witness :
    (NewWorkerPool 1 1).Run.exec scheduleStop = some stateStopped ∧
    StopPC.returned ∈ stateStopped.stops ∧
    stateStopped.Stopped = (false, stateStopped) :=
  ⟨by decide, by decide,
   (stopped_false_after_stop 1 1 scheduleStop stateStopped (by decide) (by decide)).2⟩

theorem getElem_set_cases {α : Type} (l : List α) (i k : Nat) (v x : α)
    (h : (l.set i v)[k]? = some x) : (k = i ∧ x = v) ∨ (k ≠ i ∧ l[k]? = some x) := by
  rw [List.getElem?_set] at h
  split at h
  · rename_i hik
    split at h
    · simp at h
      exact Or.inl ⟨hik.symm, h.symm⟩
    · simp at h
  · rename_i hik
    exact Or.inr ⟨fun hk => hik hk.symm, h⟩

theorem lt_length_of_getElem {α : Type} (l : List α) (i : Nat) (x : α)
    (h : l[i]? = some x) : i < l.length := by
  rcases Nat.lt_or_ge i l.length with hlt | hge
  · exact hlt
  · rw [List.getElem?_eq_none hge] at h
    cases h

theorem slotsClosed_set (l : List Worker) (i : Nat) (v : Worker) (h : SlotsClosed l)
    (hv : v.pc = WorkerPC.sendStop ∨ v.pc = WorkerPC.exited → v.jobsChanClosed = true) :
    SlotsClosed (l.set i v) := by
  intro k x hx hpc
  rcases getElem_set_cases l i k v x hx with ⟨_, rfl⟩ | ⟨_, hx'⟩
  · exact hv hpc
  · exact h k x hx' hpc

theorem exitedBelow_set (l : List Worker) (i m : Nat) (w v : Worker) (hw : l[i]? = some w)
    (hv : w.pc = WorkerPC.exited → v.pc = WorkerPC.exited) (h : ExitedBelow l m) :
    ExitedBelow (l.set i v) m := by
  intro k x hk hx
  rcases getElem_set_cases l i k v x hx with ⟨rfl, rfl⟩ | ⟨_, hx'⟩
  · exact hv (h k w hk hw)
  · exact h k x hk hx'

theorem exitedBelow_succ (l : List Worker) (i : Nat) (v : Worker)
    (hv : v.pc = WorkerPC.exited) (h : ExitedBelow l i) :
    ExitedBelow (l.set i v) (i + 1) := by
  intro k x hk hx
  rcases getElem_set_cases l i k v x hx with ⟨_, rfl⟩ | ⟨hne, hx'⟩
  · exact hv
  · exact h k x (by omega) hx'

theorem passed_workers (l : List Worker) (stops : List StopPC) (i : Nat) (w v : Worker)
    (hw : l[i]? = some w) (hv : w.pc = WorkerPC.exited → v.pc = WorkerPC.exited)
    (h : Passed l stops) : Passed (l.set i v) stops := by
  intro t pc ht
  rw [List.length_set]
  exact exitedBelow_set l i _ w v hw hv (h t pc ht)

theorem passed_set (l : List Worker) (stops : List StopPC) (t : Nat) (pc : StopPC)
    (h : Passed l stops) (hpc : ExitedBelow l (pc.passed l.length)) :
    Passed l (stops.set t pc) := by
  intro u x hu
  rcases getElem_set_cases stops t u pc x hu with ⟨_, rfl⟩ | ⟨_, hu'⟩
  · exact hpc
  · exact h u x hu'

theorem exitedBelow_zero (l : List Worker) : ExitedBelow l 0 := by
  intro k x hk _
  omega

theorem exitedBelow_nextWorker (p : WorkerPool) (l : List Worker) (i : Nat)
    (hl : l.length = p.workers.length) (h : ExitedBelow l i) :
    ExitedBelow l ((p.nextWorker i).passed l.length) := by
  unfold WorkerPool.nextWorker
  split
  · exact h
  · intro k x hk hx
    simp only [StopPC.passed] at hk
    exact h k x (by omega) hx

theorem halting_Stop (t : Nat) (p q : WorkerPool) (h : p.Stop t = some q)
    (hi : Halting p) : Halting q := by
  obtain ⟨h1, h2, h3, h4⟩ := hi
  unfold WorkerPool.Stop at h
  split at h
  · simp at h
  · unfold WorkerPool.Stopped at h
    split at h
    · simp at h
      subst h
      rename_i hd
      exact ⟨h1, passed_set _ _ _ _ h2 (exitedBelow_zero _), h3, fun _ => h4 (Or.inl hd)⟩
    · simp at h
      subst h
      exact ⟨h1, passed_set _ _ _ _ h2
        (exitedBelow_nextWorker p _ 0 rfl (exitedBelow_zero _)), h3, h4⟩
  · split at h
    · simp at h
    · rename_i i hst _ w hw
      unfold Worker.Stopped at h
      split at h
      · rename_i hpc
        simp only [if_true, Option.some.injEq] at h
        subst h
        refine ⟨slotsClosed_set _ _ _ h1 (fun _ => h1 i w hw (Or.inl hpc)), ?_, ?_, h4⟩
        · refine passed_set _ _ _ _ (passed_workers _ _ i w _ hw (fun _ => rfl) h2) ?_
          exact exitedBelow_nextWorker p _ (i + 1) (by simp)
            (exitedBelow_succ _ i _ rfl (h2 t _ hst))
        · intro hq
          have := h3 hq
          rw [List.length_set]
          exact exitedBelow_set _ i _ w _ hw (fun _ => rfl) this
      · simp at h
        subst h
        have hx := h2 t _ hst
        exact ⟨h1, passed_set _ _ _ _ h2 hx, h3, h4⟩
  · split at h
    · simp at h
    · rename_i i hst _ w hw
      have hx := h2 t _ hst
      split at h
      · simp at h
        subst h
        exact ⟨h1, h2, h3, h4⟩
      · simp only [Option.some.injEq] at h
        subst h
        refine ⟨slotsClosed_set _ _ _ h1 (fun _ => rfl), ?_, ?_, h4⟩
        · refine passed_set _ _ _ _
            (passed_workers _ _ i w { w with jobsChanClosed := true } hw (fun hx => hx) h2) ?_
          rw [List.length_set]
          exact exitedBelow_set _ i _ w { w with jobsChanClosed := true } hw (fun hy => hy) hx
        · intro hq
          have := h3 hq
          rw [List.length_set]
          exact exitedBelow_set _ i _ w { w with jobsChanClosed := true } hw (fun hx => hx) this
  · split at h
    · simp at h
    · rename_i i hst _ w hw
      split at h
      · rename_i hpc
        simp only [Option.some.injEq] at h
        subst h
        refine ⟨slotsClosed_set _ _ _ h1 (fun _ => h1 i w hw (Or.inl hpc)), ?_, ?_, h4⟩
        · refine passed_set _ _ _ _ (passed_workers _ _ i w _ hw (fun _ => rfl) h2) ?_
          exact exitedBelow_nextWorker p _ (i + 1) (by simp)
            (exitedBelow_succ _ i _ rfl (h2 t _ hst))
        · intro hq
          have := h3 hq
          rw [List.length_set]
          exact exitedBelow_set _ i _ w _ hw (fun _ => rfl) this
      · simp at h
  · rename_i hst
    split at h
    · simp at h
      subst h
      exact ⟨h1, h2, h3, h4⟩
    · simp only [Option.some.injEq] at h
      subst h
      have hx := h2 t _ hst
      exact ⟨h1, passed_set _ _ _ _ h2 hx, fun _ => hx, fun _ => rfl⟩
  · split at h
    · rename_i hd
      simp only [Option.some.injEq] at h
      subst h
      exact ⟨h1, passed_set _ _ _ _ h2 (exitedBelow_zero _), h3, fun _ => h4 (Or.inl hd)⟩
    · simp at h
  · simp at h

theorem halting_step (a : Action) (p q : WorkerPool) (h : p.step a = some q)
    (hi : Halting p) : Halting q := by
  unfold WorkerPool.step at h
  split at h
  · simp at h
  · cases a with
    | handle job =>
      simp only [WorkerPool.Handle] at h
      split at h
      · simp at h
        subst h
        exact hi
      · split at h
        · simp at h
          subst h
          exact hi
        · split at h
          · simp at h
            subst h
            cases job <;> exact hi
          · simp at h
    | callStop =>
      simp at h
      subst h
      obtain ⟨h1, h2, h3, h4⟩ := hi
      refine ⟨h1, ?_, h3, h4⟩
      intro t pc ht
      rcases Nat.lt_or_ge t p.stops.length with hlt | hge
      · rw [List.getElem?_append_left hlt] at ht
        exact h2 t pc ht
      · rw [List.getElem?_append_right hge] at ht
        have hpc : pc = StopPC.check := by
          cases hk : t - p.stops.length with
          | zero =>
            rw [hk] at ht
            simp at ht
            exact ht.symm
          | succ k =>
            rw [hk] at ht
            simp at ht
        subst hpc
        exact exitedBelow_zero _
    | callStopped =>
      simp only [WorkerPool.Stopped, Option.some.injEq] at h
      split at h <;> subst h
      · rename_i hd
        obtain ⟨h1, h2, h3, h4⟩ := hi
        exact ⟨h1, h2, h3, fun _ => h4 (Or.inl hd)⟩
      · exact hi
    | stop t => exact halting_Stop t p q h hi
    | dispatch =>
      simp only [WorkerPool.dispatch] at h
      split at h
      · split at h
        · simp at h
          subst h
          rename_i job rest _
          cases job <;> exact hi
        · split at h <;> simp at h
          subst h
          rename_i hq
          obtain ⟨h1, h2, h3, _⟩ := hi
          exact ⟨h1, h2, h3, fun _ => hq⟩
      · simp at h
    | handoff k =>
      simp only [WorkerPool.handOff] at h
      split at h
      · split at h <;> simp at h
        subst h
        exact hi
      · split at h
        · simp at h
        · rename_i i j _ _ w hw
          split at h
          · simp at h
            subst h
            exact hi
          · split at h
            · simp only [Option.some.injEq] at h
              subst h
              rename_i hpc
              obtain ⟨h1, h2, h3, h4⟩ := hi
              have hne : w.pc = WorkerPC.exited →
                  ({ w with pc := WorkerPC.doing j } : Worker).pc = WorkerPC.exited := by
                intro hx
                rw [hpc] at hx
                cases hx
              refine ⟨slotsClosed_set _ _ _ h1 (by simp), passed_workers _ _ i w _ hw hne h2,
                ?_, h4⟩
              intro hq
              have := h3 hq
              rw [List.length_set]
              exact exitedBelow_set _ i _ w _ hw hne this
            · simp at h
      · simp at h
    | worker i =>
      simp only [WorkerPool.workerStart] at h
      split at h
      · simp at h
      · rename_i w hw
        obtain ⟨h1, h2, h3, h4⟩ := hi
        have frame : ∀ v : Worker,
            (v.pc = WorkerPC.sendStop ∨ v.pc = WorkerPC.exited → v.jobsChanClosed = true) →
            (w.pc = WorkerPC.exited → v.pc = WorkerPC.exited) →
            ∀ r : WorkerPool, r.workers = p.workers.set i v → r.stops = p.stops →
              r.jobQueueClosed = p.jobQueueClosed → r.dispatcher = p.dispatcher →
              Halting r := by
          intro v hv1 hv2 r hr1 hr2 hr3 hr4
          refine ⟨?_, ?_, ?_, ?_⟩
          · rw [hr1]
            exact slotsClosed_set _ _ _ h1 hv1
          · rw [hr1, hr2]
            exact passed_workers _ _ i w _ hw hv2 h2
          · rw [hr1, hr3, List.length_set]
            intro hq
            exact exitedBelow_set _ i _ w _ hw hv2 (h3 hq)
          · rw [hr3, hr4]
            exact h4
        split at h
        · rename_i hpc
          split at h
          · simp only [Option.some.injEq] at h
            subst h
            exact frame { w with pc := WorkerPC.receive } (by simp)
              (fun hx => by rw [hpc] at hx; cases hx) _ rfl rfl rfl rfl
          · simp at h
        · rename_i hpc
          split at h
          · simp only [Option.some.injEq] at h
            subst h
            rename_i hcl
            exact frame { w with pc := WorkerPC.sendStop } (fun _ => hcl)
              (fun hx => by rw [hpc] at hx; cases hx) _ rfl rfl rfl rfl
          · simp at h
        · rename_i j hpc
          simp only [Option.some.injEq] at h
          subst h
          exact frame { w with pc := WorkerPC.register } (by simp)
            (fun hx => by rw [hpc] at hx; cases hx) _ rfl rfl rfl rfl
        · simp at h
        · simp at h

theorem halting_exec (acts : List Action) (p q : WorkerPool)
    (h : p.exec acts = some q) (hi : Halting p) : Halting q := by
  induction acts generalizing p with
  | nil =>
    simp [WorkerPool.exec] at h
    subst h
    exact hi
  | cons a rest ih =>
    simp only [WorkerPool.exec] at h
    cases hs : p.step a with
    | none => simp [hs] at h
    | some r =>
      rw [hs] at h
      exact ih r h (halting_step a p r hs hi)

theorem runLoop_frame (k : Nat) (p : WorkerPool) :
    (WorkerPool.runLoop k p).stops = p.stops ∧
    (WorkerPool.runLoop k p).jobQueueClosed = p.jobQueueClosed := by
  induction k generalizing p with
  | zero => exact ⟨rfl, rfl⟩
  | succ k ih =>
    simp only [WorkerPool.runLoop]
    exact ih _

theorem halting_Run (n cap : Nat) : Halting (NewWorkerPool n cap).Run := by
  obtain ⟨h1, _, _, _⟩ := runLoop_workers n (NewWorkerPool n cap)
  obtain ⟨h5, h6⟩ := runLoop_frame n (NewWorkerPool n cap)
  have e1 : (NewWorkerPool n cap).Run.workers = List.replicate n NewWorker := by
    show (WorkerPool.runLoop (NewWorkerPool n cap).maxWorkers (NewWorkerPool n cap)).workers = _
    rw [show (NewWorkerPool n cap).maxWorkers = n from rfl, h1]
    rfl
  have e2 : (NewWorkerPool n cap).Run.stops = [] := h5
  have e3 : (NewWorkerPool n cap).Run.jobQueueClosed = false := h6
  have e4 : (NewWorkerPool n cap).Run.dispatcher = DispatcherPC.receive := rfl
  refine ⟨?_, ?_, ?_, ?_⟩
  · rw [e1]
    intro k w hw hpc
    have hm : w ∈ List.replicate n NewWorker := List.getElem?_mem hw
    rw [List.eq_of_mem_replicate hm] at hpc
    simp [NewWorker] at hpc
  · rw [e2]
    intro t pc ht
    simp at ht
  · rw [e3]
    intro hq
    cases hq
  · rw [e4]
    intro hd
    rcases hd with hd | hd <;> cases hd

/-- In every state a pool reaches after `Run()`: once some call of `Stop()` has
returned, the dispatcher has returned, the job queue is closed, and every worker has
returned with its job slot closed. -/
theorem halted_after_stop (n cap : Nat) (acts : List Action) (p : WorkerPool)
    (h : (NewWorkerPool n cap).Run.exec acts = some p) (hr : StopPC.returned ∈ p.stops) :
    p.dispatcher = DispatcherPC.exited ∧ p.jobQueueClosed = true ∧
    ∀ (k : Nat) (w : Worker), p.workers[k]? = some w →
      w.pc = WorkerPC.exited ∧ w.jobsChanClosed = true := by
  obtain ⟨h1, _, h3, h4⟩ := halting_exec acts _ p h (halting_Run n cap)
  have hd := (stopped_false_after_stop n cap acts p h hr).1
  have hq := h4 (Or.inr hd)
  refine ⟨hd, hq, fun k w hw => ?_⟩
  have hx := h3 hq k w (lt_length_of_getElem _ _ _ hw) hw
  exact ⟨hx, h1 k w hw (Or.inr hx)⟩

/-- The first `Stop()` of `scheduleStop` has returned and everything has halted. -/
theorem halted_after_stop_witness :
    (NewWorkerPool 1 1).Run.exec scheduleStop = some stateStopped ∧
    StopPC.returned ∈ stateStopped.stops ∧
    stateStopped.dispatcher = DispatcherPC.exited ∧ stateStopped.jobQueueClosed = true :=
  ⟨by decide, by decide,
   (halted_after_stop 1 1 scheduleStop stateStopped (by decide) (by decide)).1,
   (halted_after_stop 1 1 scheduleStop stateStopped (by decide) (by decide)).2.1⟩

/-- In every state a pool reaches after `Run()` without a panic: once some call of
`Stop()` has returned, a further call of `Stop()`, left to run on its own, panics
after at most three steps (guard, guard of the first worker, `close` of its closed
job slot; without workers: guard, `close` of the closed job queue). -/
theorem stop_again_panics (n cap : Nat) (acts : List Action) (p : WorkerPool)
    (h : (NewWorkerPool n cap).Run.exec acts = some p) (hr : StopPC.returned ∈ p.stops)
    (hp : p.panicked = false) :
    ∃ m, m ≤ 3 ∧
      (p.exec (Action.callStop :: List.replicate m (Action.stop p.stops.length))).map
        (fun q => q.panicked) = some true := by
  obtain ⟨hd, hq, hw⟩ := halted_after_stop n cap acts p h hr
  have hk : (p.stops ++ [StopPC.check])[p.stops.length]? = some StopPC.check := by
    rw [List.getElem?_append_right (Nat.le_refl _)]
    simp
  have hlen : p.stops.length < (p.stops ++ [StopPC.check]).length := by simp
  cases hws : p.workers with
  | nil =>
    refine ⟨2, by omega, ?_⟩
    simp [List.replicate, WorkerPool.exec, WorkerPool.step, WorkerPool.Stop,
      WorkerPool.Stopped, WorkerPool.nextWorker, hp, hd, hq, hws, hk]
  | cons w rest =>
    have h0 : p.workers[0]? = some w := by rw [hws]; simp
    obtain ⟨hx, hc⟩ := hw 0 w h0
    refine ⟨3, by omega, ?_⟩
    simp [List.replicate, WorkerPool.exec, WorkerPool.step, WorkerPool.Stop,
      WorkerPool.Stopped, Worker.Stopped, WorkerPool.nextWorker, hp, hd, hws, hk, hx, hc]

/-- The first `Stop()` of `scheduleStop` has returned: three steps of a second one. -/
theorem stop_again_panics_witness :
    (NewWorkerPool 1 1).Run.exec scheduleStop = some stateStopped ∧
    StopPC.returned ∈ stateStopped.stops ∧ stateStopped.panicked = false ∧
    ∃ m, m ≤ 3 ∧
      (stateStopped.exec
        (Action.callStop :: List.replicate m (Action.stop stateStopped.stops.length))).map
        (fun q => q.panicked) = some true :=
  ⟨by decide, by decide, rfl,
   stop_again_panics 1 1 scheduleStop stateStopped (by decide) (by decide) rfl⟩

theorem exited_frozen_step (a : Action) (p q : WorkerPool) (h : p.step a = some q)
    (hex : ExitedBelow p.workers p.workers.length) :
    ExitedBelow q.workers q.workers.length ∧ q.started = p.started ∧ q.done = p.done := by
  have hat : ∀ (i : Nat) (w : Worker), p.workers[i]? = some w → w.pc = WorkerPC.exited :=
    fun i w hw => hex i w (lt_length_of_getElem _ _ _ hw) hw
  unfold WorkerPool.step at h
  split at h
  · simp at h
  · cases a with
    | handle job =>
      simp only [WorkerPool.Handle] at h
      split at h
      · simp at h
        subst h
        exact ⟨hex, rfl, rfl⟩
      · split at h
        · simp at h
          subst h
          exact ⟨hex, rfl, rfl⟩
        · split at h
          · simp at h
            subst h
            cases job <;> exact ⟨hex, rfl, rfl⟩
          · simp at h
    | callStop =>
      simp at h
      subst h
      exact ⟨hex, rfl, rfl⟩
    | callStopped =>
      simp only [WorkerPool.Stopped, Option.some.injEq] at h
      split at h <;> subst h <;> exact ⟨hex, rfl, rfl⟩
    | stop t =>
      simp only [WorkerPool.Stop] at h
      split at h
      · simp at h
      · unfold WorkerPool.Stopped at h
        split at h <;> simp at h <;> subst h <;> exact ⟨hex, rfl, rfl⟩
      · split at h
        · simp at h
        · rename_i i _ _ w hw
          unfold Worker.Stopped at h
          split at h
          · rename_i hpc
            rw [hat i w hw] at hpc
            cases hpc
          · simp at h
            subst h
            exact ⟨hex, rfl, rfl⟩
      · split at h
        · simp at h
        · rename_i i _ _ w hw
          split at h
          · simp at h
            subst h
            exact ⟨hex, rfl, rfl⟩
          · simp only [Option.some.injEq] at h
            subst h
            refine ⟨?_, rfl, rfl⟩
            simp only [List.length_set]
            exact exitedBelow_set _ i _ w { w with jobsChanClosed := true } hw (fun hx => hx) hex
      · split at h
        · simp at h
        · rename_i i _ _ w hw
          split at h
          · rename_i hpc
            rw [hat i w hw] at hpc
            cases hpc
          · simp at h
      · split at h <;> simp at h <;> subst h <;> exact ⟨hex, rfl, rfl⟩
      · split at h
        · simp only [Option.some.injEq] at h
          subst h
          exact ⟨hex, rfl, rfl⟩
        · simp at h
      · simp at h
    | dispatch =>
      simp only [WorkerPool.dispatch] at h
      split at h
      · split at h
        · simp at h
          subst h
          rename_i job rest _
          cases job <;> exact ⟨hex, rfl, rfl⟩
        · split at h <;> simp at h
          subst h
          exact ⟨hex, rfl, rfl⟩
      · simp at h
    | handoff k =>
      simp only [WorkerPool.handOff] at h
      split at h
      · split at h <;> simp at h
        subst h
        exact ⟨hex, rfl, rfl⟩
      · split at h
        · simp at h
        · rename_i i j _ _ w hw
          split at h
          · simp at h
            subst h
            exact ⟨hex, rfl, rfl⟩
          · split at h
            · rename_i hpc
              rw [hat i w hw] at hpc
              cases hpc
            · simp at h
      · simp at h
    | worker i =>
      simp only [WorkerPool.workerStart] at h
      split at h
      · simp at h
      · rename_i w hw
        have hpc := hat i w hw
        split at h <;> rename_i hpc2 <;> rw [hpc] at hpc2 <;>
          first | (refine absurd hpc2 ?_; simp; done) | cases h

/-- Once all workers have returned, no job enters or leaves `Do` any more. -/
theorem exited_frozen_exec (acts : List Action) (p q : WorkerPool)
    (h : p.exec acts = some q) (hex : ExitedBelow p.workers p.workers.length) :
    q.started = p.started ∧ q.done = p.done := by
  induction acts generalizing p with
  | nil =>
    simp [WorkerPool.exec] at h
    subst h
    exact ⟨rfl, rfl⟩
  | cons a rest ih =>
    simp only [WorkerPool.exec] at h
    cases hs : p.step a with
    | none => simp [hs] at h
    | some r =>
      rw [hs] at h
      obtain ⟨h1, h2, h3⟩ := exited_frozen_step a p r hs hex
      obtain ⟨h4, h5⟩ := ih r h h1
      exact ⟨h4.trans h2, h5.trans h3⟩

/-- In every state a pool reaches after `Run()`: once some call of `Stop()` has
returned, whatever happens afterwards, no further job enters `Do`: a job that was
queued or being handed off when `Stop()` returned is never run. -/
theorem no_job_after_stop (n cap : Nat) (acts more : List Action) (p q : WorkerPool)
    (h : (NewWorkerPool n cap).Run.exec acts = some p) (hr : StopPC.returned ∈ p.stops)
    (hq : p.exec more = some q) :
    q.started = p.started ∧ q.done = p.done := by
  obtain ⟨_, _, hw⟩ := halted_after_stop n cap acts p h hr
  exact exited_frozen_exec more p q hq (fun k w _ hk => (hw k w hk).1)

/-- After `scheduleStopReturns`, job 7 has not entered `Do`; it does not later. -/
theorem no_job_after_stop_witness :
    pool11.exec scheduleStopReturns =
      some { stateStopped with pool := [0], handoffs := [Handoff.recvPool 7] } ∧
    ({ stateStopped with pool := [0], handoffs := [Handoff.recvPool 7] } : WorkerPool).exec
        [Action.handoff 0] =
      some { stateStopped with pool := [], handoffs := [Handoff.send 0 7] } ∧
    ({ stateStopped with pool := [], handoffs := [Handoff.send 0 7] } : WorkerPool).started =
      [] :=
  ⟨by decide, by decide,
   (no_job_after_stop 1 1 scheduleStopReturns [Action.handoff 0]
      { stateStopped with pool := [0], handoffs := [Handoff.recvPool 7] }
      { stateStopped with pool := [], handoffs := [Handoff.send 0 7] }
      (by decide) (by decide) (by decide)).1⟩

/-- C2. Admission bound. In every state that a pool made by `NewWorkerPool(n, cap)`
can reach after `Run()`, whatever is called on it and however its goroutines are
scheduled, the pool has exactly `n` workers, the jobs that have entered `Do` and not
left it are as many as the workers inside `Do` (one job per such worker), and so at
most `n` jobs are inside `Do`. -/
theorem admission_bound (n cap : Nat) (acts : List Action) (p : WorkerPool)
    (h : (NewWorkerPool n cap).Run.exec acts = some p) :
    p.maxWorkers = n ∧ p.workers.length = n ∧ p.executing = p.busy ∧
      p.busy ≤ p.workers.length ∧ p.executing ≤ n := by
  obtain ⟨h1, h2, h3⟩ := inv_exec n acts _ p h (inv_Run n cap)
  have hb : p.busy ≤ p.workers.length := List.countP_le_length _
  refine ⟨h1, h2, ?_, hb, ?_⟩
  · unfold WorkerPool.executing
    omega
  · unfold WorkerPool.executing
    omega

/-- One worker, one job: the job is running and the bound is reached. -/
theorem admission_bound_witness :
    (NewWorkerPool 1 1).Run.exec scheduleBusy = some stateBusy ∧
    stateBusy.workers.length = 1 ∧ stateBusy.executing = stateBusy.busy ∧
    stateBusy.executing ≤ 1 :=
  ⟨by decide,
   (admission_bound 1 1 scheduleBusy stateBusy (by decide)).2.1,
   (admission_bound 1 1 scheduleBusy stateBusy (by decide)).2.2.1,
   (admission_bound 1 1 scheduleBusy stateBusy (by decide)).2.2.2.2⟩

/-- C3. Drain on stop fails on the code. With one worker and room for one job, job 7
is enqueued with `Handle` and then `Stop()` is called: `Stop` returns while job 7 has
not entered `Do`; the hand-off of job 7 then takes the slot the stopped worker had
registered and its send on the closed slot panics, so job 7 is never run. And with
two workers, job 8, submitted while `Stop()` waits for worker 0, is run to the end. -/
theorem drain_on_stop_fails :
    (pool11.exec scheduleStopReturns).map (fun p => (p.stops, p.jobQueue, p.panicked)) =
      some ([StopPC.returned], [], false) ∧
    (pool11.exec scheduleStopReturns).map (fun p => (p.started, p.done)) =
      some ([], []) ∧
    (pool11.exec (scheduleStopReturns ++ [Action.handoff 0, Action.handoff 0])).map
        (fun p => (p.started, p.done, p.panicked)) =
      some ([], [], true) ∧
    ((NewWorkerPool 2 1).Run.exec scheduleLateJob).map (fun p => (p.stops, p.panicked)) =
      some ([StopPC.workerWait 0], false) ∧
    ((NewWorkerPool 2 1).Run.exec scheduleLateJob).map (fun p => (p.started, p.done)) =
      some ([7, 8], [8]) := by
  decide

/-- C4. Shutdown ordering fails on the code. With one worker and job 7 in the queue,
`Stop()` has closed the job slot of the worker while the job queue is still open and
job 7 is still in it, handed to nobody. -/
theorem shutdown_order_fails :
    (pool11.exec scheduleStopBegins).map (fun p => p.workers.map Worker.jobsChanClosed) =
      some [true] ∧
    (pool11.exec scheduleStopBegins).map (fun p => (p.jobQueueClosed, p.jobQueue)) =
      some (false, [some 7]) ∧
    (pool11.exec scheduleStopBegins).map (fun p => (p.handoffs, p.stops)) =
      some ([], [StopPC.workerWait 0]) := by
  decide

/-- C9. A second `Stop()` is not a no-op. After a first `Stop()` has returned,
`Stopped()` answers `false`, so a second `Stop()` passes its guard, finds the worker
not signalling either, and panics at `close(w.jobsChan)`, closing a closed slot. -/
theorem second_stop_panics :
    pool11.exec scheduleStop = some stateStopped ∧
    (stateStopped.Stopped).1 = false ∧
    (stateStopped.exec [Action.callStop, Action.stop 1, Action.stop 1]).map
        (fun p => (p.stops, p.panicked)) =
      some ([StopPC.returned, StopPC.workerClose 0], false) ∧
    (stateStopped.exec [Action.callStop, Action.stop 1, Action.stop 1, Action.stop 1]).map
        (fun p => p.panicked) = some true := by
  decide

/-- C10. `Stopped()` does not report the halted state and is not a pure query. After
`Stop()` has returned, `Stopped()` answers `false`. Called while the dispatcher
stands at its stop signal, `Stopped()` answers `true` and takes the signal: the next
call answers `false`, and the `Stop()` that was waiting for the signal can no longer
go on. -/
theorem stopped_not_a_query :
    (pool11.exec scheduleStop).map (fun p => (p.stops, (p.Stopped).1)) =
      some ([StopPC.returned], false) ∧
    (pool11.exec scheduleStopWaits).map
        (fun p => (p.stops, (p.Stopped).1, ((p.Stopped).2.Stopped).1)) =
      some ([StopPC.waitStop], true, false) ∧
    (pool11.exec (scheduleStopWaits ++ [Action.stop 0])).map (fun p => p.stops) =
      some [StopPC.returned] ∧
    pool11.exec (scheduleStopWaits ++ [Action.callStopped, Action.stop 0]) = none := by
  decide

/-! ### Hand-offs and the job queue -/

theorem exec_append (p : WorkerPool) (a b : List Action) :
    p.exec (a ++ b) = (p.exec a).bind (fun q => q.exec b) := by
  induction a generalizing p with
  | nil => simp [WorkerPool.exec]
  | cons x rest ih =>
    simp only [List.cons_append, WorkerPool.exec]
    cases hs : p.step x with
    | none => simp
    | some r => simp [ih r]

/-- The backlog run: `n` jobs submitted and taken by the dispatcher leave `n` hand-off
goroutines waiting. -/
theorem exec_backlog (n : Nat) : pool11.exec (scheduleBacklog n) = some (stateBacklog n) := by
  induction n with
  | zero => rfl
  | succ n ih =>
    simp only [scheduleBacklog, exec_append, ih, Option.some_bind]
    simp [WorkerPool.exec, WorkerPool.step, stateBacklog, pool11, WorkerPool.Handle,
      WorkerPool.dispatch, WorkerPool.dispatchJob, List.range_succ, NewWorkerPool,
      WorkerPool.Run, WorkerPool.runLoop]

theorem outstanding_backlog (n : Nat) : (stateBacklog n).outstanding = n := by
  simp only [stateBacklog, WorkerPool.outstanding]
  rw [List.countP_eq_length.2]
  · simp
  · intro h hm
    obtain ⟨j, _, rfl⟩ := List.mem_map.1 hm
    rfl

/-- A call of `Stop` leaves the job queue and its capacity alone, except that it closes
the queue. -/
theorem queue_Stop (t : Nat) (p q : WorkerPool) (h : p.Stop t = some q) :
    q.queueLength = p.queueLength ∧ q.jobQueue = p.jobQueue := by
  unfold WorkerPool.Stop at h
  split at h
  · simp at h
  · unfold WorkerPool.Stopped at h
    split at h <;> split at h <;> simp at h <;> subst h <;> exact ⟨rfl, rfl⟩
  · split at h
    · simp at h
    · split at h <;> simp at h <;> subst h <;> exact ⟨rfl, rfl⟩
  · split at h
    · simp at h
    · split at h <;> simp at h <;> subst h <;> exact ⟨rfl, rfl⟩
  · split at h
    · simp at h
    · split at h <;> simp at h
      subst h
      exact ⟨rfl, rfl⟩
  · split at h <;> simp at h <;> subst h <;> exact ⟨rfl, rfl⟩
  · split at h <;> simp at h
    subst h
    exact ⟨rfl, rfl⟩
  · simp at h

/-- No step changes the capacity of the job queue or fills the queue beyond it. -/
theorem queue_step (a : Action) (p q : WorkerPool) (h : p.step a = some q)
    (hq : p.jobQueue.length ≤ p.queueLength) :
    q.queueLength = p.queueLength ∧ q.jobQueue.length ≤ q.queueLength := by
  unfold WorkerPool.step at h
  split at h
  · simp at h
  · cases a with
    | handle job =>
      simp only [] at h
      unfold WorkerPool.Handle at h
      split at h
      · simp at h
        subst h
        exact ⟨rfl, hq⟩
      · split at h
        · rename_i hroom
          simp at h
          subst h
          refine ⟨rfl, ?_⟩
          simp only [List.length_append, List.length_singleton]
          omega
        · split at h
          · simp at h
            subst h
            cases job <;> exact ⟨rfl, hq⟩
          · simp at h
    | callStop =>
      simp at h
      subst h
      exact ⟨rfl, hq⟩
    | callStopped =>
      simp only [WorkerPool.Stopped, Option.some.injEq] at h
      split at h <;> subst h <;> exact ⟨rfl, hq⟩
    | stop t =>
      obtain ⟨h1, h2⟩ := queue_Stop t p q h
      rw [h1, h2]
      exact ⟨rfl, hq⟩
    | dispatch =>
      simp only [] at h
      unfold WorkerPool.dispatch at h
      split at h
      · split at h
        · rename_i job rest hjq
          simp at h
          subst h
          rw [hjq] at hq
          simp only [List.length_cons] at hq
          cases job
          · exact ⟨rfl, by simp only [WorkerPool.dispatchJob]; omega⟩
          · exact ⟨rfl, by simp only [WorkerPool.dispatchJob]; omega⟩
        · split at h <;> simp at h
          subst h
          exact ⟨rfl, hq⟩
      · simp at h
    | handoff k =>
      simp only [] at h
      unfold WorkerPool.handOff at h
      split at h
      · split at h <;> simp at h
        subst h
        exact ⟨rfl, hq⟩
      · split at h
        · simp at h
        · split at h
          · simp at h
            subst h
            exact ⟨rfl, hq⟩
          · split at h <;> simp at h
            subst h
            exact ⟨rfl, hq⟩
      · simp at h
    | worker i =>
      simp only [] at h
      unfold WorkerPool.workerStart at h
      split at h
      · simp at h
      · split at h
        · split at h <;> simp at h
          subst h
          exact ⟨rfl, hq⟩
        · split at h <;> simp at h
          subst h
          exact ⟨rfl, hq⟩
        · simp at h
          subst h
          exact ⟨rfl, hq⟩
        · simp at h
        · simp at h

theorem queue_exec (acts : List Action) (p q : WorkerPool) (h : p.exec acts = some q)
    (hq : p.jobQueue.length ≤ p.queueLength) :
    q.queueLength = p.queueLength ∧ q.jobQueue.length ≤ q.queueLength := by
  induction acts generalizing p with
  | nil =>
    simp [WorkerPool.exec] at h
    subst h
    exact ⟨rfl, hq⟩
  | cons a rest ih =>
    simp only [WorkerPool.exec] at h
    cases hs : p.step a with
    | none => simp [hs] at h
    | some r =>
      rw [hs] at h
      obtain ⟨h1, h2⟩ := queue_step a p r hs hq
      obtain ⟨h3, h4⟩ := ih r h h2
      exact ⟨h3.trans h1, h4⟩

theorem runLoop_queue (n : Nat) (p : WorkerPool) :
    (WorkerPool.runLoop n p).queueLength = p.queueLength ∧
    (WorkerPool.runLoop n p).jobQueue = p.jobQueue := by
  induction n generalizing p with
  | zero => exact ⟨rfl, rfl⟩
  | succ n ih =>
    unfold WorkerPool.runLoop
    obtain ⟨h1, h2⟩ := ih { p with workers := p.workers ++ [NewWorker] }
    exact ⟨h1, h2⟩

/-- When `Handle` blocks: on an open queue that is full, unless the queue has no buffer
and the dispatcher stands at its receive. -/
theorem Handle_blocks (p : WorkerPool) (job : Job) :
    p.Handle job = none ↔
      (p.jobQueueClosed = false ∧ p.queueLength ≤ p.jobQueue.length ∧
        ¬ (p.queueLength = 0 ∧ p.dispatcher = DispatcherPC.receive)) := by
  unfold WorkerPool.Handle
  split
  · rename_i hc
    simp [hc]
  · rename_i hc
    split
    · rename_i hroom
      simp only [false_iff, not_and, reduceCtorEq]
      intro _ hfull
      omega
    · rename_i hroom
      split
      · rename_i hd
        simp [hd]
      · rename_i hd
        simp only [true_iff]
        exact ⟨by simpa using hc, by omega, hd⟩

/-- C19, as claimed, fails. On `NewWorkerPool(1, 1)` after `Run()`, three jobs are
submitted and each is taken from the queue by the dispatcher before the next is
submitted: three hand-offs are outstanding on a pool of one worker, and three jobs are
submitted and not running, more than the queue capacity plus the worker count. No call
of `Handle` blocked. -/
theorem handoffs_exceed_workers :
    (pool11.exec (scheduleBacklog 3)).map
      (fun p => (p.outstanding, p.workers.length + p.queueLength, p.started)) =
      some (3, 2, []) := by
  decide

/-- C19, amended. Nothing bounds the hand-offs: the dispatcher starts one for every job
it takes from the queue, so for every `n` a pool of one worker has a run with `n`
outstanding hand-offs, none of whose jobs has started. What is bounded is the job
queue: in every state reached from `Run` it holds at most `queueLength` jobs, and
`Handle` blocks exactly when the queue is open and full (for a queue without buffer:
unless the dispatcher stands at its receive). -/
theorem handoffs_not_bounded (n workers queueLength : Nat) (acts : List Action)
    (p : WorkerPool) (job : Job)
    (h : (NewWorkerPool workers queueLength).Run.exec acts = some p) :
    (pool11.exec (scheduleBacklog n) = some (stateBacklog n) ∧
      (stateBacklog n).outstanding = n ∧ (stateBacklog n).started = [] ∧
      (stateBacklog n).workers.length = 1) ∧
    p.jobQueue.length ≤ queueLength ∧
    (p.Handle job = none ↔
      (p.jobQueueClosed = false ∧ p.jobQueue.length = queueLength ∧
        ¬ (queueLength = 0 ∧ p.dispatcher = DispatcherPC.receive))) := by
  refine ⟨⟨exec_backlog n, outstanding_backlog n, rfl, rfl⟩, ?_⟩
  obtain ⟨r1, r2⟩ := runLoop_queue workers (NewWorkerPool workers queueLength)
  have r3 : ((NewWorkerPool workers queueLength).Run).queueLength = queueLength := r1
  have r4 : ((NewWorkerPool workers queueLength).Run).jobQueue = [] := r2
  have h0 : ((NewWorkerPool workers queueLength).Run).jobQueue.length ≤
      ((NewWorkerPool workers queueLength).Run).queueLength := by
    rw [r3, r4]
    exact Nat.zero_le _
  obtain ⟨h1, h2⟩ := queue_exec acts _ p h h0
  have h3 : p.queueLength = queueLength := h1.trans r3
  rw [h3] at h2
  refine ⟨h2, ?_⟩
  rw [Handle_blocks, h3]
  constructor
  · rintro ⟨a, b, c⟩
    exact ⟨a, by omega, c⟩
  · rintro ⟨a, b, c⟩
    exact ⟨a, by omega, c⟩

theorem handoffs_not_bounded_witness :
    (pool11.exec (scheduleBacklog 5) = some (stateBacklog 5) ∧
      (stateBacklog 5).outstanding = 5 ∧ (stateBacklog 5).started = [] ∧
      (stateBacklog 5).workers.length = 1) ∧
    (stateBacklog 1).jobQueue.length ≤ 1 ∧
    ((stateBacklog 1).Handle (some 9) = none ↔
      ((stateBacklog 1).jobQueueClosed = false ∧ (stateBacklog 1).jobQueue.length = 1 ∧
        ¬ (1 = 0 ∧ (stateBacklog 1).dispatcher = DispatcherPC.receive))) :=
  handoffs_not_bounded 5 1 1 (scheduleBacklog 1) (stateBacklog 1) (some 9) (exec_backlog 1)

end Pool

/-! ## The deque -/

namespace Containers

variable {T : Type} [Inhabited T]

/-- C12, as claimed, fails. `d := NewDeque[int](); d.PushBack(1); d.PushBack(2);
d.Insert(0, 9)`: the index is in range and below `Len()/2`, so `Insert` takes its first
branch with `elemIdx` 0, where `d.blocks[blockIdx][1:elemIdx]` is the slice `[1:0]`:
the call panics instead of prepending 9. The same holds one step further in, at
`Insert(1, 9)` after `PushFront(7)`. Away from a block boundary the first branch
works: `Insert(1, 9)` on the deque 1, 2, 3, 4, 5 gives 1, 9, 2, 3, 4, 5. -/
theorem insert_front_panics :
    ((pushBacks [1, 2] (NewDeque : Deque Nat)).bind (fun d => d.Insert 0 9)).isNone = true ∧
    (((pushBacks [1, 2, 3, 4, 5] (NewDeque : Deque Nat)).bind
        (fun d => d.PushFront 7)).bind (fun d => d.Insert 1 9)).isNone = true ∧
    ((pushBacks [1, 2, 3, 4, 5] (NewDeque : Deque Nat)).bind (fun d => d.Insert 1 9)).map
        (fun r => r.1.gets) =
      some [some (1, none), some (9, none), some (2, none), some (3, none), some (4, none),
        some (5, none)] := by
  refine ⟨?_, ?_, ?_⟩ <;> decide

/-- C13, as claimed, fails. On the deque 1, 2, 3, 4, 5 made by `PushBack`, `Remove(1)`
takes the first branch (1 is below `Len()/2`), which moves the tail of the block one
place down, over the element at the index, and then advances `first`: the deque is
then 3, 4, 5, 0 and not 1, 3, 4, 5: the elements 1 and 2 are lost and a zero value
has come in. On the deque 1, 2, 3, 4 made by `PushFront` of 3, 2, 1 and `PushBack(4)`,
whose last element lies in the next block, `Remove(2)` takes the second branch and
overwrites the head of a later block before reading it: the deque is then 1, 2, 3 and
not 1, 2, 4. -/
theorem remove_loses_elements :
    ((pushBacks [1, 2, 3, 4, 5] (NewDeque : Deque Nat)).bind (fun d => d.Remove 1)).map
        (fun r => (r.1.gets, r.2)) =
      some ([some (3, none), some (4, none), some (5, none), some (0, none)], none) ∧
    (((pushFronts [3, 2, 1] (NewDeque : Deque Nat)).bind (fun d => d.PushBack 4)).bind
        (fun d => d.Remove 2)).map (fun r => (r.1.gets, r.2)) =
      some ([some (1, none), some (2, none), some (3, none)], none) := by
  refine ⟨?_, ?_⟩ <;> decide

/-! ### Index arithmetic -/

theorem settled_of_blocks (bc f l fb u : Nat) (hf : f / 256 = fb) (hl : l / 256 = fb + u)
    (h : bc ≤ 64 ∨ bc ≤ 5 * (u + 1) ∨ (bc ≤ 80 ∧ fb ≤ 40)) : Settled bc f l := by
  unfold Settled
  rw [hf, hl]
  omega

theorem blocks_of_settled (bc f l fb u : Nat) (hf : f / 256 = fb) (hl : l / 256 = fb + u)
    (h : Settled bc f l) : bc ≤ 64 ∨ bc ≤ 5 * (u + 1) ∨ (bc ≤ 80 ∧ fb ≤ 40) := by
  unfold Settled at h
  rw [hf, hl] at h
  omega

/-- A cut halves the slack. -/
theorem slack_halves (bc f l fb u free rem k : Nat)
    (hf1 : 256 * fb ≤ f) (hl2 : l < 256 * (fb + u) + 256) (hfl : f ≤ l) (hk : k ≤ f)
    (hl1 : 256 * (fb + u) ≤ l) (hf2 : f < 256 * fb + 256)
    (hbc : bc = u + free) (hr1 : 2 * rem ≤ free) (hr2 : free ≤ 2 * rem + 1)
    (hu : 5 * (u + 2) < bc) :
    2 * slack (bc - rem) (f - k) (l - k) + 1 ≤ slack bc f l := by
  unfold slack
  have e : l - k - (f - k) = l - f := by omega
  rw [e]
  omega

/-- A window away from 8192 whose drift is small is a long window, and moving it down
does not raise its drift. -/
theorem drift_shift (f l k : Nat) (hk : k ≤ f) (hfl : f ≤ l)
    (hG : 64 < (f - 8192) + (8192 - l)) (hd : drift f l ≤ 64) :
    drift (f - k) (l - k) ≤ drift f l := by
  unfold drift at *
  have e : l - k - (f - k) = l - f := by omega
  rw [e]
  have h1 : 7937 - (l - f) ≤ 64 := by
    rcases Nat.le_total ((f - 8192) + (8192 - l)) (7937 - (l - f)) with h | h
    · rw [Nat.min_eq_left h] at hd
      omega
    · rw [Nat.min_eq_right h] at hd
      exact hd
  have h2 : min ((f - 8192) + (8192 - l)) (7937 - (l - f)) = 7937 - (l - f) :=
    Nat.min_eq_right (by omega)
  rw [h2]
  exact Nat.min_le_right _ _

/-- A small drift puts the window near block 32 or makes it 30 blocks long. -/
theorem drift_small (f l fb u : Nat) (hfl : f ≤ l) (hf1 : 256 * fb ≤ f)
    (hl2 : l < 256 * (fb + u) + 256) (hd : drift f l ≤ 64) : fb ≤ 32 ∨ 30 ≤ u := by
  unfold drift at hd
  rcases Nat.le_total ((f - 8192) + (8192 - l)) (7937 - (l - f)) with h | h
  · rw [Nat.min_eq_left h] at hd
    left
    omega
  · rw [Nat.min_eq_right h] at hd
    right
    omega

/-- The potential bound survives a halving of the slack with one more step of drift. -/
theorem potential_step (V H V1 H1 : Nat) (h : V * 2 ^ H ≤ 2 ^ 63) (hV : 2 * V1 ≤ V)
    (hH : H1 ≤ H + 1) : V1 * 2 ^ H1 ≤ 2 ^ 63 := by
  calc V1 * 2 ^ H1 ≤ V1 * 2 ^ (H + 1) :=
        Nat.mul_le_mul_left _ (Nat.pow_le_pow_right (by norm_num) hH)
    _ = (2 * V1) * 2 ^ H := by rw [pow_succ]; ring
    _ ≤ V * 2 ^ H := Nat.mul_le_mul_right _ hV
    _ ≤ 2 ^ 63 := h

/-- The potential bound survives a step that raises neither slack nor drift. -/
theorem potential_mono (V H V1 H1 : Nat) (h : V * 2 ^ H ≤ 2 ^ 63) (hV : V1 ≤ V)
    (hH : H1 ≤ H) : V1 * 2 ^ H1 ≤ 2 ^ 63 :=
  le_trans (Nat.mul_le_mul hV (Nat.pow_le_pow_right (by norm_num) hH)) h

/-- Under the potential bound the slack is 0 or the drift is below 64. -/
theorem potential_small (V H : Nat) (h : V * 2 ^ H ≤ 2 ^ 63) : V = 0 ∨ H ≤ 63 := by
  by_contra hc
  push_neg at hc
  obtain ⟨hV, hH⟩ := hc
  have h1 : 2 ^ 64 ≤ 2 ^ H := Nat.pow_le_pow_right (by norm_num) hH
  have h2 : 1 * 2 ^ 64 ≤ V * 2 ^ H := Nat.mul_le_mul (Nat.one_le_iff_ne_zero.2 hV) h1
  have h3 : (2 : Nat) ^ 63 < 1 * 2 ^ 64 := by norm_num
  omega

/-- What a cut leaves, in blocks: it stays clear of the window and leaves 33 blocks. -/
theorem shrink_blocks (bc fb u free rem rf rb : Nat) (h1 : 33 ≤ bc) (hlt : fb + u < bc)
    (hbc : bc = u + free) (hr1 : 2 * rem ≤ free) (hr2 : free ≤ 2 * rem + 1)
    (hs : ((bc ≤ 5 * u ∨ rem = 0 ∨ bc ≤ 64) ∧ rf = 0 ∧ rb = 0) ∨
      (5 * u < bc ∧ 1 ≤ rem ∧ 65 ≤ bc ∧
        ((fb < bc / 4 ∧ rf = 0 ∧ rb = rem) ∨
         (bc / 4 ≤ fb ∧ 3 * bc / 4 < fb + u ∧ rf = rem ∧ rb = 0) ∨
         (bc / 4 ≤ fb ∧ fb + u ≤ 3 * bc / 4 ∧ rf = rem / 2 ∧ rf + rb = rem))))
    (hB : (bc ≤ 64 ∨ bc ≤ 5 * (u + 2) ∨ (bc ≤ 80 ∧ fb ≤ 41)) ∨ fb ≤ 32 ∨ 30 ≤ u) :
    rf ≤ fb ∧ fb + u + rb < bc ∧ 33 ≤ bc - rb - rf ∧ bc - rb - rf = bc - (rf + rb) ∧
    (rf + rb = rem ∨ (rf = 0 ∧ rb = 0)) := by
  rcases hs with ⟨hn, rfl, rfl⟩ | ⟨hu, hrem1, hbc65, ⟨hA, rfl, rfl⟩ | ⟨hA, hC, rfl, rfl⟩ |
    ⟨hA, hC, hrf, hrb⟩⟩
  · omega
  · omega
  · omega
  · omega

/-- What a cut leaves is settled when the table was nearly settled before, and without
a cut the table is settled. -/
theorem shrink_settled (bc fb u free rem rf rb : Nat) (h1 : 33 ≤ bc) (hlt : fb + u < bc)
    (hbc : bc = u + free) (hr1 : 2 * rem ≤ free) (hr2 : free ≤ 2 * rem + 1)
    (hs : ((bc ≤ 5 * u ∨ rem = 0 ∨ bc ≤ 64) ∧ rf = 0 ∧ rb = 0) ∨
      (5 * u < bc ∧ 1 ≤ rem ∧ 65 ≤ bc ∧
        ((fb < bc / 4 ∧ rf = 0 ∧ rb = rem) ∨
         (bc / 4 ≤ fb ∧ 3 * bc / 4 < fb + u ∧ rf = rem ∧ rb = 0) ∨
         (bc / 4 ≤ fb ∧ fb + u ≤ 3 * bc / 4 ∧ rf = rem / 2 ∧ rf + rb = rem))))
    (hW : bc ≤ 64 ∨ bc ≤ 5 * (u + 2) ∨ (bc ≤ 80 ∧ fb ≤ 41)) :
    bc - rb - rf ≤ 64 ∨ bc - rb - rf ≤ 5 * (u + 1) ∨ (bc - rb - rf ≤ 80 ∧ fb - rf ≤ 40) := by
  rcases hs with ⟨hn, rfl, rfl⟩ | ⟨hu, hrem1, hbc65, ⟨hA, rfl, rfl⟩ | ⟨hA, hC, rfl, rfl⟩ |
    ⟨hA, hC, hrf, hrb⟩⟩
  · omega
  · omega
  · omega
  · omega

/-- What a cut leaves when the table was not nearly settled: a table that is settled,
or a window that lies beyond block 32. -/
theorem shrink_far (bc fb u free rem rf rb : Nat) (hlt : fb + u < bc)
    (hbc : bc = u + free) (hr1 : 2 * rem ≤ free) (hr2 : free ≤ 2 * rem + 1)
    (hs : 5 * u < bc ∧ 1 ≤ rem ∧ 65 ≤ bc ∧
        ((fb < bc / 4 ∧ rf = 0 ∧ rb = rem) ∨
         (bc / 4 ≤ fb ∧ 3 * bc / 4 < fb + u ∧ rf = rem ∧ rb = 0) ∨
         (bc / 4 ≤ fb ∧ fb + u ≤ 3 * bc / 4 ∧ rf = rem / 2 ∧ rf + rb = rem)))
    (hW : ¬ (bc ≤ 64 ∨ bc ≤ 5 * (u + 2) ∨ (bc ≤ 80 ∧ fb ≤ 41))) :
    rf = 0 ∨ 33 ≤ fb ∨
    (bc - rb - rf ≤ 64 ∨ bc - rb - rf ≤ 5 * (u + 1) ∨ (bc - rb - rf ≤ 80 ∧ fb - rf ≤ 40)) := by
  rcases hs with ⟨hu, hrem1, hbc65, ⟨hA, rfl, rfl⟩ | ⟨hA, hC, rfl, rfl⟩ | ⟨hA, hC, hrf, hrb⟩⟩
  · omega
  · omega
  · omega

/-- The invariant after `checkSize`, for a window inside the table that is nearly
settled or whose potential is at most one halving away from the bound: the cut stays
clear of the window, and the table is settled or within the bound again. -/
theorem shrink_inv (bc f l rf rb V H : Nat) (h1 : 33 ≤ bc) (h2 : f ≤ l) (h3 : l < 256 * bc)
    (hs : Shrinks bc f l rf rb)
    (hyp : (bc ≤ 64 ∨ bc ≤ 5 * (l / 256 - f / 256 + 2) ∨ (bc ≤ 80 ∧ f / 256 ≤ 41)) ∨
      (slack bc f l ≤ V + 1 ∧ drift f l ≤ H + 1 ∧ V * 2 ^ H ≤ 2 ^ 63)) :
    rf * 256 ≤ f ∧ bc - rb - rf ≤ bc ∧
    33 ≤ bc - rb - rf ∧ l - rf * 256 < 256 * (bc - rb - rf) ∧
    (Settled (bc - rb - rf) (f - rf * 256) (l - rf * 256) ∨
      slack (bc - rb - rf) (f - rf * 256) (l - rf * 256) *
        2 ^ drift (f - rf * 256) (l - rf * 256) ≤ 2 ^ 63) := by
  obtain ⟨fb, u, free, rem, hfb, hlb, hbc, hrem, hs⟩ := hs
  have hf1 : 256 * fb ≤ f := by omega
  have hf2 : f < 256 * fb + 256 := by omega
  have hl1 : 256 * (fb + u) ≤ l := by omega
  have hl2 : l < 256 * (fb + u) + 256 := by omega
  have hr1 : 2 * rem ≤ free := by omega
  have hr2 : free ≤ 2 * rem + 1 := by omega
  have hlt : fb + u < bc := by omega
  have hsub : l / 256 - f / 256 = u := by omega
  rw [hsub, hfb] at hyp
  -- the block-level form of the hypothesis
  have hB : (bc ≤ 64 ∨ bc ≤ 5 * (u + 2) ∨ (bc ≤ 80 ∧ fb ≤ 41)) ∨ fb ≤ 32 ∨ 30 ≤ u := by
    rcases hyp with hW | ⟨hV, hH, hP⟩
    · exact Or.inl hW
    · rcases potential_small V H hP with h0 | h63
      · left
        unfold slack at hV
        omega
      · right
        exact drift_small f l fb u h2 hf1 hl2 (by omega)
  obtain ⟨b1, b2, b3, b4, b5⟩ := shrink_blocks bc fb u free rem rf rb h1 hlt hbc hr1 hr2 hs hB
  have e1 : (f - rf * 256) / 256 = fb - rf := by omega
  have e2 : (l - rf * 256) / 256 = (fb - rf) + u := by omega
  refine ⟨by omega, by omega, b3, by omega, ?_⟩
  by_cases hW : bc ≤ 64 ∨ bc ≤ 5 * (u + 2) ∨ (bc ≤ 80 ∧ fb ≤ 41)
  · left
    exact settled_of_blocks _ _ _ _ _ e1 e2
      (shrink_settled bc fb u free rem rf rb h1 hlt hbc hr1 hr2 hs hW)
  · rcases hs with ⟨hn, hrf0, hrb0⟩ | hcut
    · left
      refine settled_of_blocks _ _ _ _ _ e1 e2 ?_
      subst hrf0 hrb0
      omega
    · have hPot : slack bc f l ≤ V + 1 ∧ drift f l ≤ H + 1 ∧ V * 2 ^ H ≤ 2 ^ 63 :=
        hyp.resolve_left hW
      obtain ⟨hV, hH, hP⟩ := hPot
      have hsum : rf + rb = rem := by
        rcases b5 with h | ⟨h, h'⟩
        · exact h
        · obtain ⟨_, hr, _, hc⟩ := hcut
          rcases hc with ⟨_, _, hx⟩ | ⟨_, _, hx, _⟩ | ⟨_, _, _, hx⟩ <;> omega
      have hsl : 2 * slack (bc - rb - rf) (f - rf * 256) (l - rf * 256) + 1 ≤ slack bc f l := by
        rw [b4, hsum]
        exact slack_halves bc f l fb u free rem (rf * 256) hf1 hl2 h2 (by omega) hl1 hf2 hbc
          hr1 hr2 (by omega)
      have hV0 : V ≠ 0 := by
        intro h0
        subst h0
        unfold slack at hV
        omega
      have hH63 : H ≤ 63 := (potential_small V H hP).resolve_left hV0
      rcases shrink_far bc fb u free rem rf rb hlt hbc hr1 hr2 hcut hW with h0 | h33 | hS
      · right
        subst h0
        refine potential_step V H _ _ hP (by omega) ?_
        simpa using hH
      · right
        have hd := drift_shift f l (rf * 256) (by omega) h2 (by omega) (by omega)
        exact potential_step V H _ _ hP (by omega) (by omega)
      · left
        exact settled_of_blocks _ _ _ _ _ e1 e2 hS

/-- Moving a window whose drift is the length term does not raise the drift. -/
theorem drift_of_cap (f l f1 l1 : Nat) (hlen : l1 - f1 = l - f)
    (hc : 7937 - (l - f) ≤ (f - 8192) + (8192 - l)) : drift f1 l1 ≤ drift f l := by
  unfold drift
  rw [hlen, Nat.min_eq_right hc]
  exact Nat.min_le_right _ _

/-- The invariant after `balance`, for a window that touches one end of a table it
fills less than half of: in blocks. -/
theorem balance_blocks (bc fb u k : Nat) (h1 : 33 ≤ bc) (hlt : fb + u < bc)
    (hend : fb = 0 ∨ fb + u + 1 = bc) (hhalf : u ≤ bc / 2)
    (hk : (fb > bc - 1 - (fb + u) ∧ k = fb / 2) ∨
      (¬ fb > bc - 1 - (fb + u) ∧ fb < bc - 1 - (fb + u) ∧ k = (bc - 1 - (fb + u)) / 2)) :
    (fb > bc - 1 - (fb + u) → 1 ≤ fb - k ∧ k ≤ fb ∧ fb + u + 1 = bc) ∧
    (¬ fb > bc - 1 - (fb + u) → fb = 0 ∧ 1 ≤ k ∧ u + k + 2 ≤ bc ∧ (bc ≤ 80 → k ≤ 40)) := by
  omega

theorem balance_cases (bc fb u : Nat) (h1 : 33 ≤ bc) (hlt : fb + u < bc)
    (hend : fb = 0 ∨ fb + u + 1 = bc) (hhalf : u ≤ bc / 2) :
    (fb > bc - 1 - (fb + u)) ∨ (¬ fb > bc - 1 - (fb + u) ∧ fb < bc - 1 - (fb + u)) := by
  omega

/-! ### The block table -/

omit [Inhabited T] in
theorem elem_def (d : Deque T) (i : Nat) :
    d.elem i = d.blocks ((d.first + i) / 256) ((d.first + i) % 256) := rfl

omit [Inhabited T] in
theorem Len_def (d : Deque T) : d.Len = (d.last : Int) - (d.first : Int) := rfl

/-- What `Get` answers inside the window of a deque whose window lies in its table. -/
theorem Get_elem (d : Deque T) (i : Nat) (hi : (i : Int) < d.Len)
    (hwf : d.last ≤ 256 * d.blockCount) : d.Get i = some (d.elem i, none) := by
  rw [Len_def] at hi
  have hne : d.Len ≠ 0 := by
    rw [Len_def]
    omega
  have hni : ¬ ((i : Int) < 0 ∨ (i : Int) ≥ d.Len) := by
    rw [Len_def]
    omega
  have hb : (d.first + i) / 256 < d.blockCount := by omega
  have e1 : ((d.first : Int) + (i : Int)) / (chunkSize : Int) =
      (((d.first + i) / 256 : Nat) : Int) := by
    simp only [chunkSize]
    omega
  have e2 : ((d.first : Int) + (i : Int)) % (chunkSize : Int) =
      (((d.first + i) % 256 : Nat) : Int) := by
    simp only [chunkSize]
    omega
  simp only [Deque.Get, hne, hni, if_false]
  rw [e1, e2]
  simp only [Deque.read, Int.toNat_ofNat, chunkSize]
  rw [if_pos]
  · rfl
  · refine ⟨by omega, by exact_mod_cast hb, by omega, ?_⟩
    have := Nat.mod_lt (d.first + i) (by norm_num : 256 > 0)
    exact_mod_cast this

omit [Inhabited T] in
/-- What `checkSize` does, in terms of the blocks it removes at either end. -/
theorem checkSize_spec (d : Deque T) (hfl : d.first ≤ d.last)
    (hl : d.last < 256 * d.blockCount) :
    ∃ rf rb, Shrinks d.blockCount d.first d.last rf rb ∧
      d.checkSize.blockCount = d.blockCount - rb - rf ∧
      d.checkSize.first = d.first - rf * 256 ∧
      d.checkSize.last = d.last - rf * 256 ∧
      ∀ i j, d.checkSize.blocks i j = d.blocks (i + rf) j := by
  have hfb : d.first / 256 ≤ d.last / 256 := Nat.div_le_div_right hfl
  have hlb : d.last / 256 < d.blockCount := by omega
  have hmin : min ((d.blockCount - (d.last / 256 - d.first / 256)) / 2)
      (d.blockCount - (d.last / 256 - d.first / 256)) =
      (d.blockCount - (d.last / 256 - d.first / 256)) / 2 :=
    Nat.min_eq_left (Nat.div_le_self _ _)
  unfold Deque.checkSize
  simp only [chunkSize, nbBlocks, usedEnough, decide_eq_true_eq, hmin, Nat.sub_self]
  by_cases h1 : d.blockCount ≤ 5 * (d.last / 256 - d.first / 256)
  · rw [if_pos h1]
    refine ⟨0, 0, ⟨d.first / 256, d.last / 256 - d.first / 256,
      d.blockCount - (d.last / 256 - d.first / 256),
      (d.blockCount - (d.last / 256 - d.first / 256)) / 2, rfl, by omega, by omega, rfl,
      Or.inl ⟨Or.inl h1, rfl, rfl⟩⟩, by simp, by simp, by simp, by simp⟩
  · rw [if_neg h1]
    by_cases h2 : (d.blockCount - (d.last / 256 - d.first / 256)) / 2 = 0 ∨ d.blockCount ≤ 64
    · rw [if_pos h2]
      refine ⟨0, 0, ⟨d.first / 256, d.last / 256 - d.first / 256,
        d.blockCount - (d.last / 256 - d.first / 256),
        (d.blockCount - (d.last / 256 - d.first / 256)) / 2, rfl, by omega, by omega, rfl,
        Or.inl ⟨Or.inr h2, rfl, rfl⟩⟩, by simp, by simp, by simp, by simp⟩
    · rw [if_neg h2]
      by_cases hA : d.first / 256 < d.blockCount / 4
      · simp only [hA, if_true]
        exact ⟨0, (d.blockCount - (d.last / 256 - d.first / 256)) / 2,
          ⟨d.first / 256, d.last / 256 - d.first / 256,
          d.blockCount - (d.last / 256 - d.first / 256),
          (d.blockCount - (d.last / 256 - d.first / 256)) / 2, rfl, by omega, by omega, rfl,
          Or.inr ⟨by omega, by omega, by omega, Or.inl ⟨hA, rfl, rfl⟩⟩⟩,
          rfl, rfl, rfl, fun _ _ => rfl⟩
      · by_cases hB : d.last / 256 > 3 * d.blockCount / 4
        · simp only [hA, hB, if_true, if_false]
          exact ⟨(d.blockCount - (d.last / 256 - d.first / 256)) / 2, 0,
            ⟨d.first / 256, d.last / 256 - d.first / 256,
            d.blockCount - (d.last / 256 - d.first / 256),
            (d.blockCount - (d.last / 256 - d.first / 256)) / 2, rfl, by omega, by omega, rfl,
            Or.inr ⟨by omega, by omega, by omega,
              Or.inr (Or.inl ⟨by omega, by omega, rfl, rfl⟩)⟩⟩,
            by simp, rfl, rfl, fun _ _ => rfl⟩
        · simp only [hA, hB, if_false]
          exact ⟨(d.blockCount - (d.last / 256 - d.first / 256)) / 2 / 2,
            (d.blockCount - (d.last / 256 - d.first / 256)) / 2 -
              (d.blockCount - (d.last / 256 - d.first / 256)) / 2 / 2,
            ⟨d.first / 256, d.last / 256 - d.first / 256,
            d.blockCount - (d.last / 256 - d.first / 256),
            (d.blockCount - (d.last / 256 - d.first / 256)) / 2, rfl, by omega, by omega, rfl,
            Or.inr ⟨by omega, by omega, by omega,
              Or.inr (Or.inr ⟨by omega, by omega, rfl, by omega⟩)⟩⟩,
            rfl, rfl, rfl, fun _ _ => rfl⟩

omit [Inhabited T] in
/-- The invariant after `checkSize`, for a window inside the table that is nearly
settled or whose potential is at most one halving away from the bound; the elements
stay in place. -/
theorem checkSize_inv (m : Deque T) (V H : Nat) (h1 : 33 ≤ m.blockCount)
    (h2 : m.first ≤ m.last) (h3 : m.last < 256 * m.blockCount)
    (hyp : (m.blockCount ≤ 64 ∨ m.blockCount ≤ 5 * (m.last / 256 - m.first / 256 + 2) ∨
        (m.blockCount ≤ 80 ∧ m.first / 256 ≤ 41)) ∨
      (slack m.blockCount m.first m.last ≤ V + 1 ∧ drift m.first m.last ≤ H + 1 ∧
        V * 2 ^ H ≤ 2 ^ 63)) :
    m.checkSize.Inv ∧ m.checkSize.blockCount ≤ m.blockCount ∧ m.checkSize.Len = m.Len ∧
    ∀ i, m.checkSize.elem i = m.elem i := by
  obtain ⟨rf, rb, hs, e1, e2, e3, e4⟩ := checkSize_spec m h2 h3
  obtain ⟨k1, k2, k3, k4, k5⟩ := shrink_inv _ _ _ rf rb V H h1 h2 h3 hs hyp
  refine ⟨⟨?_, ?_, ?_, ?_⟩, ?_, ?_, ?_⟩
  · rw [e1]; exact k3
  · rw [e2, e3]; omega
  · rw [e3, e1]; exact k4
  · rw [e1, e2, e3]; exact k5
  · rw [e1]; exact k2
  · rw [Len_def, Len_def, e2, e3]
    omega
  · intro i
    rw [elem_def, elem_def, e4, e2]
    congr 1 <;> omega

omit [Inhabited T] in
/-- A read inside the table. -/
theorem read_nat (d : Deque T) (b e : Nat) (hb : b < d.blockCount) (he : e < 256) :
    d.read (b : Int) (e : Int) = some (d.blocks b e) := by
  unfold Deque.read
  rw [if_pos]
  · simp
  · simp only [chunkSize]
    omega

theorem drift_pop_front (f l : Nat) : drift (f + 1) l ≤ drift f l + 1 := by
  unfold drift
  omega

theorem drift_pop_back (f l : Nat) : drift f (l - 1) ≤ drift f l + 1 := by
  unfold drift
  omega

/-- The invariant after `PopFront` on a deque that is not empty: the first element is
returned and the others move down by one. -/
theorem popFront_inv (d : Deque T) (hI : d.Inv) (hne : d.Len ≠ 0) :
    ∃ d1, d.PopFront = some (d1, d.elem 0, none) ∧ d1.Inv ∧
      d1.blockCount ≤ d.blockCount ∧ d1.Len = d.Len - 1 ∧
      ∀ i, d1.elem i = d.elem (i + 1) := by
  obtain ⟨h1, h2, h3, h4⟩ := hI
  have hlen : d.first < d.last := by
    rw [Len_def] at hne
    omega
  have hyp : ((d.blockCount ≤ 64 ∨ d.blockCount ≤ 5 * (d.last / 256 - (d.first + 1) / 256 + 2) ∨
        (d.blockCount ≤ 80 ∧ (d.first + 1) / 256 ≤ 41)) ∨
      (slack d.blockCount (d.first + 1) d.last ≤ slack d.blockCount d.first d.last + 1 ∧
        drift (d.first + 1) d.last ≤ drift d.first d.last + 1 ∧
        slack d.blockCount d.first d.last * 2 ^ drift d.first d.last ≤ 2 ^ 63)) := by
    rcases h4 with hS | hP
    · left
      unfold Settled at hS
      omega
    · right
      refine ⟨?_, drift_pop_front _ _, hP⟩
      unfold slack
      omega
  obtain ⟨c1, c2, c3, c4⟩ := checkSize_inv { d with first := d.first + 1 }
    (slack d.blockCount d.first d.last) (drift d.first d.last) h1 (by simpa using hlen) h3 hyp
  refine ⟨Deque.checkSize { d with first := d.first + 1 }, ?_, c1, c2, ?_, ?_⟩
  · unfold Deque.PopFront
    rw [if_neg hne]
    simp only [chunkSize]
    rw [read_nat d (d.first / 256) (d.first % 256) (by omega) (by omega)]
    simp only [Option.map_some', elem_def, Nat.add_zero]
  · rw [c3, Len_def, Len_def]
    simp only
    omega
  · intro i
    rw [c4, elem_def, elem_def]
    simp only
    congr 1 <;> omega

/-- The invariant after `PopBack` on a deque that is not empty: the last element is
returned and the others stay. -/
theorem popBack_inv (d : Deque T) (hI : d.Inv) (hne : d.Len ≠ 0) :
    ∃ d1, d.PopBack = some (d1, d.elem (d.last - 1 - d.first), none) ∧ d1.Inv ∧
      d1.blockCount ≤ d.blockCount ∧ d1.Len = d.Len - 1 ∧
      ∀ i, d1.elem i = d.elem i := by
  obtain ⟨h1, h2, h3, h4⟩ := hI
  have hlen : d.first < d.last := by
    rw [Len_def] at hne
    omega
  have hyp : ((d.blockCount ≤ 64 ∨ d.blockCount ≤ 5 * ((d.last - 1) / 256 - d.first / 256 + 2) ∨
        (d.blockCount ≤ 80 ∧ d.first / 256 ≤ 41)) ∨
      (slack d.blockCount d.first (d.last - 1) ≤ slack d.blockCount d.first d.last + 1 ∧
        drift d.first (d.last - 1) ≤ drift d.first d.last + 1 ∧
        slack d.blockCount d.first d.last * 2 ^ drift d.first d.last ≤ 2 ^ 63)) := by
    rcases h4 with hS | hP
    · left
      unfold Settled at hS
      omega
    · right
      refine ⟨?_, drift_pop_back _ _, hP⟩
      unfold slack
      omega
  obtain ⟨c1, c2, c3, c4⟩ := checkSize_inv { d with last := d.last - 1 }
    (slack d.blockCount d.first d.last) (drift d.first d.last) h1
    (by simp only; omega) (by simp only; omega) hyp
  refine ⟨Deque.checkSize { d with last := d.last - 1 }, ?_, c1, c2, ?_, ?_⟩
  · unfold Deque.PopBack
    rw [if_neg hne]
    simp only [chunkSize]
    have hb : (if ((d.last % 256 : Nat) : Int) = 0 then ((d.last / 256 : Nat) : Int) - 1
        else ((d.last / 256 : Nat) : Int)) = (((d.last - 1) / 256 : Nat) : Int) := by
      split_ifs <;> omega
    have he : (if ((d.last % 256 : Nat) : Int) = 0 then ((256 : Nat) : Int)
        else ((d.last % 256 : Nat) : Int)) - 1 = (((d.last - 1) % 256 : Nat) : Int) := by
      split_ifs <;> omega
    rw [hb, he, read_nat d _ _ (by omega) (by omega)]
    simp only [Option.map_some', elem_def]
    have e : d.first + (d.last - 1 - d.first) = d.last - 1 := by omega
    rw [e]
  · rw [c3, Len_def, Len_def]
    simp only
    omega
  · intro i
    rw [c4, elem_def, elem_def]

/-- The invariant after `Clear`: the deque is empty. -/
theorem clear_inv (d : Deque T) (hI : d.Inv) (hF : d.Fits) :
    d.Clear.Inv ∧ d.Clear.blockCount ≤ d.blockCount ∧ d.Clear.Len = 0 := by
  obtain ⟨h1, h2, h3, h4⟩ := hI
  unfold Deque.Fits at hF
  have e : (nbBlocks * chunkSize) / 2 = 8192 := by decide
  unfold Deque.Clear
  rw [e]
  have hd : drift 8192 8192 = 0 := by decide
  have hyp : ((d.blockCount ≤ 64 ∨ d.blockCount ≤ 5 * (8192 / 256 - 8192 / 256 + 2) ∨
        (d.blockCount ≤ 80 ∧ 8192 / 256 ≤ 41)) ∨
      (slack d.blockCount 8192 8192 ≤ slack d.blockCount 8192 8192 + 1 ∧
        drift 8192 8192 ≤ 0 + 1 ∧ slack d.blockCount 8192 8192 * 2 ^ 0 ≤ 2 ^ 63)) := by
    right
    refine ⟨by omega, by omega, ?_⟩
    unfold slack
    have : (2 : Nat) ^ 53 = 9007199254740992 := by norm_num
    have : (2 : Nat) ^ 63 = 9223372036854775808 := by norm_num
    omega
  obtain ⟨c1, c2, c3, _⟩ := checkSize_inv { d with first := 8192, last := 8192 }
    (slack d.blockCount 8192 8192) 0 h1 (le_refl _) (by simp only; omega) hyp
  refine ⟨c1, c2, ?_⟩
  rw [c3, Len_def]
  simp

omit [Inhabited T] in
theorem ShiftLeft_apply {α : Type} (s : Nat → α) (n k i : Nat) (hk : 0 < k) (hkn : k < n)
    (hi : i + k < n) : ShiftLeft s n k i = s (i + k) := by
  unfold ShiftLeft
  rw [Nat.mod_eq_of_lt hkn, if_neg (by omega), if_pos (by omega)]

omit [Inhabited T] in
theorem ShiftRight_apply {α : Type} (s : Nat → α) (n k i : Nat) (hk : 0 < k) (hkn : k < n)
    (hi : k ≤ i) : ShiftRight s n k i = s (i - k) := by
  unfold ShiftRight
  rw [Nat.mod_eq_of_lt hkn, if_neg (by omega), if_neg (by omega)]

omit [Inhabited T] in
/-- The invariant after `balance`, for a window that touches one end of a table it
fills less than half of: the window comes clear of both ends and the elements stay. -/
theorem balance_inv (d : Deque T) (hI : d.Inv)
    (hend : d.first / 256 = 0 ∨ d.last / 256 + 1 = d.blockCount)
    (hhalf : d.Len < d.Cap / 2) :
    d.balance.Inv ∧ 256 ≤ d.balance.first ∧ d.balance.last + 256 < 256 * d.balance.blockCount ∧
    d.balance.Len = d.Len ∧ ∀ i : Nat, (i : Int) < d.Len → d.balance.elem i = d.elem i := by
  obtain ⟨h1, h2, h3, h4⟩ := hI
  rw [Len_def] at hhalf
  unfold Deque.Cap at hhalf
  simp only [chunkSize] at hhalf
  obtain ⟨fb, hfb⟩ : ∃ fb, d.first / 256 = fb := ⟨_, rfl⟩
  obtain ⟨u, hu⟩ : ∃ u, d.last / 256 = fb + u := ⟨d.last / 256 - fb, by omega⟩
  have hlt : fb + u < d.blockCount := by omega
  have hend2 : fb = 0 ∨ fb + u + 1 = d.blockCount := by omega
  have hh : 2 * u ≤ d.blockCount + 1 := by omega
  have hsub : d.last / 256 - d.first / 256 = u := by omega
  unfold Deque.balance
  simp only [chunkSize, hfb, hu]
  by_cases hL : fb > d.blockCount - 1 - (fb + u)
  · -- the window touches the back end and moves down
    rw [if_pos hL]
    have hk1 : 1 ≤ fb / 2 := by omega
    have hk2 : fb / 2 < d.blockCount := by omega
    have e1 : (d.first - fb / 2 * 256) / 256 = fb - fb / 2 := by omega
    have e2 : (d.last - fb / 2 * 256) / 256 = (fb - fb / 2) + u := by omega
    refine ⟨⟨h1, by simp only; omega, by simp only; omega, ?_⟩, by simp only; omega,
      by simp only; omega, by simp only [Len_def]; omega, ?_⟩
    · simp only
      by_cases hS : Settled d.blockCount d.first d.last
      · left
        have hb := blocks_of_settled _ _ _ fb u hfb hu hS
        exact settled_of_blocks _ _ _ _ _ e1 e2 (by omega)
      · right
        have hP := h4.resolve_left hS
        have hbc : 64 < d.blockCount := by
          unfold Settled at hS
          omega
        refine potential_mono _ _ _ _ hP ?_ (drift_of_cap _ _ _ _ (by omega) (by omega))
        unfold slack
        omega
    · intro i hi
      rw [Len_def] at hi
      simp only [elem_def]
      rw [ShiftLeft_apply _ _ _ _ hk1 hk2 (by omega)]
      congr 1 <;> omega
  · rw [if_neg hL]
    have hR : fb < d.blockCount - 1 - (fb + u) := by omega
    rw [if_pos hR]
    have hfb0 : fb = 0 := by omega
    have hk1 : 1 ≤ (d.blockCount - 1 - (fb + u)) / 2 := by omega
    have hk2 : (d.blockCount - 1 - (fb + u)) / 2 < d.blockCount := by omega
    have e1 : (d.first + (d.blockCount - 1 - (fb + u)) / 2 * 256) / 256 =
        (d.blockCount - 1 - (fb + u)) / 2 := by omega
    have e2 : (d.last + (d.blockCount - 1 - (fb + u)) / 2 * 256) / 256 =
        (d.blockCount - 1 - (fb + u)) / 2 + u := by omega
    refine ⟨⟨h1, by simp only; omega, by simp only; omega, ?_⟩, by simp only; omega,
      by simp only; omega, by simp only [Len_def]; omega, ?_⟩
    · simp only
      by_cases hS : Settled d.blockCount d.first d.last
      · left
        have hb := blocks_of_settled _ _ _ fb u hfb hu hS
        exact settled_of_blocks _ _ _ _ _ e1 e2 (by omega)
      · right
        have hP := h4.resolve_left hS
        refine potential_mono _ _ _ _ hP ?_ (drift_of_cap _ _ _ _ (by omega) (by omega))
        unfold slack
        omega
    · intro i hi
      rw [Len_def] at hi
      simp only [elem_def]
      rw [ShiftRight_apply _ _ _ _ hk1 hk2 (by omega)]
      congr 1 <;> omega

/-- The invariant after `expandStart`, for a window that fills half the table: the
table is settled, the window is clear of the front and the elements stay. -/
theorem expandStart_inv (d : Deque T) (h1 : 33 ≤ d.blockCount) (h2 : d.first ≤ d.last)
    (h3 : d.last < 256 * d.blockCount) (hhalf : ¬ d.Len < d.Cap / 2) :
    ∃ d1, d.expandStart = some d1 ∧
      d1.blockCount = d.blockCount + growth d.blockCount ∧
      d1.first = d.first + growth d.blockCount * 256 ∧
      d1.last = d.last + growth d.blockCount * 256 ∧
      d1.Inv ∧ 256 ≤ d1.first ∧ d1.Len = d.Len ∧ ∀ i, d1.elem i = d.elem i := by
  rw [Len_def] at hhalf
  unfold Deque.Cap at hhalf
  simp only [chunkSize] at hhalf
  have hg1 : 32 ≤ growth d.blockCount := by
    unfold growth
    simp only [nbBlocks]
    omega
  have hg2 : growth d.blockCount ≤ d.blockCount := by
    unfold growth
    simp only [nbBlocks]
    omega
  have hg3 : 4 * growth d.blockCount ≤ d.blockCount + 128 := by
    unfold growth
    simp only [nbBlocks]
    omega
  have hsub : d.blockCount + growth d.blockCount - d.blockCount = growth d.blockCount := by
    omega
  unfold Deque.expandStart
  simp only [hsub, chunkSize]
  rw [if_pos hg2]
  refine ⟨_, rfl, rfl, rfl, rfl, ⟨by simp only; omega, by simp only; omega,
    by simp only; omega, ?_⟩, by simp only; omega, by simp only [Len_def]; omega, ?_⟩
  · left
    unfold Settled
    simp only
    right; left
    omega
  · intro i
    simp only [elem_def]
    have hb : ¬ (d.first + growth d.blockCount * 256 + i) / 256 < growth d.blockCount := by
      omega
    rw [if_neg hb]
    congr 1 <;> omega

/-- The invariant after `expandEnd`, for a window that fills half the table and is
clear of the front: the table is settled, the window is clear of both ends and the
elements stay. -/
theorem expandEnd_inv (d : Deque T) (h1 : 33 ≤ d.blockCount) (h2 : d.first ≤ d.last)
    (h3 : d.last < 256 * d.blockCount) (hhalf : ¬ d.Len < d.Cap / 2) :
    d.expandEnd.Inv ∧ d.expandEnd.first = d.first ∧
    d.expandEnd.last + 256 < 256 * d.expandEnd.blockCount ∧
    d.expandEnd.Len = d.Len ∧
    ∀ i : Nat, (i : Int) < d.Len → d.expandEnd.elem i = d.elem i := by
  rw [Len_def] at hhalf
  unfold Deque.Cap at hhalf
  simp only [chunkSize] at hhalf
  have hg1 : 32 ≤ growth d.blockCount := by
    unfold growth
    simp only [nbBlocks]
    omega
  have hg3 : 4 * growth d.blockCount ≤ d.blockCount + 128 := by
    unfold growth
    simp only [nbBlocks]
    omega
  unfold Deque.expandEnd
  refine ⟨⟨by simp only; omega, by simp only; omega, by simp only; omega, ?_⟩, rfl,
    by simp only; omega, by simp only [Len_def], ?_⟩
  · left
    unfold Settled
    simp only
    right; left
    omega
  · intro i hi
    rw [Len_def] at hi
    simp only [elem_def]
    rw [if_pos (by omega)]

/-- The second half of `resize`, on a deque whose window is clear of the front. -/
theorem resize_end (d : Deque T) (hI : d.Inv) (hf : 256 ≤ d.first) :
    ∃ r, (if ((d.last / chunkSize : Nat) : Int) = (d.blockCount : Int) - 1 then
        if d.Len < d.Cap / 2 then some d.balance else some d.expandEnd
      else some d) = some r ∧
      r.Inv ∧ 256 ≤ r.first ∧ r.last + 256 < 256 * r.blockCount ∧ r.Len = d.Len ∧
      ∀ i : Nat, (i : Int) < d.Len → r.elem i = d.elem i := by
  obtain ⟨h1, h2, h3, h4⟩ := hI
  simp only [chunkSize]
  by_cases hl : ((d.last / 256 : Nat) : Int) = (d.blockCount : Int) - 1
  · rw [if_pos hl]
    by_cases hh : d.Len < d.Cap / 2
    · rw [if_pos hh]
      exact ⟨_, rfl, balance_inv d ⟨h1, h2, h3, h4⟩ (Or.inr (by omega)) hh⟩
    · rw [if_neg hh]
      obtain ⟨k1, k2, k3, k4, k5⟩ := expandEnd_inv d h1 h2 h3 hh
      exact ⟨_, rfl, k1, by rw [k2]; exact hf, k3, k4, k5⟩
  · rw [if_neg hl]
    exact ⟨_, rfl, ⟨h1, h2, h3, h4⟩, hf, by omega, rfl, fun _ _ => rfl⟩

/-- The invariant after `resize`: it returns, the window is clear of both ends of the
table, and the elements stay. -/
theorem resize_inv (d : Deque T) (hI : d.Inv) :
    ∃ r, d.resize = some r ∧
      r.Inv ∧ 256 ≤ r.first ∧ r.last + 256 < 256 * r.blockCount ∧ r.Len = d.Len ∧
      ∀ i : Nat, (i : Int) < d.Len → r.elem i = d.elem i := by
  obtain ⟨h1, h2, h3, h4⟩ := hI
  unfold Deque.resize
  simp only [chunkSize]
  by_cases hfb : d.first / 256 = 0
  · rw [if_pos hfb]
    by_cases hh : d.Len < d.Cap / 2
    · rw [if_pos hh]
      exact ⟨_, rfl, balance_inv d ⟨h1, h2, h3, h4⟩ (Or.inl hfb) hh⟩
    · rw [if_neg hh]
      obtain ⟨d1, e0, _, _, _, k1, k2, k3, k4⟩ := expandStart_inv d h1 h2 h3 hh
      rw [e0]
      simp only [Option.map_some']
      obtain ⟨r, hr, r1, r2, r3, r4, r5⟩ := resize_end d1 k1 k2
      simp only [chunkSize] at hr
      refine ⟨r, hr, r1, r2, r3, r4.trans k3, ?_⟩
      intro i hi
      rw [r5 i (by rw [k3]; exact hi), k4]
  · rw [if_neg hfb]
    obtain ⟨r, hr, r1, r2, r3, r4, r5⟩ := resize_end d ⟨h1, h2, h3, h4⟩ (by omega)
    simp only [chunkSize] at hr
    exact ⟨r, hr, r1, r2, r3, r4, r5⟩

omit [Inhabited T] in
/-- A write inside the table. -/
theorem write_nat (d : Deque T) (b e : Nat) (v : T) (hb : b < d.blockCount) (he : e < 256) :
    d.write (b : Int) (e : Int) v =
      some { d with blocks := fun i j => if i = b ∧ j = e then v else d.blocks i j } := by
  unfold Deque.write
  rw [if_pos]
  · simp
  · simp only [chunkSize]
    omega

theorem settled_push_back (bc f l : Nat) (h : Settled bc f l) : Settled bc f (l + 1) := by
  unfold Settled at *
  omega

theorem settled_push_front (bc f l : Nat) (h : Settled bc f l) : Settled bc (f - 1) l := by
  unfold Settled at *
  omega

theorem drift_push_back (f l : Nat) : drift f (l + 1) ≤ drift f l := by
  unfold drift
  omega

theorem drift_push_front (f l : Nat) : drift (f - 1) l ≤ drift f l := by
  unfold drift
  omega

/-- The invariant after `PushBack`: it returns, the value is the new last element and
the others stay. -/
theorem pushBack_inv (d : Deque T) (hI : d.Inv) (v : T) :
    ∃ d1, d.PushBack v = some d1 ∧ d1.Inv ∧ d1.Len = d.Len + 1 ∧
      d1.elem (d.last - d.first) = v ∧
      ∀ i : Nat, (i : Int) < d.Len → d1.elem i = d.elem i := by
  obtain ⟨r, hr, ⟨h1, h2, h3, h4⟩, r2, r3, r4, r5⟩ := resize_inv d hI
  unfold Deque.PushBack
  rw [hr]
  simp only [Option.some_bind, chunkSize]
  rw [write_nat r _ _ v (by omega) (by omega)]
  simp only [Option.map_some']
  have hdl : d.first ≤ d.last := hI.2.1
  rw [Len_def, Len_def] at r4
  refine ⟨_, rfl, ⟨h1, by simp only; omega, by simp only; omega, ?_⟩,
    by simp only [Len_def]; omega, ?_, ?_⟩
  · simp only
    rcases h4 with hS | hP
    · exact Or.inl (settled_push_back _ _ _ hS)
    · right
      refine potential_mono _ _ _ _ hP ?_ (drift_push_back _ _)
      unfold slack
      omega
  · simp only [elem_def]
    have e : r.first + (d.last - d.first) = r.last := by omega
    rw [e, if_pos ⟨rfl, rfl⟩]
  · intro i hi
    rw [← r5 i hi]
    rw [Len_def] at hi
    simp only [elem_def]
    rw [if_neg]
    omega

/-- The invariant after `PushFront`: it returns, the value is the new first element
and the others move up by one. -/
theorem pushFront_inv (d : Deque T) (hI : d.Inv) (v : T) :
    ∃ d1, d.PushFront v = some d1 ∧ d1.Inv ∧ d1.Len = d.Len + 1 ∧ d1.elem 0 = v ∧
      ∀ i : Nat, (i : Int) < d.Len → d1.elem (i + 1) = d.elem i := by
  obtain ⟨r, hr, ⟨h1, h2, h3, h4⟩, r2, r3, r4, r5⟩ := resize_inv d hI
  unfold Deque.PushFront
  rw [hr]
  simp only [Option.some_bind, chunkSize]
  have hb : (if ((r.first % 256 : Nat) : Int) = 0 then ((r.first / 256 : Nat) : Int) - 1
      else ((r.first / 256 : Nat) : Int)) = (((r.first - 1) / 256 : Nat) : Int) := by
    split_ifs <;> omega
  have he : (if ((r.first % 256 : Nat) : Int) = 0 then ((256 : Nat) : Int)
      else ((r.first % 256 : Nat) : Int)) - 1 = (((r.first - 1) % 256 : Nat) : Int) := by
    split_ifs <;> omega
  rw [hb, he, write_nat r _ _ v (by omega) (by omega)]
  simp only [Option.map_some']
  have hdl : d.first ≤ d.last := hI.2.1
  rw [Len_def, Len_def] at r4
  refine ⟨_, rfl, ⟨h1, by simp only; omega, by simp only; omega, ?_⟩,
    by simp only [Len_def]; omega, ?_, ?_⟩
  · simp only
    rcases h4 with hS | hP
    · exact Or.inl (settled_push_front _ _ _ hS)
    · right
      refine potential_mono _ _ _ _ hP ?_ (drift_push_front _ _)
      unfold slack
      omega
  · simp [elem_def]
  · intro i hi
    rw [← r5 i hi]
    rw [Len_def] at hi
    simp only [elem_def]
    have e : r.first - 1 + (i + 1) = r.first + i := by omega
    rw [e, if_neg]
    omega

/-! ### `Insert` and `Remove` move the window as the pushes and pops do -/

omit [Inhabited T] in
theorem write_idx (d d1 : Deque T) (b e : Int) (v : T) (h : d.write b e v = some d1) :
    d1.blockCount = d.blockCount ∧ d1.first = d.first ∧ d1.last = d.last := by
  unfold Deque.write at h
  split at h
  · simp only [Option.some.injEq] at h
    subst h
    exact ⟨rfl, rfl, rfl⟩
  · simp at h

omit [Inhabited T] in
theorem copy_idx (d d1 : Deque T) (b dlo dhi slo shi : Int)
    (h : d.copy b dlo dhi slo shi = some d1) :
    d1.blockCount = d.blockCount ∧ d1.first = d.first ∧ d1.last = d.last := by
  unfold Deque.copy at h
  split at h
  · simp only [Option.some.injEq] at h
    subst h
    exact ⟨rfl, rfl, rfl⟩
  · simp at h

omit [Inhabited T] in
theorem insertFrontLoop_idx (fbi : Int) (n : Nat) (i : Int) (d d1 : Deque T)
    (h : Deque.insertFrontLoop fbi n i d = some d1) :
    d1.blockCount = d.blockCount ∧ d1.first = d.first ∧ d1.last = d.last := by
  induction n generalizing i d with
  | zero =>
    simp only [Deque.insertFrontLoop, Option.some.injEq] at h
    subst h
    exact ⟨rfl, rfl, rfl⟩
  | succ n ih =>
    simp only [Deque.insertFrontLoop, Option.bind_eq_some] at h
    obtain ⟨a, ha, c, hc, hrest⟩ := h
    obtain ⟨k1, k2, k3⟩ := ih _ _ hrest
    obtain ⟨c1, c2, c3⟩ := copy_idx _ _ _ _ _ _ _ hc
    have ha2 : a.blockCount = d.blockCount ∧ a.first = d.first ∧ a.last = d.last := by
      split at ha
      · simp only [Option.bind_eq_some] at ha
        obtain ⟨x, _, hw⟩ := ha
        exact write_idx _ _ _ _ _ hw
      · simp only [Option.some.injEq] at ha
        subst ha
        exact ⟨rfl, rfl, rfl⟩
    obtain ⟨a1, a2, a3⟩ := ha2
    exact ⟨k1.trans (c1.trans a1), k2.trans (c2.trans a2), k3.trans (c3.trans a3)⟩

omit [Inhabited T] in
theorem insertBackLoop_idx (lbi : Int) (n : Nat) (i : Int) (d d1 : Deque T)
    (h : Deque.insertBackLoop lbi n i d = some d1) :
    d1.blockCount = d.blockCount ∧ d1.first = d.first ∧ d1.last = d.last := by
  induction n generalizing i d with
  | zero =>
    simp only [Deque.insertBackLoop, Option.some.injEq] at h
    subst h
    exact ⟨rfl, rfl, rfl⟩
  | succ n ih =>
    simp only [Deque.insertBackLoop, Option.bind_eq_some] at h
    obtain ⟨a, ha, c, hc, hrest⟩ := h
    obtain ⟨k1, k2, k3⟩ := ih _ _ hrest
    obtain ⟨c1, c2, c3⟩ := copy_idx _ _ _ _ _ _ _ hc
    have ha2 : a.blockCount = d.blockCount ∧ a.first = d.first ∧ a.last = d.last := by
      split at ha
      · simp only [Option.bind_eq_some] at ha
        obtain ⟨x, _, hw⟩ := ha
        exact write_idx _ _ _ _ _ hw
      · simp only [Option.some.injEq] at ha
        subst ha
        exact ⟨rfl, rfl, rfl⟩
    obtain ⟨a1, a2, a3⟩ := ha2
    exact ⟨k1.trans (c1.trans a1), k2.trans (c2.trans a2), k3.trans (c3.trans a3)⟩

omit [Inhabited T] in
theorem removeFrontLoop_idx (n : Nat) (i : Int) (d d1 : Deque T)
    (h : Deque.removeFrontLoop n i d = some d1) :
    d1.blockCount = d.blockCount ∧ d1.first = d.first ∧ d1.last = d.last := by
  induction n generalizing i d with
  | zero =>
    simp only [Deque.removeFrontLoop, Option.some.injEq] at h
    subst h
    exact ⟨rfl, rfl, rfl⟩
  | succ n ih =>
    simp only [Deque.removeFrontLoop, Option.bind_eq_some] at h
    obtain ⟨c, hc, x, _, w, hw, hrest⟩ := h
    obtain ⟨k1, k2, k3⟩ := ih _ _ hrest
    obtain ⟨c1, c2, c3⟩ := copy_idx _ _ _ _ _ _ _ hc
    obtain ⟨w1, w2, w3⟩ := write_idx _ _ _ _ _ hw
    exact ⟨k1.trans (w1.trans c1), k2.trans (w2.trans c2), k3.trans (w3.trans c3)⟩

omit [Inhabited T] in
theorem removeBackLoop_idx (n : Nat) (i : Int) (d d1 : Deque T)
    (h : Deque.removeBackLoop n i d = some d1) :
    d1.blockCount = d.blockCount ∧ d1.first = d.first ∧ d1.last = d.last := by
  induction n generalizing i d with
  | zero =>
    simp only [Deque.removeBackLoop, Option.some.injEq] at h
    subst h
    exact ⟨rfl, rfl, rfl⟩
  | succ n ih =>
    simp only [Deque.removeBackLoop, Option.bind_eq_some] at h
    obtain ⟨c, hc, x, _, w, hw, hrest⟩ := h
    obtain ⟨k1, k2, k3⟩ := ih _ _ hrest
    obtain ⟨c1, c2, c3⟩ := copy_idx _ _ _ _ _ _ _ hc
    obtain ⟨w1, w2, w3⟩ := write_idx _ _ _ _ _ hw
    exact ⟨k1.trans (w1.trans c1), k2.trans (w2.trans c2), k3.trans (w3.trans c3)⟩

/-- What a returning `Insert` does to the window: nothing (the index was out of
range), or what `PushFront` or `PushBack` does. -/
theorem insert_idx (d d1 : Deque T) (index : Int) (v : T) (e : Option Error)
    (h : d.Insert index v = some (d1, e)) :
    d1 = d ∨ ∃ r, d.resize = some r ∧ d1.blockCount = r.blockCount ∧
      ((d1.first = r.first - 1 ∧ d1.last = r.last) ∨
        (d1.first = r.first ∧ d1.last = r.last + 1)) := by
  unfold Deque.Insert at h
  split at h
  · simp only [Option.some.injEq, Prod.mk.injEq] at h
    exact Or.inl h.1.symm
  · right
    simp only [Option.bind_eq_some] at h
    obtain ⟨r, hr, h⟩ := h
    refine ⟨r, hr, ?_⟩
    split at h
    · simp only [Option.bind_eq_some, Option.map_eq_some', Prod.mk.injEq] at h
      obtain ⟨a, ha, x, _, b, hb, c, hc, w, hw, hd, _⟩ := h
      obtain ⟨a1, a2, a3⟩ := insertFrontLoop_idx _ _ _ _ _ ha
      obtain ⟨b1, b2, b3⟩ := write_idx _ _ _ _ _ hb
      obtain ⟨c1, c2, c3⟩ := copy_idx _ _ _ _ _ _ _ hc
      obtain ⟨w1, w2, w3⟩ := write_idx _ _ _ _ _ hw
      subst hd
      exact ⟨by simp only; omega, Or.inl ⟨by simp only; omega, by simp only; omega⟩⟩
    · simp only [Option.bind_eq_some, Option.map_eq_some', Prod.mk.injEq] at h
      obtain ⟨a, ha, x, _, b, hb, c, hc, w, hw, hd, _⟩ := h
      obtain ⟨a1, a2, a3⟩ := insertBackLoop_idx _ _ _ _ _ ha
      obtain ⟨b1, b2, b3⟩ := write_idx _ _ _ _ _ hb
      obtain ⟨c1, c2, c3⟩ := copy_idx _ _ _ _ _ _ _ hc
      obtain ⟨w1, w2, w3⟩ := write_idx _ _ _ _ _ hw
      subst hd
      exact ⟨by simp only; omega, Or.inr ⟨by simp only; omega, by simp only; omega⟩⟩

omit [Inhabited T] in
/-- What a returning `Remove` does to the window: nothing (the index was out of
range), or what `PopFront` or `PopBack` does to a deque that is not empty. -/
theorem remove_idx (d d1 : Deque T) (index : Int) (e : Option Error)
    (h : d.Remove index = some (d1, e)) :
    d1 = d ∨ (0 < d.Len ∧ ∃ m : Deque T, d1 = m.checkSize ∧ m.blockCount = d.blockCount ∧
      ((m.first = d.first + 1 ∧ m.last = d.last) ∨
        (m.first = d.first ∧ m.last = d.last - 1))) := by
  unfold Deque.Remove at h
  split at h
  · simp only [Option.some.injEq, Prod.mk.injEq] at h
    exact Or.inl h.1.symm
  · rename_i hrange
    right
    refine ⟨by omega, ?_⟩
    split at h
    · simp only [Option.bind_eq_some, Option.map_eq_some', Prod.mk.injEq] at h
      obtain ⟨c, hc, a, ha, hd, _⟩ := h
      obtain ⟨a1, a2, a3⟩ := removeFrontLoop_idx _ _ _ _ ha
      obtain ⟨c1, c2, c3⟩ := copy_idx _ _ _ _ _ _ _ hc
      exact ⟨_, hd.symm, by simp only; omega, Or.inl ⟨by simp only; omega, by simp only; omega⟩⟩
    · simp only [Option.bind_eq_some, Option.map_eq_some', Prod.mk.injEq] at h
      obtain ⟨c, hc, a, ha, hd, _⟩ := h
      obtain ⟨a1, a2, a3⟩ := removeBackLoop_idx _ _ _ _ ha
      obtain ⟨c1, c2, c3⟩ := copy_idx _ _ _ _ _ _ _ hc
      exact ⟨_, hd.symm, by simp only; omega, Or.inr ⟨by simp only; omega, by simp only; omega⟩⟩

omit [Inhabited T] in
/-- The invariant after a step that moves the window by one element into a table with
room at both ends. -/
theorem inv_grow (r d1 : Deque T) (hI : r.Inv) (hf : 256 ≤ r.first)
    (hl : r.last + 256 < 256 * r.blockCount) (hb : d1.blockCount = r.blockCount)
    (h : (d1.first = r.first - 1 ∧ d1.last = r.last) ∨
      (d1.first = r.first ∧ d1.last = r.last + 1)) : d1.Inv := by
  obtain ⟨h1, h2, h3, h4⟩ := hI
  unfold Deque.Inv
  rcases h with ⟨e1, e2⟩ | ⟨e1, e2⟩
  · rw [hb, e1, e2]
    refine ⟨h1, by omega, h3, ?_⟩
    rcases h4 with hS | hP
    · exact Or.inl (settled_push_front _ _ _ hS)
    · right
      refine potential_mono _ _ _ _ hP ?_ (drift_push_front _ _)
      unfold slack
      omega
  · rw [hb, e1, e2]
    refine ⟨h1, by omega, by omega, ?_⟩
    rcases h4 with hS | hP
    · exact Or.inl (settled_push_back _ _ _ hS)
    · right
      refine potential_mono _ _ _ _ hP ?_ (drift_push_back _ _)
      unfold slack
      omega

/-- The invariant after `checkSize` on a window that has lost one element at one
end. -/
theorem inv_shrink (d m : Deque T) (hI : d.Inv) (hne : d.first < d.last)
    (hb : m.blockCount = d.blockCount)
    (h : (m.first = d.first + 1 ∧ m.last = d.last) ∨
      (m.first = d.first ∧ m.last = d.last - 1)) :
    m.checkSize.Inv ∧ m.checkSize.blockCount ≤ d.blockCount := by
  obtain ⟨h1, h2, h3, h4⟩ := hI
  have hyp : ((m.blockCount ≤ 64 ∨ m.blockCount ≤ 5 * (m.last / 256 - m.first / 256 + 2) ∨
        (m.blockCount ≤ 80 ∧ m.first / 256 ≤ 41)) ∨
      (slack m.blockCount m.first m.last ≤ slack d.blockCount d.first d.last + 1 ∧
        drift m.first m.last ≤ drift d.first d.last + 1 ∧
        slack d.blockCount d.first d.last * 2 ^ drift d.first d.last ≤ 2 ^ 63)) := by
    rcases h with ⟨e1, e2⟩ | ⟨e1, e2⟩
    · rw [hb, e1, e2]
      rcases h4 with hS | hP
      · left
        unfold Settled at hS
        omega
      · right
        refine ⟨?_, drift_pop_front _ _, hP⟩
        unfold slack
        omega
    · rw [hb, e1, e2]
      rcases h4 with hS | hP
      · left
        unfold Settled at hS
        omega
      · right
        refine ⟨?_, drift_pop_back _ _, hP⟩
        unfold slack
        omega
  obtain ⟨c1, c2, _, _⟩ := checkSize_inv m
    (slack d.blockCount d.first d.last) (drift d.first d.last) (by omega)
    (by rcases h with ⟨e1, e2⟩ | ⟨e1, e2⟩ <;> omega)
    (by rcases h with ⟨e1, e2⟩ | ⟨e1, e2⟩ <;> omega) hyp
  exact ⟨c1, by omega⟩

/-- The deque `NewDeque` makes satisfies the invariant. -/
theorem inv_new : (NewDeque : Deque T).Inv := by
  unfold Deque.Inv NewDeque
  simp only [nbBlocks, chunkSize]
  exact ⟨by norm_num, le_refl _, by norm_num, Or.inl (Or.inl (by norm_num))⟩

/-- Every deque the package can leave behind satisfies the invariant, in a table that
fits. -/
theorem reachable_inv (d : Deque T) (h : Reachable d) : d.Inv ∧ d.Fits := by
  induction h with
  | new => exact ⟨inv_new, by unfold Deque.Fits NewDeque; norm_num [nbBlocks]⟩
  | pushBack d d1 v _ hp hfit ih =>
    obtain ⟨d2, h2, hI, _⟩ := pushBack_inv d ih.1 v
    rw [hp] at h2
    cases h2
    exact ⟨hI, hfit⟩
  | pushFront d d1 v _ hp hfit ih =>
    obtain ⟨d2, h2, hI, _⟩ := pushFront_inv d ih.1 v
    rw [hp] at h2
    cases h2
    exact ⟨hI, hfit⟩
  | popBack d d1 x e _ hp ih =>
    by_cases hne : d.Len = 0
    · unfold Deque.PopBack at hp
      rw [if_pos hne] at hp
      cases hp
      exact ih
    · obtain ⟨d2, h2, hI, hbc, _⟩ := popBack_inv d ih.1 hne
      rw [hp] at h2
      cases h2
      exact ⟨hI, lt_of_le_of_lt hbc ih.2⟩
  | popFront d d1 x e _ hp ih =>
    by_cases hne : d.Len = 0
    · unfold Deque.PopFront at hp
      rw [if_pos hne] at hp
      cases hp
      exact ih
    · obtain ⟨d2, h2, hI, hbc, _⟩ := popFront_inv d ih.1 hne
      rw [hp] at h2
      cases h2
      exact ⟨hI, lt_of_le_of_lt hbc ih.2⟩
  | clear d _ ih =>
    obtain ⟨hI, hbc, _⟩ := clear_inv d ih.1 ih.2
    exact ⟨hI, lt_of_le_of_lt hbc ih.2⟩
  | insert d d1 index v e _ hp hfit ih =>
    rcases insert_idx d d1 index v e hp with rfl | ⟨r, hr, hb, hmove⟩
    · exact ih
    · obtain ⟨r2, hr2, rI, rf, rl, _⟩ := resize_inv d ih.1
      rw [hr] at hr2
      cases hr2
      exact ⟨inv_grow r d1 rI rf rl hb hmove, hfit⟩
  | remove d d1 index e _ hp ih =>
    rcases remove_idx d d1 index e hp with rfl | ⟨hpos, m, rfl, hb, hmove⟩
    · exact ih
    · have hne : d.first < d.last := by
        rw [Len_def] at hpos
        omega
      obtain ⟨hI, hbc⟩ := inv_shrink d m ih.1 hne hb hmove
      exact ⟨hI, lt_of_le_of_lt hbc ih.2⟩
  | written d blocks _ ih => exact ⟨ih.1, ih.2⟩
  | resized d d1 _ hp hfit ih =>
    obtain ⟨r2, hr2, rI, _⟩ := resize_inv d ih.1
    rw [hp] at hr2
    cases hr2
    exact ⟨rI, hfit⟩

/-! ### The operations at the two ends, and `Get` -/

/-- C18. `Get` is bounds-checked. On every deque the package can leave behind
(`Reachable`: `NewDeque` and what every operation, returning or panicking, makes of a
reachable deque, the tables having fewer than 2^53 blocks, which is all a machine can
hold) and for every integer `i`: `Len` is not negative; an empty deque answers the zero value and
`ErrEmpty`; a deque that is not empty answers the zero value and `ErrOutOfRange` when
`i < 0` or `i >= Len`, and otherwise the `i`-th element (what is stored at position
`first + i`) and a nil error. In every case `Get` returns, so it does not panic, and
the deque is as before: `Get` assigns to no field and to no block, it is a function
of the deque. -/
theorem get_bounds_checked (d : Deque T) (h : Reachable d) (i : Int) :
    0 ≤ d.Len ∧
    (d.Len = 0 → d.Get i = some (default, some Error.ErrEmpty)) ∧
    (d.Len ≠ 0 → (i < 0 ∨ d.Len ≤ i) → d.Get i = some (default, some Error.ErrOutOfRange)) ∧
    (0 ≤ i → i < d.Len → d.Get i = some (d.elem i.toNat, none)) := by
  obtain ⟨hI, _⟩ := reachable_inv d h
  have hfl : d.first ≤ d.last := hI.2.1
  refine ⟨by rw [Len_def]; omega, ?_, ?_, ?_⟩
  · intro h0
    simp [Deque.Get, h0]
  · intro h0 hi
    have hi2 : i < 0 ∨ i ≥ d.Len := hi
    simp [Deque.Get, h0, hi2]
  · intro h0 h1
    obtain ⟨n, rfl⟩ := Int.eq_ofNat_of_zero_le h0
    rw [Int.toNat_ofNat]
    exact Get_elem d n h1 (le_of_lt hI.2.2.1)

/-! ### The claims at the deque 1, 2 -/

theorem pushBack_new_one : (NewDeque : Deque Nat).PushBack 1 = some dequeOne := rfl

theorem pushBack_one_two : dequeOne.PushBack 2 = some dequeOneTwo := rfl

/-- The deque 1, 2 is reachable. -/
theorem reachable_oneTwo : Reachable dequeOneTwo :=
  Reachable.pushBack dequeOne dequeOneTwo 2
    (Reachable.pushBack NewDeque dequeOne 1 Reachable.new pushBack_new_one
      (by show (64 : Nat) < 2 ^ 53; norm_num))
    pushBack_one_two (by show (64 : Nat) < 2 ^ 53; norm_num)

theorem get_bounds_checked_witness :
    dequeOneTwo.Len = 2 ∧
    dequeOneTwo.Get 0 = some (1, none) ∧ dequeOneTwo.Get 1 = some (2, none) ∧
    dequeOneTwo.Get 2 = some (0, some Error.ErrOutOfRange) ∧
    dequeOneTwo.Get (-1) = some (0, some Error.ErrOutOfRange) ∧
    (NewDeque : Deque Nat).Get 0 = some (0, some Error.ErrEmpty) :=
  ⟨by decide,
    (get_bounds_checked dequeOneTwo reachable_oneTwo 0).2.2.2 (by decide) (by decide),
    (get_bounds_checked dequeOneTwo reachable_oneTwo 1).2.2.2 (by decide) (by decide),
    (get_bounds_checked dequeOneTwo reachable_oneTwo 2).2.2.1 (by decide)
      (Or.inr (by decide)),
    (get_bounds_checked dequeOneTwo reachable_oneTwo (-1)).2.2.1 (by decide)
      (Or.inl (by decide)),
    (get_bounds_checked NewDeque Reachable.new 0).2.1 (by decide)⟩

end Containers

end Gutils

